import Mathlib

/-! The generalized information filter: timeline, element traits and the IMU update.

A shallow embedding of `src/measurement.cc`, of the element traits of `element.h`, of
the `TransformationExample` of `test-simple.cc` and of `ImurorUpdate` of
`imuror-update.h` (in real arithmetic).

The ordered containers `std::map<TimePoint, ElementVectorBase::CPtr>` and
`std::set<TimePoint>` are lists kept in strictly increasing key order; an iterator is a
position in the list.  The measurement payload (`ElementVectorBase::CPtr`) is a type
parameter `P`, instantiated with `CPtr M` where a null pointer is needed.  A `double` is an
element of a field where arithmetic is taken as exact, and a `Double` (binary64 with
rounding) where it is not.
-/

namespace GIF

/-! ## Time -/

/-- Two's-complement reduction of an exact integer to the signed 64-bit range. -/
def wrap64 (x : Int) : Int :=
  (x + 9223372036854775808) % 18446744073709551616 - 9223372036854775808

/-- Modelled from the spec: `TimePoint` of `common.h` (not part of the sources), a
totally ordered clock reading with `min()`/`max()` sentinels.  It is a tick count in
the signed 64-bit range, as for `std::chrono` clocks. -/
structure TimePoint where
  ticks : Int
  lo : -9223372036854775808 ≤ ticks
  hi : ticks ≤ 9223372036854775807
  deriving DecidableEq

/-- Modelled from the spec: `Duration` of `common.h` (not part of the sources), a
signed 64-bit tick count. -/
structure Duration where
  ticks : Int
  lo : -9223372036854775808 ≤ ticks
  hi : ticks ≤ 9223372036854775807
  deriving DecidableEq

/-- The time point with tick count `n`, reduced to the 64-bit range. -/
def TimePoint.ofInt (n : Int) : TimePoint :=
  ⟨wrap64 n, by unfold wrap64; omega, by unfold wrap64; omega⟩

/-- The duration with tick count `n`, reduced to the 64-bit range. -/
def Duration.ofInt (n : Int) : Duration :=
  ⟨wrap64 n, by unfold wrap64; omega, by unfold wrap64; omega⟩

/-- The sentinel `TimePoint::min()`. -/
def TimePoint.min : TimePoint := ⟨-9223372036854775808, by decide, by decide⟩

/-- The sentinel `TimePoint::max()`. -/
def TimePoint.max : TimePoint := ⟨9223372036854775807, by decide, by decide⟩

instance : LinearOrder TimePoint :=
  LinearOrder.lift' TimePoint.ticks (fun a b h => by cases a; cases b; simp_all)

/-- `TimePoint + Duration` on 64-bit ticks. -/
instance : HAdd TimePoint Duration TimePoint := ⟨fun t d => TimePoint.ofInt (t.ticks + d.ticks)⟩

/-- `TimePoint - Duration` on 64-bit ticks. -/
instance : HSub TimePoint Duration TimePoint := ⟨fun t d => TimePoint.ofInt (t.ticks - d.ticks)⟩

/-- `std::max(a, b)`: `b` when `a < b`, else `a`. -/
def stdMax (a b : TimePoint) : TimePoint := if a < b then b else a

/-! ## Ordered containers -/

/-- A `std::set<TimePoint>`: its elements in increasing order. -/
abbrev TimeSet := List TimePoint

/-- `std::set::insert`: ordered insertion, nothing is added when the element is present. -/
def setInsert : TimeSet → TimePoint → TimeSet
  | [], t => [t]
  | k :: rest, t =>
    if t < k then t :: k :: rest
    else if k < t then k :: setInsert rest t
    else k :: rest

/-- The keys of a map, in storage order. -/
def keys {P : Type} (m : List (TimePoint × P)) : List TimePoint := m.map Prod.fst

/-- The container invariant of `std::map` and `std::set`: strictly increasing keys. -/
def Ascending (l : List TimePoint) : Prop := l.Pairwise (· < ·)

instance (l : List TimePoint) : Decidable (Ascending l) :=
  inferInstanceAs (Decidable (l.Pairwise (· < ·)))

/-- `std::map::insert`: ordered insertion; the flag is false, and the map unchanged,
when the key is present. -/
def mapInsert {P : Type} : List (TimePoint × P) → TimePoint → P → List (TimePoint × P) × Bool
  | [], t, meas => ([(t, meas)], true)
  | (k, v) :: rest, t, meas =>
    if t < k then ((t, meas) :: (k, v) :: rest, true)
    else if k < t then ((k, v) :: (mapInsert rest t meas).1, (mapInsert rest t meas).2)
    else ((k, v) :: rest, false)

/-- `std::map::find`: the value stored under the key, if any. -/
def mapFind {P : Type} : List (TimePoint × P) → TimePoint → Option P
  | [], _ => none
  | (k, v) :: rest, t => if k = t then some v else mapFind rest t

/-- `std::map::upper_bound`: the position of the first entry whose key is greater than
`t`; the size of the map (`end()`) when there is none. -/
def upper_bound {P : Type} : List (TimePoint × P) → TimePoint → Nat
  | [], _ => 0
  | (k, _) :: rest, t => if t < k then 0 else upper_bound rest t + 1

/-! ## The timeline -/

/-- The members of `MeasurementTimeline`. -/
structure MeasurementTimeline (P : Type) where
  drop_first_ : Bool
  max_wait_time_ : Duration
  min_wait_time_ : Duration
  last_processed_time_ : TimePoint
  meas_map_ : List (TimePoint × P)
  deriving DecidableEq

namespace MeasurementTimeline

variable {P : Type}

/-- The constructor `MeasurementTimeline(drop_first, max_wait_time, min_wait_time)`. -/
def construct (drop_first : Bool) (max_wait_time min_wait_time : Duration) :
    MeasurementTimeline P :=
  { drop_first_ := drop_first
    max_wait_time_ := max_wait_time
    min_wait_time_ := min_wait_time
    last_processed_time_ := TimePoint.min
    meas_map_ := [] }

/-- `AddMeasurement(meas, t)`. -/
def AddMeasurement (tl : MeasurementTimeline P) (meas : P) (t : TimePoint) :
    MeasurementTimeline P :=
  if tl.drop_first_ = true ∧ tl.last_processed_time_ = TimePoint.min then
    { tl with last_processed_time_ := t }
  else if t ≤ tl.last_processed_time_ then
    tl
  else
    { tl with meas_map_ := (mapInsert tl.meas_map_ t meas).1 }

/-- `GetMeasurement(t, meas)`: the returned flag and the value of the reference
argument `meas` after the call. -/
def GetMeasurement (tl : MeasurementTimeline P) (t : TimePoint) (meas : P) : Bool × P :=
  match mapFind tl.meas_map_ t with
  | none => (false, meas)
  | some v => (true, v)

/-- `RemoveProcessedFirst()`.  On an empty map the source dereferences `begin()`, which
is undefined: there is no result. -/
def RemoveProcessedFirst (tl : MeasurementTimeline P) : Option (MeasurementTimeline P) :=
  match tl.meas_map_ with
  | [] => none
  | (k, _) :: rest => some { tl with last_processed_time_ := k, meas_map_ := rest }

/-- `GetLastTime()`. -/
def GetLastTime (tl : MeasurementTimeline P) : TimePoint :=
  match tl.meas_map_.getLast? with
  | some (k, _) => k
  | none => tl.last_processed_time_

/-- `GetMaximalUpdateTime(current_time)`. -/
def GetMaximalUpdateTime (tl : MeasurementTimeline P) (current_time : TimePoint) : TimePoint :=
  let maximalUpdateTime := current_time - tl.max_wait_time_
  match tl.meas_map_.getLast? with
  | some (k, _) => stdMax maximalUpdateTime (k + tl.min_wait_time_)
  | none => stdMax maximalUpdateTime (tl.last_processed_time_ + tl.min_wait_time_)

/-- The loop of `GetAllInRange` from the iterator `it` on, given as the entries from
`it` to `end()`. -/
def GetAllInRange.loop (end_ : TimePoint) : List (TimePoint × P) → TimeSet → TimeSet
  | [], times => times
  | (k, _) :: rest, times =>
    if k ≤ end_ then GetAllInRange.loop end_ rest (setInsert times k) else times

/-- `GetAllInRange(times, start, end)`: the set `times` after the call (the method is
`const`). -/
def GetAllInRange (tl : MeasurementTimeline P) (times : TimeSet) (start end_ : TimePoint) :
    TimeSet :=
  GetAllInRange.loop end_ (tl.meas_map_.drop (upper_bound tl.meas_map_ start)) times

/-- `GetLastInRange(times, start, end)`: the set `times` after the call (the method is
`const`). -/
def GetLastInRange (tl : MeasurementTimeline P) (times : TimeSet) (start end_ : TimePoint) :
    TimeSet :=
  let it := upper_bound tl.meas_map_ end_
  if it ≠ 0 then
    match tl.meas_map_[it - 1]? with
    | some (k, _) => if start < k then setInsert times k else times
    | none => times
  else times

/-- The loop of `RemoveOutdated`, run for at most `fuel` iterations. -/
def RemoveOutdated.loop (time : TimePoint) : Nat → MeasurementTimeline P → MeasurementTimeline P
  | 0, tl => tl
  | fuel + 1, tl =>
    match tl.meas_map_.head? with
    | some (k, _) =>
      if k ≤ time then
        match tl.RemoveProcessedFirst with
        | some tl1 => RemoveOutdated.loop time fuel tl1
        | none => tl
      else tl
    | none => tl

/-- `RemoveOutdated(time)`.  Every iteration erases an entry, so the size of the map
bounds the number of iterations. -/
def RemoveOutdated (tl : MeasurementTimeline P) (time : TimePoint) : MeasurementTimeline P :=
  RemoveOutdated.loop time tl.meas_map_.length tl

/-- A call of one of the mutators `AddMeasurement`, `RemoveProcessedFirst`,
`RemoveOutdated`. -/
inductive Call (P : Type) where
  | addMeasurement (meas : P) (t : TimePoint)
  | removeProcessedFirst
  | removeOutdated (time : TimePoint)

/-- The timeline after one call; none for `RemoveProcessedFirst` on an empty timeline. -/
def call (tl : MeasurementTimeline P) : Call P → Option (MeasurementTimeline P)
  | .addMeasurement meas t => some (tl.AddMeasurement meas t)
  | .removeProcessedFirst => tl.RemoveProcessedFirst
  | .removeOutdated time => some (tl.RemoveOutdated time)

/-- The timeline after a sequence of calls, each applied to the result of the one before. -/
def calls (tl : MeasurementTimeline P) : List (Call P) → Option (MeasurementTimeline P)
  | [] => some tl
  | c :: cs =>
    match tl.call c with
    | some tl1 => calls tl1 cs
    | none => none

/-- The state invariant of a timeline: the map is ordered, every stored key is later
than `last_processed_time_`, and nothing is stored as long as the first measurement is
still to be dropped. -/
def Valid (tl : MeasurementTimeline P) : Prop :=
  Ascending (keys tl.meas_map_) ∧
  (∀ k ∈ keys tl.meas_map_, tl.last_processed_time_ < k) ∧
  (tl.drop_first_ = true → tl.last_processed_time_ = TimePoint.min → tl.meas_map_ = [])

end MeasurementTimeline

/-! ## Splitting and merging -/

/-- An `ElementVectorBase::CPtr`: a shared pointer to a constant measurement, null (none)
or pointing to a measurement. -/
abbrev CPtr (M : Type) := Option M

/-- Modelled from the spec: the part of `BinaryResidualBase` (`binary-residual.h`, not part
of the sources) that the timeline calls, the two measurement policies of a residual.  Each
gives the values of its reference arguments after the call from the values of its arguments
before the call, as the timeline passes them. -/
structure BinaryResidualBase (M : Type) where
  /-- `SplitMeasurements(t0, t1, t2, in, out1, out2)`: the values of `out1` and of `out2`
  after the call. -/
  SplitMeasurements :
    TimePoint → TimePoint → TimePoint → CPtr M → CPtr M → CPtr M → CPtr M × CPtr M
  /-- `MergeMeasurements(t0, t1, t2, in1, in2, out)`: the value of `out` after the call. -/
  MergeMeasurements : TimePoint → TimePoint → TimePoint → CPtr M → CPtr M → CPtr M → CPtr M

/-- Modelled from the spec: the default policies of a residual, a split that copies the
measurement to both parts and a merge that picks the later measurement. -/
def defaultResidual (M : Type) : BinaryResidualBase M where
  SplitMeasurements := fun _ _ _ in_ _ _ => (in_, in_)
  MergeMeasurements := fun _ _ _ _ in2 _ => in2

/-- A residual whose `MergeMeasurements` undoes its `SplitMeasurements`: merging the two
parts of a split, as the timeline passes them, gives back the measurement that was split. -/
def BinaryResidualBase.MergeUndoesSplit {M : Type} (res : BinaryResidualBase M) : Prop :=
  ∀ (t0 t1 t2 : TimePoint) (meas out1 : CPtr M),
    res.MergeMeasurements t0 t1 t2 (res.SplitMeasurements t0 t1 t2 meas out1 meas).1
      (res.SplitMeasurements t0 t1 t2 meas out1 meas).2
      (res.SplitMeasurements t0 t1 t2 meas out1 meas).2 = meas

/-- Assignment through the reference that `std::map::at(t)` returns: the value stored
under the key `t` is replaced. -/
def mapSet {P : Type} : List (TimePoint × P) → TimePoint → P → List (TimePoint × P)
  | [], _, _ => []
  | (k, v) :: rest, t, w => if k = t then (k, w) :: rest else (k, v) :: mapSet rest t w

/-- `std::map::erase(t)`: the entry of the key `t` is removed. -/
def mapErase {P : Type} : List (TimePoint × P) → TimePoint → List (TimePoint × P)
  | [], _ => []
  | (k, v) :: rest, t => if k = t then rest else (k, v) :: mapErase rest t

/-- `std::map::lower_bound`: the position of the first entry whose key is not less than
`t`; the size of the map (`end()`) when there is none. -/
def lower_bound {P : Type} : List (TimePoint × P) → TimePoint → Nat
  | [], _ => 0
  | (k, _) :: rest, t => if k < t then lower_bound rest t + 1 else 0

namespace MeasurementTimeline

variable {M : Type}

/-- `Split(t0, t1, t2, res)`.  The order of the times is only logged (`DLOG_IF`).  There
is no result when `meas_map_.at(t2)` or `meas_map_.at(t1)` throws `std::out_of_range`.
`in` and `out2` are the same object, the slot of `t2`; when `t1 = t2` the slot is taken
to hold the value of `out2`. -/
def Split (tl : MeasurementTimeline (CPtr M)) (t0 t1 t2 : TimePoint)
    (res : BinaryResidualBase M) : Option (MeasurementTimeline (CPtr M)) :=
  let tl1 := tl.AddMeasurement none t1
  match mapFind tl1.meas_map_ t2, mapFind tl1.meas_map_ t1 with
  | some in_, some out1 =>
    some { tl1 with
      meas_map_ :=
        mapSet (mapSet tl1.meas_map_ t1 (res.SplitMeasurements t0 t1 t2 in_ out1 in_).1) t2
          (res.SplitMeasurements t0 t1 t2 in_ out1 in_).2 }
  | _, _ => none

/-- The body of the loop of `Split(times, res)` for the element `t` of `times`. -/
def SplitSet.step (tl : MeasurementTimeline (CPtr M)) (t : TimePoint)
    (res : BinaryResidualBase M) : Option (MeasurementTimeline (CPtr M)) :=
  let it := lower_bound tl.meas_map_ t
  match tl.meas_map_[it]? with
  | none => some tl
  | some (k, _) =>
    if k = t then some tl
    else
      let previous :=
        if it = 0 then tl.last_processed_time_
        else
          match tl.meas_map_[it - 1]? with
          | some (p, _) => p
          | none => tl.last_processed_time_
      tl.Split previous t k res

/-- `Split(times, res)`, the overload on a set of times: the elements of `times` are
visited in increasing order. -/
def SplitSet (tl : MeasurementTimeline (CPtr M)) (times : TimeSet)
    (res : BinaryResidualBase M) : Option (MeasurementTimeline (CPtr M)) :=
  match times with
  | [] => some tl
  | t :: rest =>
    match SplitSet.step tl t res with
    | some tl1 => SplitSet tl1 rest res
    | none => none

/-- `Merge(t0, t1, t2, res)`.  The order of the times is only logged (`DLOG_IF`).  There
is no result when `meas_map_.at(t1)` or `meas_map_.at(t2)` throws `std::out_of_range`.
`in2` and `out` are the same object, the slot of `t2`. -/
def Merge (tl : MeasurementTimeline (CPtr M)) (t0 t1 t2 : TimePoint)
    (res : BinaryResidualBase M) : Option (MeasurementTimeline (CPtr M)) :=
  match mapFind tl.meas_map_ t1, mapFind tl.meas_map_ t2 with
  | some in1, some in2 =>
    some { tl with
      meas_map_ :=
        mapErase (mapSet tl.meas_map_ t2 (res.MergeMeasurements t0 t1 t2 in1 in2 in2)) t1 }
  | _, _ => none

/-- The loop of `MergeUndesired` with the iterator at position `it`, run for at most `fuel`
iterations; `last_time` is `*times.rbegin()`.  After `Merge` has erased the entry at
position `it`, the incremented iterator is at position `it` again. -/
def MergeUndesired.loop (times : TimeSet) (last_time : TimePoint) (res : BinaryResidualBase M) :
    Nat → Nat → MeasurementTimeline (CPtr M) → Option (MeasurementTimeline (CPtr M))
  | 0, _, tl => some tl
  | fuel + 1, it, tl =>
    match tl.meas_map_[it]? with
    | none => some tl
    | some (k, _) =>
      if last_time < k then some tl
      else if k ∈ times then MergeUndesired.loop times last_time res fuel (it + 1) tl
      else
        match tl.meas_map_[it + 1]? with
        | none => some tl
        | some (k2, _) =>
          let previous :=
            if it = 0 then tl.last_processed_time_
            else
              match tl.meas_map_[it - 1]? with
              | some (p, _) => p
              | none => tl.last_processed_time_
          match tl.Merge previous k k2 res with
          | some tl1 => MergeUndesired.loop times last_time res fuel it tl1
          | none => none

/-- `MergeUndesired(times, res)`.  Every iteration advances the iterator or erases an
entry, so the size of the map bounds the number of iterations. -/
def MergeUndesired (tl : MeasurementTimeline (CPtr M)) (times : TimeSet)
    (res : BinaryResidualBase M) : Option (MeasurementTimeline (CPtr M)) :=
  match times.getLast? with
  | none => some tl
  | some last_time => MergeUndesired.loop times last_time res tl.meas_map_.length 0 tl

/-- The calls `Merge(t0, t1, t2, res)` of a list, made one after the other on the timeline;
there is no result when one of the calls has none. -/
def MergeEach (tl : MeasurementTimeline (CPtr M)) (res : BinaryResidualBase M) :
    List (TimePoint × TimePoint × TimePoint) → Option (MeasurementTimeline (CPtr M))
  | [] => some tl
  | (t0, t1, t2) :: rest =>
    match tl.Merge t0 t1 t2 res with
    | some tl1 => MergeEach tl1 res rest
    | none => none

/-- The merges that the description of `MergeUndesired` asks for, read off the stored keys
in ascending order: a key that is not greater than `last_time`, is not in `times` and has a
right neighbour is merged into that neighbour by `Merge(previous, key, neighbour)`, where
`previous` is the nearest key on the left that is in `times` (`last_processed_time_` when
there is none); nothing is merged from the first key greater than `last_time` on, and the
last key has no right neighbour. -/
def MergeUndesired.specCalls (times : TimeSet) (last_time : TimePoint) :
    TimePoint → List TimePoint → List (TimePoint × TimePoint × TimePoint)
  | previous, k :: k2 :: rest =>
    if last_time < k then []
    else if k ∈ times then MergeUndesired.specCalls times last_time k (k2 :: rest)
    else (previous, k, k2) :: MergeUndesired.specCalls times last_time previous (k2 :: rest)
  | _, _ => []

/-- The key of the last entry of the part `pre` of a map before an iterator, which is
`std::prev(it)->first`, or `last_processed_time` when the iterator is at `begin()`. -/
def previousKey {P : Type} (pre : List (TimePoint × P)) (last_processed_time : TimePoint) :
    TimePoint :=
  match pre.getLast? with
  | some (p, _) => p
  | none => last_processed_time

end MeasurementTimeline

/-! ## Element traits

`element.h`.  A `double` is an element of a field `K` (exact arithmetic), `Vec<N>` a column
of `N` scalars, `Mat<N>` an `N × N` matrix and `std::array<T, N>` a function on `Fin N`.
-/

/-- `Vec<N>`: a column of `N` scalars. -/
abbrev Vec (K : Type) (N : Nat) := Fin N → K

/-- `vec.block<d, 1>(start, 0)`: the entries `start, ..., start + d - 1` of a column. -/
def block {K : Type} {n : Nat} (vec : Vec K n) (start d : Nat) (h : start + d ≤ n) : Vec K d :=
  fun j => vec ⟨start + j.val, by have := j.isLt; omega⟩

/-- Assignment of `b` to `vec.block<d, 1>(start, 0)`. -/
def setBlock {K : Type} {n : Nat} (vec : Vec K n) (start d : Nat) (b : Vec K d) : Vec K n :=
  fun j =>
    if h : start ≤ j.val ∧ j.val < start + d then b ⟨j.val - start, by omega⟩ else vec j

/-- Assignment of `B` to `J.block<br, bc>(r0, c0)`. -/
def setMatBlock {K : Type} {r c br bc : Nat} (J : Matrix (Fin r) (Fin c) K) (r0 c0 : Nat)
    (B : Matrix (Fin br) (Fin bc) K) : Matrix (Fin r) (Fin c) K :=
  Matrix.of fun i j =>
    if h : (r0 ≤ i.val ∧ i.val < r0 + br) ∧ (c0 ≤ j.val ∧ j.val < c0 + bc) then
      B ⟨i.val - r0, by omega⟩ ⟨j.val - c0, by omega⟩
    else J i j

/-- The tangent slice of the `i`-th element of an array:
`vec.block<kElementDim, 1>(i * kElementDim, 0)`. -/
def slice {K : Type} {N d : Nat} (vec : Vec K (N * d)) (i : Fin N) : Vec K d :=
  block vec (i.val * d) d
    (by have h := Nat.mul_le_mul_right d i.isLt; rw [Nat.succ_mul] at h; exact h)

/-- The block of the rows of element `i` and the columns of element `k` of the Jacobian of
an array of `N` elements of dimension `d`: `J.block<d, d>(i * d, k * d)`. -/
def matBlock {K : Type} {N d : Nat} (J : Matrix (Fin (N * d)) (Fin (N * d)) K) (i k : Fin N) :
    Matrix (Fin d) (Fin d) K :=
  Matrix.of fun r c =>
    J ⟨i.val * d + r.val, by
        have h := Nat.mul_le_mul_right d i.isLt
        rw [Nat.succ_mul] at h
        have := r.isLt
        omega⟩
      ⟨k.val * d + c.val, by
        have h := Nat.mul_le_mul_right d k.isLt
        rw [Nat.succ_mul] at h
        have := c.isLt
        omega⟩

/-- The static members of an `ElementTraits<T>`.  `Boxplus` gives the value of `out` after
the call; `Boxminus` gives the value of the reference argument `vec` after the call from
its value before the call. -/
structure ElementTraits (K : Type) (T : Type) where
  kIsVectorSpace : Bool
  kDim : Nat
  Boxplus : T → Vec K kDim → T
  Boxminus : T → T → Vec K kDim → Vec K kDim
  BoxplusJacInp : T → Vec K kDim → Matrix (Fin kDim) (Fin kDim) K
  BoxplusJacVec : T → Vec K kDim → Matrix (Fin kDim) (Fin kDim) K
  BoxminusJacInp : T → T → Matrix (Fin kDim) (Fin kDim) K
  BoxminusJacRef : T → T → Matrix (Fin kDim) (Fin kDim) K

namespace ElementTraits

variable {K : Type} [Field K]

/-- The primary template `ElementTraits<T>`: the default for elements of dimension zero. -/
def zeroDim (K : Type) [Field K] (T : Type) : ElementTraits K T where
  kIsVectorSpace := true
  kDim := 0
  Boxplus := fun ref _ => ref
  Boxminus := fun _ _ vec => vec
  BoxplusJacInp := fun _ _ => 1
  BoxplusJacVec := fun _ _ => 1
  BoxminusJacInp := fun _ _ => 1
  BoxminusJacRef := fun _ _ => 1

/-- `ElementTraits<double>`. -/
def scalar (K : Type) [Field K] : ElementTraits K K where
  kIsVectorSpace := true
  kDim := 1
  Boxplus := fun in_ vec => in_ + vec 0
  Boxminus := fun in_ ref vec => setBlock vec 0 1 (fun _ => in_ - ref)
  BoxplusJacInp := fun _ _ => 1
  BoxplusJacVec := fun _ _ => 1
  BoxminusJacInp := fun _ _ => 1
  BoxminusJacRef := fun _ _ => -1

/-- `ElementTraits<Vec<N>>`. -/
def vec (K : Type) [Field K] (N : Nat) : ElementTraits K (Vec K N) where
  kIsVectorSpace := true
  kDim := N
  Boxplus := fun in_ vec => in_ + vec
  Boxminus := fun in_ ref _ => in_ - ref
  BoxplusJacInp := fun _ _ => 1
  BoxplusJacVec := fun _ _ => 1
  BoxminusJacInp := fun _ _ => 1
  BoxminusJacRef := fun _ _ => -1

/-- `ElementTraits<std::array<T, N>>` over the traits `tr` of `T`.  The loops over
`i = 0, ..., N - 1` are folds over the indices. -/
def array {T : Type} (tr : ElementTraits K T) (N : Nat) : ElementTraits K (Fin N → T) where
  kIsVectorSpace := tr.kIsVectorSpace
  kDim := N * tr.kDim
  Boxplus := fun in_ vec i => tr.Boxplus (in_ i) (slice vec i)
  Boxminus := fun in_ ref vec =>
    (List.finRange N).foldl
      (fun acc i =>
        setBlock acc (i.val * tr.kDim) tr.kDim (tr.Boxminus (in_ i) (ref i) (slice acc i)))
      vec
  BoxplusJacInp := fun in_ vec =>
    (List.finRange N).foldl
      (fun J i =>
        setMatBlock J (i.val * tr.kDim) (i.val * tr.kDim) (tr.BoxplusJacInp (in_ i) (slice vec i)))
      0
  BoxplusJacVec := fun in_ vec =>
    (List.finRange N).foldl
      (fun J i =>
        setMatBlock J (i.val * tr.kDim) (i.val * tr.kDim) (tr.BoxplusJacVec (in_ i) (slice vec i)))
      0
  BoxminusJacInp := fun in_ ref =>
    (List.finRange N).foldl
      (fun J i =>
        setMatBlock J (i.val * tr.kDim) (i.val * tr.kDim) (tr.BoxminusJacInp (in_ i) (ref i)))
      0
  BoxminusJacRef := fun in_ ref =>
    (List.finRange N).foldl
      (fun J i =>
        setMatBlock J (i.val * tr.kDim) (i.val * tr.kDim) (tr.BoxminusJacRef (in_ i) (ref i)))
      0

/-- The difference quotient of `Boxplus(in, vec)` in `in`, with step `h`: column `j` is
`(Boxplus(in ⊞ h e_j, vec) ⊟ Boxplus(in, vec)) / h`. -/
def fdBoxplusInp {T : Type} (tr : ElementTraits K T) (in_ : T) (vec : Vec K tr.kDim) (h : K) :
    Matrix (Fin tr.kDim) (Fin tr.kDim) K :=
  Matrix.of fun i j =>
    tr.Boxminus (tr.Boxplus (tr.Boxplus in_ (Pi.single j h)) vec) (tr.Boxplus in_ vec) 0 i / h

/-- The difference quotient of `Boxplus(in, vec)` in `vec`, with step `h`: column `j` is
`(Boxplus(in, vec + h e_j) ⊟ Boxplus(in, vec)) / h`. -/
def fdBoxplusVec {T : Type} (tr : ElementTraits K T) (in_ : T) (vec : Vec K tr.kDim) (h : K) :
    Matrix (Fin tr.kDim) (Fin tr.kDim) K :=
  Matrix.of fun i j =>
    tr.Boxminus (tr.Boxplus in_ (vec + Pi.single j h)) (tr.Boxplus in_ vec) 0 i / h

/-- The difference quotient of `Boxminus(in, ref)` in `in`, with step `h`: column `j` is
`(Boxminus(in ⊞ h e_j, ref) - Boxminus(in, ref)) / h`. -/
def fdBoxminusInp {T : Type} (tr : ElementTraits K T) (in_ ref : T) (h : K) :
    Matrix (Fin tr.kDim) (Fin tr.kDim) K :=
  Matrix.of fun i j =>
    (tr.Boxminus (tr.Boxplus in_ (Pi.single j h)) ref 0 i - tr.Boxminus in_ ref 0 i) / h

/-- The difference quotient of `Boxminus(in, ref)` in `ref`, with step `h`: column `j` is
`(Boxminus(in, ref ⊞ h e_j) - Boxminus(in, ref)) / h`. -/
def fdBoxminusRef {T : Type} (tr : ElementTraits K T) (in_ ref : T) (h : K) :
    Matrix (Fin tr.kDim) (Fin tr.kDim) K :=
  Matrix.of fun i j =>
    (tr.Boxminus in_ (tr.Boxplus ref (Pi.single j h)) 0 i - tr.Boxminus in_ ref 0 i) / h

end ElementTraits

/-! ## Element vectors and the transformation of the test -/

/-- Modelled from the spec: `ElementVector::BoxPlus` of `element-vector.h` (not part of the
sources) for a definition of two elements: each element is moved by its own traits over
its slice of the tangent vector, the offsets being the prefix sums of the dimensions. -/
def packBoxPlus {K T1 T2 : Type} (tr1 : ElementTraits K T1) (tr2 : ElementTraits K T2)
    (x : T1 × T2) (v : Vec K (tr1.kDim + tr2.kDim)) : T1 × T2 :=
  (tr1.Boxplus x.1 (block v 0 tr1.kDim (by omega)),
   tr2.Boxplus x.2 (block v tr1.kDim tr2.kDim (le_refl _)))

/-- Modelled from the spec: `ElementVector::BoxMinus` of `element-vector.h` (not part of
the sources) for a definition of two elements: the value of the tangent vector `v` after
`x.BoxMinus(ref, v)`. -/
def packBoxMinus {K T1 T2 : Type} (tr1 : ElementTraits K T1) (tr2 : ElementTraits K T2)
    (x ref : T1 × T2) (v : Vec K (tr1.kDim + tr2.kDim)) : Vec K (tr1.kDim + tr2.kDim) :=
  setBlock
    (setBlock v 0 tr1.kDim (tr1.Boxminus x.1 ref.1 (block v 0 tr1.kDim (by omega))))
    tr1.kDim tr2.kDim
    (tr2.Boxminus x.2 ref.2
      (block (setBlock v 0 tr1.kDim (tr1.Boxminus x.1 ref.1 (block v 0 tr1.kDim (by omega))))
        tr1.kDim tr2.kDim (le_refl _)))

namespace TransformationExample

variable {K : Type} [Field K]

/-- The traits of the two input elements `tim : double` and `sta : std::array<Vec3, 4>`. -/
def timTraits (K : Type) [Field K] : ElementTraits K K := ElementTraits.scalar K

/-- The traits of the input element `sta : std::array<Vec3, 4>`. -/
def staTraits (K : Type) [Field K] : ElementTraits K (Fin 4 → Vec K 3) :=
  ElementTraits.array (ElementTraits.vec K 3) 4

/-- `TransformationExample::Transform`: `posOut = (timeIn + 1.0) * (posIn[2] + Vec3(1, 2, 3))`. -/
def Transform (timeIn : K) (posIn : Fin 4 → Vec K 3) : Vec K 3 :=
  fun i => (timeIn + 1) * (posIn 2 i + ![1, 2, 3] i)

/-- `TransformationExample::JacTransform`.  Modelled from the spec: `GetJacBlock<i, j>(J)`
(`transformation.h`, not part of the sources) is the block of the rows of output element
`i` and the columns of input element `j`: `<0, 0>` is the 3 × 1 block at column 0 (`tim`),
`<0, 1>` the 3 × 12 block at column 1 (`sta`). -/
def JacTransform (_timeIn : K) (_posIn : Fin 4 → Vec K 3) : Matrix (Fin 3) (Fin 13) K :=
  setMatBlock
    (setMatBlock (0 : Matrix (Fin 3) (Fin 13) K) 0 0
      (Matrix.of fun (i : Fin 3) (_ : Fin 1) => (![1, 2, 3] : Vec K 3) i))
    0 1
    (setMatBlock (0 : Matrix (Fin 3) (Fin 12) K) 0 6 (1 : Matrix (Fin 3) (Fin 3) K))

/-- Modelled from the spec: the finite-difference Jacobian of `Transform` with step `delta`
(`JacFD` of `transformation.h`, not part of the sources): column `j` is
`(Transform(in ⊞ delta e_j) ⊟ Transform(in)) / delta`. -/
def JacFD (timeIn : K) (posIn : Fin 4 → Vec K 3) (delta : K) : Matrix (Fin 3) (Fin 13) K :=
  Matrix.of fun i j =>
    (ElementTraits.vec K 3).Boxminus
      (Transform (packBoxPlus (timTraits K) (staTraits K) (timeIn, posIn) (Pi.single j delta)).1
        (packBoxPlus (timTraits K) (staTraits K) (timeIn, posIn) (Pi.single j delta)).2)
      (Transform timeIn posIn) 0 i / delta

end TransformationExample

namespace MeasurementTimeline

variable {M : Type}

/-- The arguments `(t0, t1, t2)` with which the loop body of `Split(times, res)` calls the
inner `Split` for the element `t` of `times`; none when the body reaches a `continue`. -/
def SplitSet.innerCall (tl : MeasurementTimeline (CPtr M)) (t : TimePoint) :
    Option (TimePoint × TimePoint × TimePoint) :=
  let it := lower_bound tl.meas_map_ t
  match tl.meas_map_[it]? with
  | none => none
  | some (k, _) =>
    if k = t then none
    else
      let previous :=
        if it = 0 then tl.last_processed_time_
        else
          match tl.meas_map_[it - 1]? with
          | some (p, _) => p
          | none => tl.last_processed_time_
      some (previous, t, k)

/-- The inner calls that `Split(times, res)` makes, in order: each with the timeline it is
applied to and its arguments `(t0, t1, t2)`.  The list ends with the first call that has
no result. -/
def SplitSet.innerCalls (tl : MeasurementTimeline (CPtr M)) (times : TimeSet)
    (res : BinaryResidualBase M) :
    List (MeasurementTimeline (CPtr M) × TimePoint × TimePoint × TimePoint) :=
  match times with
  | [] => []
  | t :: rest =>
    match SplitSet.innerCall tl t with
    | none => SplitSet.innerCalls tl rest res
    | some c =>
      match tl.Split c.1 c.2.1 c.2.2 res with
      | some tl1 => (tl, c) :: SplitSet.innerCalls tl1 rest res
      | none => [(tl, c)]

end MeasurementTimeline

/-! ## The IMU rotational-rate update

`imuror-update.h`, in real arithmetic. -/

/-- `Vec3::norm()`: the Euclidean norm of a vector of three scalars. -/
noncomputable def Vec3.norm (v : Vec ℝ 3) : ℝ := Real.sqrt (v 0 * v 0 + v 1 * v 1 + v 2 * v 2)

/-- The state of an `ImurorUpdate`: its member `huberTh_`.  Modelled from the spec: the time
step `dt_` and the value `MwM_` of the bound measurement `meas_` are members of the base
class (`binary-residual.h`, not part of the sources). -/
structure ImurorUpdate where
  huberTh_ : ℝ
  dt_ : ℝ
  meas_MwM_ : Vec ℝ 3

namespace ImurorUpdate

/-- The constructor, which sets `huberTh_ = -1.0`; the time step and the measurement are
those of the base class. -/
noncomputable def construct (dt : ℝ) (meas_MwM : Vec ℝ 3) : ImurorUpdate :=
  { huberTh_ := -1, dt_ := dt, meas_MwM_ := meas_MwM }

/-- `SetHuberTh(th)`. -/
def SetHuberTh (r : ImurorUpdate) (th : ℝ) : ImurorUpdate := { r with huberTh_ := th }

/-- `Eval`: `MwM_inn = meas_->MwM_ - (MwM_cur + MwM_bias_cur + MwM_noi / sqrt(dt_))`. -/
noncomputable def Eval (r : ImurorUpdate) (MwM_cur MwM_bias_cur MwM_noi : Vec ℝ 3) : Vec ℝ 3 :=
  fun i => r.meas_MwM_ i - (MwM_cur i + MwM_bias_cur i + MwM_noi i / Real.sqrt r.dt_)

/-- `JacCur`.  Modelled from the spec: `GetJacBlockCur<i, j>(J)` (`binary-residual.h`, not
part of the sources) is the block of the rows of innovation element `i` and the columns of
element `j` of the current state: `<ROR, ROR>` is at column 0 and `<ROR, GYB>` at column 3
of the 3 × 6 matrix. -/
def JacCur (_r : ImurorUpdate) (_MwM_cur _MwM_bias_cur _MwM_noi : Vec ℝ 3) :
    Matrix (Fin 3) (Fin 6) ℝ :=
  setMatBlock
    (setMatBlock (0 : Matrix (Fin 3) (Fin 6) ℝ) 0 0 (-(1 : Matrix (Fin 3) (Fin 3) ℝ)))
    0 3 (-(1 : Matrix (Fin 3) (Fin 3) ℝ))

/-- `JacNoi`: the block `<ROR, ROR>` is `-1/sqrt(dt_) * Mat3::Identity()`.  Modelled from
the spec: `GetJacBlockNoi<ROR, ROR>(J)` (`binary-residual.h`, not part of the sources) is the
block at row 0 and column 0 of the 3 × 3 matrix. -/
noncomputable def JacNoi (r : ImurorUpdate) (_MwM_cur _MwM_bias_cur _MwM_noi : Vec ℝ 3) :
    Matrix (Fin 3) (Fin 3) ℝ :=
  setMatBlock (0 : Matrix (Fin 3) (Fin 3) ℝ) 0 0
    ((-1 / Real.sqrt r.dt_) • (1 : Matrix (Fin 3) (Fin 3) ℝ))

/-- `GetNoiseWeighting(inn, i)`; `inn` is given by its first element `inn.GetValue<Vec3>(0)`. -/
noncomputable def GetNoiseWeighting (r : ImurorUpdate) (inn : Vec ℝ 3) (_i : Int) : ℝ :=
  if r.huberTh_ ≥ 0 then
    if Vec3.norm inn > r.huberTh_ then
      Real.sqrt (r.huberTh_ * (Vec3.norm inn - 0.5 * r.huberTh_) / (Vec3.norm inn * Vec3.norm inn))
    else 1
  else 1

end ImurorUpdate

/-! ## Double arithmetic

The arithmetic of `double` on the target: IEEE 754 binary64 with rounding to nearest, ties
to even. -/

/-- The number of binary digits of `n`, counted in at most `fuel` halvings. -/
def bitLength : Nat → Nat → Nat
  | 0, _ => 0
  | fuel + 1, n => if n = 0 then 0 else bitLength fuel (n / 2) + 1

/-- A `double`: a finite value `m * 2 ^ e`, or a value that is not finite (an infinity or a
NaN).  A finite value is kept in the form of its encoding: `|m| < 2 ^ 53` and
`-1074 ≤ e ≤ 971`, with `2 ^ 52 ≤ |m|` unless `e = -1074` (a subnormal value, or zero, which
is `0 * 2 ^ (-1074)`; the two signed zeros compare equal and are one value). -/
inductive Double where
  | finite (m : Int) (e : Int)
  | nonfinite
  deriving DecidableEq

namespace Double

/-- The `double` nearest to the exact value `s * 2 ^ e0`, for `-1074 ≤ e0`: a value of at
most 53 binary digits is exact and is brought to the form of its encoding; a longer one is
rounded to 53 digits, to the nearest value and to the even one of two nearest values; a
result of magnitude `2 ^ 1024` or more is an infinity. -/
def round (s : Int) (e0 : Int) : Double :=
  if s = 0 then finite 0 (-1074)
  else
    let n := s.natAbs
    let len := bitLength n n
    if len ≤ 53 then
      let d := min (53 - len) (e0 + 1074).toNat
      if e0 - d ≤ 971 then finite (s * 2 ^ d) (e0 - d) else nonfinite
    else
      let k := len - 53
      let q := n / 2 ^ k
      let r := n % 2 ^ k
      let q1 := if 2 * r < 2 ^ k ∨ (2 * r = 2 ^ k ∧ q % 2 = 0) then q else q + 1
      let m := if q1 = 2 ^ 53 then 2 ^ 52 else q1
      let e := if q1 = 2 ^ 53 then e0 + k + 1 else e0 + k
      if e ≤ 971 then finite (s.sign * m) e else nonfinite

/-- The sum `a + b` of two values of type `double`: the exact sum of two finite values,
rounded; not finite when an operand is not finite. -/
def add : Double → Double → Double
  | finite m1 e1, finite m2 e2 =>
    round (m1 * 2 ^ (e1 - min e1 e2).toNat + m2 * 2 ^ (e2 - min e1 e2).toNat) (min e1 e2)
  | _, _ => nonfinite

/-- The difference `a - b` of two values of type `double`: the exact difference of two
finite values, rounded; not finite when an operand is not finite. -/
def sub : Double → Double → Double
  | finite m1 e1, finite m2 e2 =>
    round (m1 * 2 ^ (e1 - min e1 e2).toNat - m2 * 2 ^ (e2 - min e1 e2).toNat) (min e1 e2)
  | _, _ => nonfinite

/-- The negation `-a` of a `double`. -/
def neg : Double → Double
  | finite m e => finite (-m) e
  | nonfinite => nonfinite

instance : Add Double := ⟨add⟩

instance : Sub Double := ⟨sub⟩

instance : Neg Double := ⟨neg⟩

instance : Zero Double := ⟨finite 0 (-1074)⟩

instance : One Double := ⟨finite (2 ^ 52) (-52)⟩

end Double

namespace ElementTraits

/-- `ElementTraits<double>` in the arithmetic of `double`: the members of `scalar`, with
the operations of `Double`. -/
def double : ElementTraits Double Double where
  kIsVectorSpace := true
  kDim := 1
  Boxplus := fun in_ vec => in_ + vec 0
  Boxminus := fun in_ ref vec => setBlock vec 0 1 (fun _ => in_ - ref)
  BoxplusJacInp := fun _ _ => 1
  BoxplusJacVec := fun _ _ => 1
  BoxminusJacInp := fun _ _ => 1
  BoxminusJacRef := fun _ _ => -1

end ElementTraits

/-! ## Time points -/

theorem TimePoint.lt_iff (a b : TimePoint) : a < b ↔ a.ticks < b.ticks := Iff.rfl

theorem TimePoint.le_iff (a b : TimePoint) : a ≤ b ↔ a.ticks ≤ b.ticks := Iff.rfl

theorem TimePoint.min_le (t : TimePoint) : TimePoint.min ≤ t := t.lo

theorem TimePoint.eq_of_ticks {a b : TimePoint} (h : a.ticks = b.ticks) : a = b := by
  cases a; cases b; simp_all

theorem wrap64_of_range {x : Int} (h1 : -9223372036854775808 ≤ x)
    (h2 : x ≤ 9223372036854775807) : wrap64 x = x := by
  unfold wrap64; omega

theorem stdMax_ticks (a b : TimePoint) : (stdMax a b).ticks = max a.ticks b.ticks := by
  unfold stdMax
  split_ifs with h
  · rw [TimePoint.lt_iff] at h; omega
  · rw [TimePoint.lt_iff] at h; omega

theorem TimePoint.sub_ticks (t : TimePoint) (d : Duration) :
    (t - d).ticks = wrap64 (t.ticks - d.ticks) := rfl

theorem TimePoint.add_ticks (t : TimePoint) (d : Duration) :
    (t + d).ticks = wrap64 (t.ticks + d.ticks) := rfl

/-! ## Ordered sets -/

theorem mem_setInsert (s : TimeSet) (t x : TimePoint) :
    x ∈ setInsert s t ↔ x = t ∨ x ∈ s := by
  induction s with
  | nil => simp [setInsert]
  | cons k rest ih =>
    simp only [setInsert]
    split_ifs with h1 h2
    · simp
    · simp only [List.mem_cons, ih]; tauto
    · have hk : k = t := le_antisymm (not_lt.mp h1) (not_lt.mp h2)
      subst hk
      simp

theorem setInsert_ascending (s : TimeSet) (t : TimePoint) (hs : Ascending s) :
    Ascending (setInsert s t) := by
  induction s with
  | nil => simp [setInsert, Ascending]
  | cons k rest ih =>
    unfold Ascending at hs ih ⊢
    rw [List.pairwise_cons] at hs
    simp only [setInsert]
    split_ifs with h1 h2
    · rw [List.pairwise_cons]
      refine ⟨?_, List.pairwise_cons.mpr hs⟩
      intro a ha
      rcases List.mem_cons.mp ha with rfl | ha
      · exact h1
      · exact lt_trans h1 (hs.1 a ha)
    · rw [List.pairwise_cons]
      refine ⟨?_, ih hs.2⟩
      intro a ha
      rcases (mem_setInsert rest t a).mp ha with rfl | ha
      · exact h2
      · exact hs.1 a ha
    · exact List.pairwise_cons.mpr hs

/-! ## Ordered maps -/

theorem mem_keys {P : Type} (m : List (TimePoint × P)) (k : TimePoint) :
    k ∈ keys m ↔ ∃ v, (k, v) ∈ m := by
  simp [keys]

theorem mapInsert_sub {P : Type} (m : List (TimePoint × P)) (t : TimePoint) (v : P)
    (e : TimePoint × P) (h : e ∈ (mapInsert m t v).1) : e = (t, v) ∨ e ∈ m := by
  induction m with
  | nil => simpa [mapInsert] using h
  | cons hd rest ih =>
    obtain ⟨k, w⟩ := hd
    simp only [mapInsert] at h
    split_ifs at h with h1 h2
    · simpa using h
    · rcases List.mem_cons.mp h with h | h
      · exact Or.inr (h ▸ List.mem_cons_self _ _)
      · rcases ih h with h | h
        · exact Or.inl h
        · exact Or.inr (List.mem_cons_of_mem _ h)
    · exact Or.inr h

theorem mapInsert_sup {P : Type} (m : List (TimePoint × P)) (t : TimePoint) (v : P)
    (e : TimePoint × P) (h : e ∈ m) : e ∈ (mapInsert m t v).1 := by
  induction m with
  | nil => simp at h
  | cons hd rest ih =>
    obtain ⟨k, w⟩ := hd
    simp only [mapInsert]
    split_ifs with h1 h2
    · exact List.mem_cons_of_mem _ h
    · rcases List.mem_cons.mp h with h | h
      · exact h ▸ List.mem_cons_self _ _
      · exact List.mem_cons_of_mem _ (ih h)
    · exact h

theorem mapInsert_keys {P : Type} (m : List (TimePoint × P)) (t : TimePoint) (v : P)
    (x : TimePoint) (h : x ∈ keys (mapInsert m t v).1) : x = t ∨ x ∈ keys m := by
  obtain ⟨w, hw⟩ := (mem_keys _ _).mp h
  rcases mapInsert_sub m t v _ hw with h | h
  · exact Or.inl (congrArg Prod.fst h)
  · exact Or.inr ((mem_keys _ _).mpr ⟨w, h⟩)

theorem mapInsert_ascending {P : Type} (m : List (TimePoint × P)) (t : TimePoint) (v : P)
    (hm : Ascending (keys m)) : Ascending (keys (mapInsert m t v).1) := by
  induction m with
  | nil => simp [mapInsert, keys, Ascending]
  | cons hd rest ih =>
    obtain ⟨k, w⟩ := hd
    unfold Ascending at hm ih ⊢
    simp only [keys, List.map_cons, List.pairwise_cons] at hm
    simp only [mapInsert]
    split_ifs with h1 h2
    · simp only [keys, List.map_cons, List.pairwise_cons]
      refine ⟨?_, hm⟩
      intro a ha
      rcases List.mem_cons.mp ha with rfl | ha
      · exact h1
      · exact lt_trans h1 (hm.1 a ha)
    · simp only [keys, List.map_cons, List.pairwise_cons]
      refine ⟨?_, ih hm.2⟩
      intro a ha
      rcases mapInsert_keys rest t v a ha with rfl | ha
      · exact h2
      · exact hm.1 a ha
    · simpa only [keys, List.map_cons, List.pairwise_cons] using hm

theorem mapInsert_of_mem {P : Type} (m : List (TimePoint × P)) (t : TimePoint) (v : P)
    (hm : Ascending (keys m)) (ht : t ∈ keys m) : (mapInsert m t v).1 = m := by
  induction m with
  | nil => simp [keys] at ht
  | cons hd rest ih =>
    obtain ⟨k, w⟩ := hd
    unfold Ascending at hm ih
    simp only [keys, List.map_cons, List.pairwise_cons] at hm
    simp only [keys, List.map_cons, List.mem_cons] at ht
    simp only [mapInsert]
    split_ifs with h1 h2
    · exfalso
      rcases ht with rfl | ht
      · exact lt_irrefl _ h1
      · exact lt_irrefl _ (lt_trans h1 (hm.1 t ht))
    · rcases ht with rfl | ht
      · exact absurd h2 (lt_irrefl _)
      · rw [ih hm.2 ht]
    · rfl

theorem mapFind_eq_none {P : Type} (m : List (TimePoint × P)) (t : TimePoint) :
    mapFind m t = none ↔ t ∉ keys m := by
  induction m with
  | nil => simp [mapFind, keys]
  | cons hd rest ih =>
    obtain ⟨k, w⟩ := hd
    simp only [mapFind, keys, List.map_cons, List.mem_cons, not_or]
    split_ifs with h
    · simp [h]
    · simp only [keys] at ih
      rw [ih]
      constructor
      · intro h2; exact ⟨fun h3 => h h3.symm, h2⟩
      · intro h2; exact h2.2

theorem mapFind_mem {P : Type} (m : List (TimePoint × P)) (t : TimePoint) (v : P)
    (h : mapFind m t = some v) : (t, v) ∈ m := by
  induction m with
  | nil => simp [mapFind] at h
  | cons hd rest ih =>
    obtain ⟨k, w⟩ := hd
    simp only [mapFind] at h
    split_ifs at h with h1
    · cases h; subst h1; exact List.mem_cons_self _ _
    · exact List.mem_cons_of_mem _ (ih h)

theorem mapFind_mapInsert_self {P : Type} (m : List (TimePoint × P)) (t : TimePoint) (v : P)
    (ht : t ∉ keys m) : mapFind (mapInsert m t v).1 t = some v := by
  induction m with
  | nil => simp [mapInsert, mapFind]
  | cons hd rest ih =>
    obtain ⟨k, w⟩ := hd
    simp only [keys, List.map_cons, List.mem_cons, not_or] at ht
    simp only [mapInsert]
    split_ifs with h1 h2
    · simp [mapFind]
    · simp only [mapFind]
      rw [if_neg (fun h => ht.1 h.symm)]
      exact ih ht.2
    · exact absurd (le_antisymm (not_lt.mp h2) (not_lt.mp h1)) ht.1

theorem mapFind_mapInsert_other {P : Type} (m : List (TimePoint × P)) (t : TimePoint) (v : P)
    (x : TimePoint) (hx : x ≠ t) : mapFind (mapInsert m t v).1 x = mapFind m x := by
  induction m with
  | nil => simp [mapInsert, mapFind, hx.symm]
  | cons hd rest ih =>
    obtain ⟨k, w⟩ := hd
    simp only [mapInsert]
    split_ifs with h1 h2
    · simp only [mapFind]
      rw [if_neg hx.symm]
    · simp only [mapFind, ih]
    · rfl

theorem ascending_keys_drop {P : Type} (m : List (TimePoint × P)) (n : Nat)
    (hm : Ascending (keys m)) : Ascending (keys (m.drop n)) := by
  unfold Ascending keys at *
  exact hm.sublist ((List.drop_sublist n m).map Prod.fst)

theorem mem_drop_upper_bound {P : Type} (m : List (TimePoint × P)) (start : TimePoint)
    (e : TimePoint × P) (hm : Ascending (keys m)) :
    e ∈ m.drop (upper_bound m start) ↔ e ∈ m ∧ start < e.1 := by
  induction m with
  | nil => simp [upper_bound]
  | cons hd rest ih =>
    obtain ⟨k, w⟩ := hd
    unfold Ascending at hm ih
    simp only [keys, List.map_cons, List.pairwise_cons] at hm
    simp only [upper_bound]
    split_ifs with h1
    · simp only [List.drop_zero, List.mem_cons]
      constructor
      · intro h
        refine ⟨h, ?_⟩
        rcases h with rfl | h
        · exact h1
        · exact lt_trans h1 (hm.1 e.1 (List.mem_map_of_mem Prod.fst h))
      · intro h; exact h.1
    · simp only [List.drop_succ_cons, List.mem_cons]
      rw [ih hm.2]
      constructor
      · intro h; exact ⟨Or.inr h.1, h.2⟩
      · intro h
        rcases h.1 with rfl | h2
        · exact absurd h.2 h1
        · exact ⟨h2, h.2⟩

theorem upper_bound_eq_zero {P : Type} (m : List (TimePoint × P)) (t : TimePoint)
    (hm : Ascending (keys m)) (h0 : upper_bound m t = 0) : ∀ k ∈ keys m, t < k := by
  cases m with
  | nil => simp [keys]
  | cons hd rest =>
    obtain ⟨k, w⟩ := hd
    unfold Ascending at hm
    simp only [keys, List.map_cons, List.pairwise_cons] at hm
    simp only [upper_bound] at h0
    split_ifs at h0 with h1
    intro x hx
    simp only [keys, List.map_cons, List.mem_cons] at hx
    rcases hx with rfl | hx
    · exact h1
    · exact lt_trans h1 (hm.1 x hx)

theorem upper_bound_pred {P : Type} (m : List (TimePoint × P)) (t : TimePoint)
    (hm : Ascending (keys m)) (h0 : upper_bound m t ≠ 0) :
    ∃ g v, m[upper_bound m t - 1]? = some (g, v) ∧ g ∈ keys m ∧ g ≤ t ∧
      ∀ k ∈ keys m, k ≤ t → k ≤ g := by
  induction m with
  | nil => simp [upper_bound] at h0
  | cons hd rest ih =>
    obtain ⟨k, w⟩ := hd
    have hm2 := hm
    unfold Ascending at hm ih
    simp only [keys, List.map_cons, List.pairwise_cons] at hm
    simp only [upper_bound] at h0 ⊢
    split_ifs at h0 ⊢ with h1
    · exact absurd rfl h0
    · simp only [Nat.add_sub_cancel]
      by_cases hz : upper_bound rest t = 0
      · refine ⟨k, w, ?_, ?_, not_lt.mp h1, ?_⟩
        · rw [hz]; simp
        · simp [keys]
        · intro x hx hxt
          simp only [keys, List.map_cons, List.mem_cons] at hx
          rcases hx with rfl | hx
          · exact le_refl _
          · exact absurd (upper_bound_eq_zero rest t hm.2 hz x hx) (not_lt.mpr hxt)
      · obtain ⟨g, v, hg1, hg2, hg3, hg4⟩ := ih hm.2 hz
        refine ⟨g, v, ?_, ?_, hg3, ?_⟩
        · obtain ⟨n, hn⟩ := Nat.exists_eq_succ_of_ne_zero hz
          rw [hn] at hg1 ⊢
          simpa using hg1
        · simp only [keys, List.map_cons, List.mem_cons]
          exact Or.inr hg2
        · intro x hx hxt
          simp only [keys, List.map_cons, List.mem_cons] at hx
          rcases hx with rfl | hx
          · exact le_of_lt (hm.1 g hg2)
          · exact hg4 x hx hxt

theorem getLast_greatest {P : Type} (m : List (TimePoint × P)) (g : TimePoint) (v : P)
    (hm : Ascending (keys m)) (hl : m.getLast? = some (g, v)) :
    g ∈ keys m ∧ ∀ k ∈ keys m, k ≤ g := by
  induction m with
  | nil => simp at hl
  | cons hd rest ih =>
    obtain ⟨k, w⟩ := hd
    unfold Ascending at hm ih
    simp only [keys, List.map_cons, List.pairwise_cons] at hm
    cases rest with
    | nil =>
      simp only [List.getLast?_singleton, Option.some.injEq, Prod.mk.injEq] at hl
      obtain ⟨rfl, rfl⟩ := hl
      simp [keys]
    | cons hd2 rest2 =>
      rw [List.getLast?_cons_cons] at hl
      obtain ⟨i1, i2⟩ := ih hm.2 hl
      refine ⟨?_, ?_⟩
      · simp only [keys, List.map_cons, List.mem_cons] at i1 ⊢
        exact Or.inr i1
      · intro x hx
        have hx2 : x = k ∨ x ∈ keys (hd2 :: rest2) := by
          simpa only [keys, List.map_cons, List.mem_cons] using hx
        rcases hx2 with rfl | hx2
        · exact le_of_lt (hm.1 g i1)
        · exact i2 x hx2

/-! ## The state invariant -/

namespace MeasurementTimeline

variable {P : Type}

theorem valid_construct (drop_first : Bool) (max_wait_time min_wait_time : Duration) :
    (construct drop_first max_wait_time min_wait_time : MeasurementTimeline P).Valid := by
  refine ⟨?_, ?_, ?_⟩
  · simp [construct, keys, Ascending]
  · simp [construct, keys]
  · intro _ _; rfl

theorem valid_AddMeasurement (tl : MeasurementTimeline P) (meas : P) (t : TimePoint)
    (h : tl.Valid) : (tl.AddMeasurement meas t).Valid := by
  obtain ⟨h1, h2, h3⟩ := h
  unfold AddMeasurement
  split_ifs with c1 c2
  · have he : tl.meas_map_ = [] := h3 c1.1 c1.2
    refine ⟨?_, ?_, ?_⟩
    · simpa using h1
    · simp [he, keys]
    · intro _ _; exact he
  · exact ⟨h1, h2, h3⟩
  · refine ⟨?_, ?_, ?_⟩
    · exact mapInsert_ascending _ _ _ h1
    · intro k hk
      rcases mapInsert_keys _ _ _ _ hk with rfl | hk
      · exact not_le.mp c2
      · exact h2 k hk
    · intro d1 d2
      exact absurd ⟨d1, d2⟩ c1

theorem last_le_AddMeasurement (tl : MeasurementTimeline P) (meas : P) (t : TimePoint) :
    tl.last_processed_time_ ≤ (tl.AddMeasurement meas t).last_processed_time_ := by
  unfold AddMeasurement
  split_ifs with c1 c2
  · show tl.last_processed_time_ ≤ t
    rw [c1.2]
    exact TimePoint.min_le t
  · exact le_refl _
  · exact le_refl _

theorem valid_RemoveProcessedFirst (tl tl1 : MeasurementTimeline P) (h : tl.Valid)
    (hr : tl.RemoveProcessedFirst = some tl1) :
    tl1.Valid ∧ tl.last_processed_time_ < tl1.last_processed_time_ := by
  obtain ⟨h1, h2, h3⟩ := h
  unfold RemoveProcessedFirst at hr
  split at hr
  · cases hr
  · rename_i k v rest he
    cases hr
    rw [he] at h1 h2
    unfold Ascending at h1
    simp only [keys, List.map_cons, List.pairwise_cons, List.mem_cons] at h1 h2
    have hk : tl.last_processed_time_ < k := h2 k (Or.inl rfl)
    refine ⟨⟨h1.2, h1.1, ?_⟩, hk⟩
    intro _ d2
    have d3 : k = TimePoint.min := d2
    rw [d3] at hk
    exact absurd (TimePoint.min_le tl.last_processed_time_) (not_le.mpr hk)

theorem valid_RemoveOutdated_loop (time : TimePoint) (fuel : Nat) (tl : MeasurementTimeline P)
    (h : tl.Valid) :
    (RemoveOutdated.loop time fuel tl).Valid ∧
      tl.last_processed_time_ ≤ (RemoveOutdated.loop time fuel tl).last_processed_time_ := by
  induction fuel generalizing tl with
  | zero => exact ⟨h, le_refl _⟩
  | succ n ih =>
    unfold RemoveOutdated.loop
    split
    · split_ifs with c
      · split
        · rename_i tl1 hr
          obtain ⟨v1, v2⟩ := valid_RemoveProcessedFirst tl tl1 h hr
          exact ⟨(ih tl1 v1).1, le_trans (le_of_lt v2) (ih tl1 v1).2⟩
        · exact ⟨h, le_refl _⟩
      · exact ⟨h, le_refl _⟩
    · exact ⟨h, le_refl _⟩

theorem RemoveOutdated_loop_head (time : TimePoint) (fuel : Nat) (tl : MeasurementTimeline P)
    (hf : tl.meas_map_.length ≤ fuel) (k : TimePoint) (v : P)
    (hh : (RemoveOutdated.loop time fuel tl).meas_map_.head? = some (k, v)) : time < k := by
  induction fuel generalizing tl with
  | zero =>
    have he : tl.meas_map_ = [] := List.length_eq_zero.mp (Nat.le_zero.mp hf)
    simp [RemoveOutdated.loop, he] at hh
  | succ n ih =>
    cases hmap : tl.meas_map_ with
    | nil => simp [RemoveOutdated.loop, hmap] at hh
    | cons hd rest =>
      obtain ⟨k0, v0⟩ := hd
      by_cases c : k0 ≤ time
      · have hl : RemoveOutdated.loop time (n + 1) tl
            = RemoveOutdated.loop time n
                { tl with last_processed_time_ := k0, meas_map_ := rest } := by
          simp [RemoveOutdated.loop, RemoveProcessedFirst, hmap, c]
        rw [hl] at hh
        apply ih _ _ hh
        rw [hmap] at hf
        exact Nat.le_of_succ_le_succ hf
      · have hl : RemoveOutdated.loop time (n + 1) tl = tl := by
          simp [RemoveOutdated.loop, hmap, c]
        rw [hl, hmap] at hh
        simp only [List.head?_cons, Option.some.injEq, Prod.mk.injEq] at hh
        exact hh.1 ▸ not_le.mp c

theorem valid_call (tl tl1 : MeasurementTimeline P) (c : Call P) (h : tl.Valid)
    (hc : tl.call c = some tl1) :
    tl1.Valid ∧ tl.last_processed_time_ ≤ tl1.last_processed_time_ := by
  cases c with
  | addMeasurement meas t =>
    simp only [call, Option.some.injEq] at hc
    subst hc
    exact ⟨valid_AddMeasurement tl meas t h, last_le_AddMeasurement tl meas t⟩
  | removeProcessedFirst =>
    obtain ⟨v1, v2⟩ := valid_RemoveProcessedFirst tl tl1 h hc
    exact ⟨v1, le_of_lt v2⟩
  | removeOutdated time =>
    simp only [call, Option.some.injEq] at hc
    subst hc
    exact valid_RemoveOutdated_loop time _ tl h

theorem valid_calls (cs : List (Call P)) (tl tl1 : MeasurementTimeline P) (h : tl.Valid)
    (hc : tl.calls cs = some tl1) : tl1.Valid := by
  induction cs generalizing tl with
  | nil =>
    simp only [calls, Option.some.injEq] at hc
    exact hc ▸ h
  | cons c cs ih =>
    simp only [calls] at hc
    split at hc
    · rename_i tl2 h2
      exact ih tl2 (valid_call tl tl2 c h h2).1 hc
    · cases hc

end MeasurementTimeline

/-! ## Range queries -/

namespace MeasurementTimeline

variable {P : Type}

theorem mem_GetAllInRange_loop (end_ : TimePoint) (l : List (TimePoint × P)) (times : TimeSet)
    (x : TimePoint) (hl : Ascending (keys l)) :
    x ∈ GetAllInRange.loop end_ l times ↔ x ∈ times ∨ (x ∈ keys l ∧ x ≤ end_) := by
  induction l generalizing times with
  | nil => simp [GetAllInRange.loop, keys]
  | cons hd rest ih =>
    obtain ⟨k, w⟩ := hd
    unfold Ascending at hl ih
    simp only [keys, List.map_cons, List.pairwise_cons] at hl
    simp only [GetAllInRange.loop, keys, List.map_cons, List.mem_cons]
    split_ifs with h1
    · rw [ih _ hl.2, mem_setInsert]
      simp only [keys]
      constructor
      · rintro ((rfl | h) | h)
        · exact Or.inr ⟨Or.inl rfl, h1⟩
        · exact Or.inl h
        · exact Or.inr ⟨Or.inr h.1, h.2⟩
      · rintro (h | ⟨rfl | h, h2⟩)
        · exact Or.inl (Or.inr h)
        · exact Or.inl (Or.inl rfl)
        · exact Or.inr ⟨h, h2⟩
    · constructor
      · intro h; exact Or.inl h
      · rintro (h | ⟨rfl | h, h2⟩)
        · exact h
        · exact absurd h2 h1
        · exact absurd (le_trans (le_of_lt (hl.1 x h)) h2) h1

theorem GetAllInRange_loop_ascending (end_ : TimePoint) (l : List (TimePoint × P))
    (times : TimeSet) (ht : Ascending times) : Ascending (GetAllInRange.loop end_ l times) := by
  induction l generalizing times with
  | nil => exact ht
  | cons hd rest ih =>
    obtain ⟨k, w⟩ := hd
    simp only [GetAllInRange.loop]
    split_ifs with h1
    · exact ih _ (setInsert_ascending times k ht)
    · exact ht

theorem GetAllInRange_loop_none (end_ : TimePoint) (l : List (TimePoint × P)) (times : TimeSet)
    (h : ∀ e ∈ l, end_ < e.1) : GetAllInRange.loop end_ l times = times := by
  cases l with
  | nil => rfl
  | cons hd rest =>
    obtain ⟨k, w⟩ := hd
    simp only [GetAllInRange.loop]
    rw [if_neg (not_le.mpr (h (k, w) (List.mem_cons_self _ _)))]

theorem GetLastInRange_cases (tl : MeasurementTimeline P) (times : TimeSet)
    (start end_ : TimePoint) (hm : Ascending (keys tl.meas_map_)) :
    ((∀ k ∈ keys tl.meas_map_, end_ < k) ∧ tl.GetLastInRange times start end_ = times) ∨
    ∃ g, g ∈ keys tl.meas_map_ ∧ g ≤ end_ ∧ (∀ k ∈ keys tl.meas_map_, k ≤ end_ → k ≤ g) ∧
      tl.GetLastInRange times start end_ = if start < g then setInsert times g else times := by
  by_cases h0 : upper_bound tl.meas_map_ end_ = 0
  · left
    refine ⟨upper_bound_eq_zero _ _ hm h0, ?_⟩
    simp only [GetLastInRange, h0, ne_eq, not_true_eq_false, if_false]
  · right
    obtain ⟨g, v, hg1, hg2, hg3, hg4⟩ := upper_bound_pred _ _ hm h0
    refine ⟨g, hg2, hg3, hg4, ?_⟩
    simp only [GetLastInRange, ne_eq, h0, not_false_eq_true, if_true, hg1]

end MeasurementTimeline

/-! ## Removing outdated measurements -/

namespace MeasurementTimeline

variable {P : Type}

theorem RemoveOutdated_loop_spec (time : TimePoint) (m : List (TimePoint × P)) :
    ∀ (fuel : Nat) (tl : MeasurementTimeline P), tl.meas_map_ = m → m.length ≤ fuel →
      Ascending (keys m) →
      (∀ e, e ∈ (RemoveOutdated.loop time fuel tl).meas_map_ ↔ e ∈ m ∧ time < e.1) ∧
      Ascending (keys (RemoveOutdated.loop time fuel tl).meas_map_) ∧
      ((∀ k ∈ keys m, time < k) →
        (RemoveOutdated.loop time fuel tl).last_processed_time_ = tl.last_processed_time_) ∧
      (∀ g ∈ keys m, g ≤ time → (∀ k ∈ keys m, k ≤ time → k ≤ g) →
        (RemoveOutdated.loop time fuel tl).last_processed_time_ = g) ∧
      (RemoveOutdated.loop time fuel tl).drop_first_ = tl.drop_first_ ∧
      (RemoveOutdated.loop time fuel tl).max_wait_time_ = tl.max_wait_time_ ∧
      (RemoveOutdated.loop time fuel tl).min_wait_time_ = tl.min_wait_time_ := by
  induction m with
  | nil =>
    intro fuel tl hmap _ _
    have hl : RemoveOutdated.loop time fuel tl = tl := by
      cases fuel with
      | zero => rfl
      | succ n => simp [RemoveOutdated.loop, hmap]
    rw [hl]
    refine ⟨?_, ?_, fun _ => rfl, ?_, rfl, rfl, rfl⟩
    · intro e; simp [hmap]
    · simp [hmap, keys, Ascending]
    · intro g hg; simp [keys] at hg
  | cons hd rest ih =>
    obtain ⟨k0, v0⟩ := hd
    intro fuel tl hmap hf hasc
    have hasc2 := hasc
    unfold Ascending at hasc2
    simp only [keys, List.map_cons, List.pairwise_cons] at hasc2
    obtain ⟨n, rfl⟩ : ∃ n, fuel = n + 1 := by
      cases fuel with
      | zero => simp at hf
      | succ n => exact ⟨n, rfl⟩
    by_cases c : k0 ≤ time
    · have hl : RemoveOutdated.loop time (n + 1) tl
          = RemoveOutdated.loop time n
              { tl with last_processed_time_ := k0, meas_map_ := rest } := by
        simp [RemoveOutdated.loop, RemoveProcessedFirst, hmap, c]
      rw [hl]
      obtain ⟨i1, i2, i3, i4, i5, i6, i7⟩ :=
        ih n { tl with last_processed_time_ := k0, meas_map_ := rest } rfl
          (Nat.le_of_succ_le_succ hf) hasc2.2
      refine ⟨?_, i2, ?_, ?_, i5, i6, i7⟩
      · intro e
        rw [i1 e]
        simp only [List.mem_cons]
        constructor
        · intro h; exact ⟨Or.inr h.1, h.2⟩
        · rintro ⟨rfl | h, h2⟩
          · exact absurd h2 (not_lt.mpr c)
          · exact ⟨h, h2⟩
      · intro hall
        have : time < k0 := hall k0 (by simp [keys])
        exact absurd this (not_lt.mpr c)
      · intro g hg hgt hmax
        simp only [keys, List.map_cons, List.mem_cons] at hg
        rcases hg with rfl | hg
        · have hall : ∀ k ∈ keys rest, time < k := by
            intro k hk
            by_contra hn
            have h1 : k ≤ g := hmax k (by simp only [keys, List.map_cons, List.mem_cons];
                                          exact Or.inr hk) (not_lt.mp hn)
            exact absurd (hasc2.1 k hk) (not_lt.mpr h1)
          exact i3 hall
        · apply i4 g hg hgt
          intro k hk hkt
          exact hmax k (by simp only [keys, List.map_cons, List.mem_cons]; exact Or.inr hk) hkt
    · have hl : RemoveOutdated.loop time (n + 1) tl = tl := by
        simp [RemoveOutdated.loop, hmap, c]
      rw [hl]
      have hall : ∀ k ∈ keys ((k0, v0) :: rest), time < k := by
        intro k hk
        simp only [keys, List.map_cons, List.mem_cons] at hk
        rcases hk with rfl | hk
        · exact not_le.mp c
        · exact lt_trans (not_le.mp c) (hasc2.1 k hk)
      refine ⟨?_, ?_, fun _ => rfl, ?_, rfl, rfl, rfl⟩
      · intro e
        rw [hmap]
        constructor
        · intro h; exact ⟨h, hall e.1 (List.mem_map_of_mem Prod.fst h)⟩
        · intro h; exact h.1
      · rw [hmap]; exact hasc
      · intro g hg hgt _
        exact absurd (hall g hg) (not_lt.mpr hgt)

end MeasurementTimeline

/-! ## Assignment, erasure and extensionality of ordered maps -/

theorem keys_mapSet {P : Type} (m : List (TimePoint × P)) (t : TimePoint) (w : P) :
    keys (mapSet m t w) = keys m := by
  induction m with
  | nil => rfl
  | cons hd rest ih =>
    obtain ⟨k, v⟩ := hd
    simp only [mapSet]
    split_ifs with h
    · rfl
    · simp only [keys, List.map_cons] at ih ⊢
      rw [ih]

theorem mapFind_mapSet_self {P : Type} (m : List (TimePoint × P)) (t : TimePoint) (w : P)
    (ht : t ∈ keys m) : mapFind (mapSet m t w) t = some w := by
  induction m with
  | nil => simp [keys] at ht
  | cons hd rest ih =>
    obtain ⟨k, v⟩ := hd
    simp only [keys, List.map_cons, List.mem_cons] at ht
    simp only [mapSet]
    split_ifs with h
    · simp [mapFind, h]
    · simp only [mapFind, if_neg h]
      rcases ht with ht | ht
      · exact absurd ht.symm h
      · exact ih ht

theorem mapFind_mapSet_other {P : Type} (m : List (TimePoint × P)) (t : TimePoint) (w : P)
    (x : TimePoint) (hx : x ≠ t) : mapFind (mapSet m t w) x = mapFind m x := by
  induction m with
  | nil => rfl
  | cons hd rest ih =>
    obtain ⟨k, v⟩ := hd
    simp only [mapSet]
    split_ifs with h
    · subst h
      simp only [mapFind, if_neg hx.symm]
    · simp only [mapFind, ih]

theorem mapErase_keys {P : Type} (m : List (TimePoint × P)) (t x : TimePoint)
    (h : x ∈ keys (mapErase m t)) : x ∈ keys m := by
  induction m with
  | nil => simp [mapErase, keys] at h
  | cons hd rest ih =>
    obtain ⟨k, v⟩ := hd
    simp only [mapErase] at h
    simp only [keys, List.map_cons, List.mem_cons]
    split_ifs at h with h1
    · exact Or.inr h
    · simp only [keys, List.map_cons, List.mem_cons] at h
      rcases h with h | h
      · exact Or.inl h
      · exact Or.inr (ih h)

theorem mapErase_ascending {P : Type} (m : List (TimePoint × P)) (t : TimePoint)
    (hm : Ascending (keys m)) : Ascending (keys (mapErase m t)) := by
  induction m with
  | nil => exact hm
  | cons hd rest ih =>
    obtain ⟨k, v⟩ := hd
    unfold Ascending at hm ih ⊢
    simp only [keys, List.map_cons, List.pairwise_cons] at hm
    simp only [mapErase]
    split_ifs with h1
    · exact hm.2
    · simp only [keys, List.map_cons, List.pairwise_cons]
      exact ⟨fun a ha => hm.1 a (mapErase_keys rest t a ha), ih hm.2⟩

theorem mapFind_mapErase_self {P : Type} (m : List (TimePoint × P)) (t : TimePoint)
    (hm : Ascending (keys m)) : mapFind (mapErase m t) t = none := by
  induction m with
  | nil => rfl
  | cons hd rest ih =>
    obtain ⟨k, v⟩ := hd
    unfold Ascending at hm ih
    simp only [keys, List.map_cons, List.pairwise_cons] at hm
    simp only [mapErase]
    split_ifs with h1
    · subst h1
      rw [mapFind_eq_none]
      intro hk
      exact lt_irrefl _ (hm.1 k hk)
    · simp only [mapFind, if_neg h1]
      exact ih hm.2

theorem mapFind_mapErase_other {P : Type} (m : List (TimePoint × P)) (t x : TimePoint)
    (hx : x ≠ t) : mapFind (mapErase m t) x = mapFind m x := by
  induction m with
  | nil => rfl
  | cons hd rest ih =>
    obtain ⟨k, v⟩ := hd
    simp only [mapErase]
    split_ifs with h1
    · subst h1
      simp only [mapFind, if_neg hx.symm]
    · simp only [mapFind, ih]

theorem mapFind_isSome {P : Type} (m : List (TimePoint × P)) (t : TimePoint) :
    t ∈ keys m ↔ ∃ v, mapFind m t = some v := by
  constructor
  · intro h
    cases hf : mapFind m t with
    | none => exact absurd h ((mapFind_eq_none m t).mp hf)
    | some v => exact ⟨v, rfl⟩
  · rintro ⟨v, hv⟩
    exact (mem_keys m t).mpr ⟨v, mapFind_mem m t v hv⟩

theorem map_ext {P : Type} (a b : List (TimePoint × P)) (ha : Ascending (keys a))
    (hb : Ascending (keys b)) (h : ∀ t, mapFind a t = mapFind b t) : a = b := by
  induction a generalizing b with
  | nil =>
    cases b with
    | nil => rfl
    | cons hd rest =>
      obtain ⟨k, v⟩ := hd
      have := h k
      simp [mapFind] at this
  | cons hd rest ih =>
    obtain ⟨k, v⟩ := hd
    cases b with
    | nil =>
      have := h k
      simp [mapFind] at this
    | cons hd2 rest2 =>
      obtain ⟨k2, v2⟩ := hd2
      unfold Ascending at ha hb ih
      simp only [keys, List.map_cons, List.pairwise_cons] at ha hb
      have hk1 : k2 ≤ k := by
        have h1 : k ∈ keys ((k2, v2) :: rest2) :=
          (mapFind_isSome _ _).mpr ⟨v, by rw [← h k]; simp [mapFind]⟩
        simp only [keys, List.map_cons, List.mem_cons] at h1
        rcases h1 with h1 | h1
        · exact le_of_eq h1.symm
        · exact le_of_lt (hb.1 k h1)
      have hk2 : k ≤ k2 := by
        have h1 : k2 ∈ keys ((k, v) :: rest) :=
          (mapFind_isSome _ _).mpr ⟨v2, by rw [h k2]; simp [mapFind]⟩
        simp only [keys, List.map_cons, List.mem_cons] at h1
        rcases h1 with h1 | h1
        · exact le_of_eq h1.symm
        · exact le_of_lt (ha.1 k2 h1)
      have hk : k = k2 := le_antisymm hk2 hk1
      subst hk
      have hv : v = v2 := by
        have := h k
        simpa [mapFind] using this
      subst hv
      congr 1
      apply ih rest2 ha.2 hb.2
      intro t
      by_cases ht : k = t
      · subst ht
        rw [(mapFind_eq_none rest k).mpr (fun hk => lt_irrefl _ (ha.1 k hk)),
          (mapFind_eq_none rest2 k).mpr (fun hk => lt_irrefl _ (hb.1 k hk))]
      · have := h t
        simpa only [mapFind, if_neg ht] using this

theorem mapInsert_keys_iff {P : Type} (m : List (TimePoint × P)) (t : TimePoint) (v : P)
    (x : TimePoint) : x ∈ keys (mapInsert m t v).1 ↔ x = t ∨ x ∈ keys m := by
  constructor
  · exact mapInsert_keys m t v x
  · rintro (rfl | h)
    · by_cases hx : x ∈ keys m
      · obtain ⟨w, hw⟩ := (mem_keys _ _).mp hx
        exact (mem_keys _ _).mpr ⟨w, mapInsert_sup m x v _ hw⟩
      · exact (mapFind_isSome _ _).mpr ⟨v, mapFind_mapInsert_self m x v hx⟩
    · obtain ⟨w, hw⟩ := (mem_keys _ _).mp h
      exact (mem_keys _ _).mpr ⟨w, mapInsert_sup m t v _ hw⟩

theorem lower_bound_none {P : Type} (m : List (TimePoint × P)) (t : TimePoint)
    (h : m[lower_bound m t]? = none) : ∀ k ∈ keys m, k < t := by
  induction m with
  | nil => simp [keys]
  | cons hd rest ih =>
    obtain ⟨k, v⟩ := hd
    simp only [lower_bound] at h
    split_ifs at h with h1
    · simp only [List.getElem?_cons_succ] at h
      intro x hx
      simp only [keys, List.map_cons, List.mem_cons] at hx
      rcases hx with rfl | hx
      · exact h1
      · exact ih h x hx
    · simp at h

theorem lower_bound_some {P : Type} (m : List (TimePoint × P)) (t k : TimePoint) (v : P)
    (hm : Ascending (keys m)) (h : m[lower_bound m t]? = some (k, v)) :
    t ≤ k ∧ mapFind m k = some v ∧ ∀ x ∈ keys m, t ≤ x → k ≤ x := by
  induction m with
  | nil => simp at h
  | cons hd rest ih =>
    obtain ⟨k0, v0⟩ := hd
    unfold Ascending at hm ih
    simp only [keys, List.map_cons, List.pairwise_cons] at hm
    simp only [lower_bound] at h
    split_ifs at h with h1
    · simp only [List.getElem?_cons_succ] at h
      obtain ⟨i1, i2, i3⟩ := ih hm.2 h
      refine ⟨i1, ?_, ?_⟩
      · simp only [mapFind]
        rw [if_neg (ne_of_lt (lt_of_lt_of_le h1 i1))]
        exact i2
      · intro x hx hxt
        simp only [keys, List.map_cons, List.mem_cons] at hx
        rcases hx with rfl | hx
        · exact absurd h1 (not_lt.mpr hxt)
        · exact i3 x hx hxt
    · simp only [List.getElem?_cons_zero, Option.some.injEq, Prod.mk.injEq] at h
      obtain ⟨rfl, rfl⟩ := h
      refine ⟨not_lt.mp h1, by simp [mapFind], ?_⟩
      intro x hx _
      simp only [keys, List.map_cons, List.mem_cons] at hx
      rcases hx with rfl | hx
      · exact le_refl _
      · exact le_of_lt (hm.1 x hx)

/-! ## Splitting -/

namespace MeasurementTimeline

variable {M : Type}

theorem Split_eq (tl : MeasurementTimeline (CPtr M)) (t0 t1 t2 : TimePoint)
    (res : BinaryResidualBase M) (v2 : CPtr M)
    (hnd : ¬(tl.drop_first_ = true ∧ tl.last_processed_time_ = TimePoint.min))
    (hl : tl.last_processed_time_ < t1) (h1 : t1 ∉ keys tl.meas_map_)
    (h2 : mapFind tl.meas_map_ t2 = some v2) :
    tl.Split t0 t1 t2 res = some { tl with
      meas_map_ :=
        mapSet (mapSet (mapInsert tl.meas_map_ t1 none).1 t1
            (res.SplitMeasurements t0 t1 t2 v2 none v2).1) t2
          (res.SplitMeasurements t0 t1 t2 v2 none v2).2 } := by
  have hne : t2 ≠ t1 := by
    intro h
    rw [h] at h2
    exact h1 ((mapFind_isSome _ _).mpr ⟨v2, h2⟩)
  have hadd : tl.AddMeasurement none t1
      = { tl with meas_map_ := (mapInsert tl.meas_map_ t1 none).1 } := by
    unfold AddMeasurement
    rw [if_neg hnd, if_neg (not_le.mpr hl)]
  unfold Split
  simp only [hadd, mapFind_mapInsert_other _ _ _ _ hne, h2, mapFind_mapInsert_self _ _ _ h1]

theorem Split_keys (m : List (TimePoint × CPtr M)) (t1 t2 : TimePoint) (a b : CPtr M)
    (x : TimePoint) :
    x ∈ keys (mapSet (mapSet (mapInsert m t1 none).1 t1 a) t2 b) ↔ x = t1 ∨ x ∈ keys m := by
  rw [keys_mapSet, keys_mapSet, mapInsert_keys_iff]

theorem Split_ascending (m : List (TimePoint × CPtr M)) (t1 t2 : TimePoint) (a b : CPtr M)
    (hm : Ascending (keys m)) :
    Ascending (keys (mapSet (mapSet (mapInsert m t1 none).1 t1 a) t2 b)) := by
  rw [keys_mapSet, keys_mapSet]
  exact mapInsert_ascending m t1 none hm

end MeasurementTimeline

/-! ## Splitting at a set of times -/

namespace MeasurementTimeline

variable {M : Type}

theorem SplitSet_step_spec (tl : MeasurementTimeline (CPtr M)) (t : TimePoint)
    (res : BinaryResidualBase M) (hv : tl.Valid) (hl : tl.last_processed_time_ < t) :
    ∃ tl1, SplitSet.step tl t res = some tl1 ∧ tl1.Valid ∧
      tl1.last_processed_time_ = tl.last_processed_time_ ∧
      tl1.drop_first_ = tl.drop_first_ ∧ tl1.max_wait_time_ = tl.max_wait_time_ ∧
      tl1.min_wait_time_ = tl.min_wait_time_ ∧
      ∀ x, x ∈ keys tl1.meas_map_ ↔
        x ∈ keys tl.meas_map_ ∨ (x = t ∧ ∃ g ∈ keys tl.meas_map_, t ≤ g) := by
  cases hit : tl.meas_map_[lower_bound tl.meas_map_ t]? with
  | none =>
    refine ⟨tl, by simp only [SplitSet.step, hit], hv, rfl, rfl, rfl, rfl, ?_⟩
    intro x
    constructor
    · intro h; exact Or.inl h
    · rintro (h | ⟨_, g, hg, htg⟩)
      · exact h
      · exact absurd (lower_bound_none _ _ hit g hg) (not_lt.mpr htg)
  | some e =>
    obtain ⟨k, v⟩ := e
    obtain ⟨i1, i2, i3⟩ := lower_bound_some _ _ _ _ hv.1 hit
    have hk : k ∈ keys tl.meas_map_ := (mapFind_isSome _ _).mpr ⟨v, i2⟩
    by_cases hkt : k = t
    · refine ⟨tl, by simp only [SplitSet.step, hit, if_pos hkt], hv, rfl, rfl, rfl, rfl, ?_⟩
      intro x
      constructor
      · intro h; exact Or.inl h
      · rintro (h | ⟨rfl, _⟩)
        · exact h
        · exact hkt ▸ hk
    · have hnk : t ∉ keys tl.meas_map_ := fun h => hkt (le_antisymm (i3 t h (le_refl t)) i1)
      have hnd : ¬(tl.drop_first_ = true ∧ tl.last_processed_time_ = TimePoint.min) := by
        intro c
        rw [hv.2.2 c.1 c.2] at hk
        simp [keys] at hk
      simp only [SplitSet.step, hit, if_neg hkt]
      rw [Split_eq tl _ t k res v hnd hl hnk i2]
      refine ⟨_, rfl, ⟨?_, ?_, ?_⟩, rfl, rfl, rfl, rfl, ?_⟩
      · exact Split_ascending _ _ _ _ _ hv.1
      · intro x hx
        rcases (Split_keys _ _ _ _ _ x).mp hx with rfl | hx
        · exact hl
        · exact hv.2.1 x hx
      · intro d1 d2
        exact absurd ⟨d1, d2⟩ hnd
      · intro x
        rw [Split_keys]
        constructor
        · rintro (rfl | h)
          · exact Or.inr ⟨rfl, k, hk, i1⟩
          · exact Or.inl h
        · rintro (h | ⟨rfl, _⟩)
          · exact Or.inr h
          · exact Or.inl rfl

theorem SplitSet_spec (tl : MeasurementTimeline (CPtr M)) (times : TimeSet)
    (res : BinaryResidualBase M) (hv : tl.Valid)
    (ht : ∀ t ∈ times, tl.last_processed_time_ < t) :
    ∃ tl1, tl.SplitSet times res = some tl1 ∧ tl1.Valid ∧
      tl1.last_processed_time_ = tl.last_processed_time_ ∧
      tl1.drop_first_ = tl.drop_first_ ∧ tl1.max_wait_time_ = tl.max_wait_time_ ∧
      tl1.min_wait_time_ = tl.min_wait_time_ ∧
      ∀ x, x ∈ keys tl1.meas_map_ ↔
        x ∈ keys tl.meas_map_ ∨ (x ∈ times ∧ ∃ g ∈ keys tl.meas_map_, x ≤ g) := by
  induction times generalizing tl with
  | nil =>
    refine ⟨tl, rfl, hv, rfl, rfl, rfl, rfl, ?_⟩
    intro x
    simp
  | cons t rest ih =>
    obtain ⟨tl1, s1, s2, s3, s4, s5, s6, s7⟩ :=
      SplitSet_step_spec tl t res hv (ht t (List.mem_cons_self _ _))
    obtain ⟨tl2, r1, r2, r3, r4, r5, r6, r7⟩ :=
      ih tl1 s2 (fun x hx => s3 ▸ ht x (List.mem_cons_of_mem _ hx))
    refine ⟨tl2, by simp only [SplitSet, s1]; exact r1, r2, r3.trans s3, r4.trans s4,
      r5.trans s5, r6.trans s6, ?_⟩
    have hex : ∀ x, (∃ g ∈ keys tl1.meas_map_, x ≤ g) ↔ ∃ g ∈ keys tl.meas_map_, x ≤ g := by
      intro x
      constructor
      · rintro ⟨g, hg, hxg⟩
        rcases (s7 g).mp hg with h | ⟨rfl, g2, hg2, h2⟩
        · exact ⟨g, h, hxg⟩
        · exact ⟨g2, hg2, le_trans hxg h2⟩
      · rintro ⟨g, hg, hxg⟩
        exact ⟨g, (s7 g).mpr (Or.inl hg), hxg⟩
    intro x
    rw [r7 x, s7 x, hex x]
    simp only [List.mem_cons]
    constructor
    · rintro ((h | ⟨rfl, h⟩) | ⟨h1, h2⟩)
      · exact Or.inl h
      · exact Or.inr ⟨Or.inl rfl, h⟩
      · exact Or.inr ⟨Or.inr h1, h2⟩
    · rintro (h | ⟨rfl | h1, h2⟩)
      · exact Or.inl (Or.inl h)
      · exact Or.inl (Or.inr ⟨rfl, h2⟩)
      · exact Or.inr ⟨h1, h2⟩

end MeasurementTimeline

/-! ## Merging -/

theorem ascending_append {P : Type} (pre l : List (TimePoint × P))
    (h : Ascending (keys (pre ++ l))) :
    Ascending (keys pre) ∧ Ascending (keys l) ∧ ∀ a ∈ keys pre, ∀ b ∈ keys l, a < b := by
  unfold Ascending keys at *
  rw [List.map_append, List.pairwise_append] at h
  exact h

theorem mapFind_append_right {P : Type} (pre l : List (TimePoint × P)) (t : TimePoint)
    (h : t ∉ keys pre) : mapFind (pre ++ l) t = mapFind l t := by
  induction pre with
  | nil => rfl
  | cons hd rest ih =>
    obtain ⟨k, v⟩ := hd
    simp only [keys, List.map_cons, List.mem_cons, not_or] at h
    simp only [List.cons_append, mapFind]
    rw [if_neg (fun e => h.1 e.symm)]
    exact ih h.2

theorem mapSet_append_right {P : Type} (pre l : List (TimePoint × P)) (t : TimePoint) (w : P)
    (h : t ∉ keys pre) : mapSet (pre ++ l) t w = pre ++ mapSet l t w := by
  induction pre with
  | nil => rfl
  | cons hd rest ih =>
    obtain ⟨k, v⟩ := hd
    simp only [keys, List.map_cons, List.mem_cons, not_or] at h
    rw [List.cons_append]
    simp only [mapSet]
    rw [if_neg (fun e => h.1 e.symm)]
    exact congrArg _ (ih h.2)

theorem mapErase_append_right {P : Type} (pre l : List (TimePoint × P)) (t : TimePoint)
    (h : t ∉ keys pre) : mapErase (pre ++ l) t = pre ++ mapErase l t := by
  induction pre with
  | nil => rfl
  | cons hd rest ih =>
    obtain ⟨k, v⟩ := hd
    simp only [keys, List.map_cons, List.mem_cons, not_or] at h
    rw [List.cons_append]
    simp only [mapErase]
    rw [if_neg (fun e => h.1 e.symm)]
    exact congrArg _ (ih h.2)

theorem timeSet_getLast_greatest (times : TimeSet) (mx : TimePoint) (h : Ascending times)
    (hl : times.getLast? = some mx) : mx ∈ times ∧ ∀ x ∈ times, x ≤ mx := by
  induction times with
  | nil => simp at hl
  | cons k rest ih =>
    unfold Ascending at h ih
    rw [List.pairwise_cons] at h
    cases rest with
    | nil =>
      simp only [List.getLast?_singleton, Option.some.injEq] at hl
      subst hl
      simp
    | cons k2 rest2 =>
      rw [List.getLast?_cons_cons] at hl
      obtain ⟨i1, i2⟩ := ih h.2 hl
      refine ⟨List.mem_cons_of_mem _ i1, ?_⟩
      intro x hx
      rcases List.mem_cons.mp hx with rfl | hx
      · exact le_of_lt (h.1 mx i1)
      · exact i2 x hx

theorem getLast?_cons_some {P : Type} (a : P) (l : List P) : ∃ b, (a :: l).getLast? = some b :=
  ⟨(a :: l).getLast (List.cons_ne_nil a l), List.getLast?_eq_getLast _ _⟩

theorem getElem?_append_length {P : Type} (pre l : List (TimePoint × P)) :
    (pre ++ l)[pre.length]? = l[0]? ∧ (pre ++ l)[pre.length + 1]? = l[1]? := by
  induction pre with
  | nil => exact ⟨rfl, rfl⟩
  | cons hd rest ih =>
    simp only [List.cons_append, List.length_cons, List.getElem?_cons_succ]
    exact ih

namespace MeasurementTimeline

variable {M : Type}

theorem Merge_adjacent (tl : MeasurementTimeline (CPtr M)) (t0 k k2 : TimePoint)
    (v v2 : CPtr M) (pre post : List (TimePoint × CPtr M)) (res : BinaryResidualBase M)
    (hmap : tl.meas_map_ = pre ++ (k, v) :: (k2, v2) :: post)
    (hasc : Ascending (keys (pre ++ (k, v) :: (k2, v2) :: post))) :
    tl.Merge t0 k k2 res = some { tl with
      meas_map_ := pre ++ (k2, res.MergeMeasurements t0 k k2 v v2 v2) :: post } := by
  obtain ⟨_, h2, h3⟩ := ascending_append _ _ hasc
  have hk : k ∉ keys pre := fun h =>
    lt_irrefl _ (h3 k h k (by simp [keys]))
  have hk2 : k2 ∉ keys pre := fun h =>
    lt_irrefl _ (h3 k2 h k2 (by simp [keys]))
  have hne : k ≠ k2 := by
    unfold Ascending at h2
    simp only [keys, List.map_cons, List.pairwise_cons, List.mem_cons] at h2
    exact ne_of_lt (h2.1 k2 (Or.inl rfl))
  unfold Merge
  rw [hmap, mapFind_append_right _ _ _ hk, mapFind_append_right _ _ _ hk2]
  simp only [mapFind, if_true, if_neg hne]
  rw [mapSet_append_right _ _ _ _ hk2]
  simp only [mapSet, if_neg hne, if_true]
  rw [mapErase_append_right _ _ _ hk]
  simp only [mapErase, if_true]

theorem MergeUndesired_loop_spec (times : TimeSet) (mx : TimePoint)
    (res : BinaryResidualBase M) :
    ∀ (fuel : Nat) (pre rest : List (TimePoint × CPtr M)) (tl : MeasurementTimeline (CPtr M)),
      tl.meas_map_ = pre ++ rest → rest.length ≤ fuel → Ascending (keys (pre ++ rest)) →
      ∃ rest1, MergeUndesired.loop times mx res fuel pre.length tl
          = some { tl with meas_map_ := pre ++ rest1 } ∧
        (∀ k ∈ keys rest1, k ∈ keys rest) ∧
        (∀ k ∈ keys rest, k ∈ times ∨ mx < k → k ∈ keys rest1) ∧
        (∀ k ∈ keys rest1, k ∈ times ∨ mx < k ∨ ∀ x ∈ keys rest1, x ≤ k) ∧
        rest1.getLast?.map Prod.fst = rest.getLast?.map Prod.fst ∧
        Ascending (keys (pre ++ rest1)) := by
  intro fuel
  induction fuel with
  | zero =>
    intro pre rest tl hmap hlen hasc
    have hr : rest = [] := List.length_eq_zero.mp (Nat.le_zero.mp hlen)
    subst hr
    refine ⟨[], ?_, fun k hk => hk, fun k hk _ => hk, ?_, rfl, hasc⟩
    · simp only [MergeUndesired.loop, ← hmap]
    · intro k hk; simp [keys] at hk
  | succ n ih =>
    intro pre rest tl hmap hlen hasc
    cases rest with
    | nil =>
      refine ⟨[], ?_, fun k hk => hk, fun k hk _ => hk, ?_, rfl, hasc⟩
      · have hget : tl.meas_map_[pre.length]? = none := by
          rw [hmap, (getElem?_append_length _ _).1]; simp
        simp only [MergeUndesired.loop, hget, ← hmap]
      · intro k hk; simp [keys] at hk
    | cons hd rest1 =>
      obtain ⟨k, v⟩ := hd
      have hget : tl.meas_map_[pre.length]? = some (k, v) := by
        rw [hmap, (getElem?_append_length _ _).1]; simp
      obtain ⟨_, hasc2, hasc3⟩ := ascending_append _ _ hasc
      have hasc4 := hasc2
      unfold Ascending at hasc4
      simp only [keys, List.map_cons, List.pairwise_cons] at hasc4
      by_cases c1 : mx < k
      · refine ⟨(k, v) :: rest1, ?_, fun x hx => hx, fun x hx _ => hx, ?_, rfl, hasc⟩
        · simp only [MergeUndesired.loop, hget, if_pos c1, ← hmap]
        · intro x hx
          simp only [keys, List.map_cons, List.mem_cons] at hx
          rcases hx with rfl | hx
          · exact Or.inr (Or.inl c1)
          · exact Or.inr (Or.inl (lt_trans c1 (hasc4.1 x hx)))
      · by_cases c2 : k ∈ times
        · have hmap2 : tl.meas_map_ = (pre ++ [(k, v)]) ++ rest1 := by
            rw [hmap]; simp
          have hasc5 : Ascending (keys ((pre ++ [(k, v)]) ++ rest1)) := by
            have : (pre ++ [(k, v)]) ++ rest1 = pre ++ (k, v) :: rest1 := by simp
            rw [this]; exact hasc
          obtain ⟨r, i1, i2, i3, i4, i5, i6⟩ :=
            ih (pre ++ [(k, v)]) rest1 tl hmap2 (Nat.le_of_succ_le_succ hlen) hasc5
          have hlen2 : (pre ++ [(k, v)]).length = pre.length + 1 := by simp
          rw [hlen2] at i1
          have hasc7 : Ascending (keys (pre ++ (k, v) :: r)) := by
            have : pre ++ (k, v) :: r = (pre ++ [(k, v)]) ++ r := by simp
            rw [this]; exact i6
          obtain ⟨_, hasc8, _⟩ := ascending_append _ _ hasc7
          unfold Ascending at hasc8
          simp only [keys, List.map_cons, List.pairwise_cons] at hasc8
          refine ⟨(k, v) :: r, ?_, ?_, ?_, ?_, ?_, hasc7⟩
          · simp only [MergeUndesired.loop, hget, if_neg c1, if_pos c2, i1]
            simp
          · intro x hx
            simp only [keys, List.map_cons, List.mem_cons] at hx ⊢
            rcases hx with rfl | hx
            · exact Or.inl rfl
            · exact Or.inr (i2 x hx)
          · intro x hx hc
            simp only [keys, List.map_cons, List.mem_cons] at hx ⊢
            rcases hx with rfl | hx
            · exact Or.inl rfl
            · exact Or.inr (i3 x hx hc)
          · intro x hx
            simp only [keys, List.map_cons, List.mem_cons] at hx
            rcases hx with rfl | hx
            · exact Or.inl c2
            · rcases i4 x hx with h | h | h
              · exact Or.inl h
              · exact Or.inr (Or.inl h)
              · refine Or.inr (Or.inr ?_)
                intro y hy
                simp only [keys, List.map_cons, List.mem_cons] at hy
                rcases hy with rfl | hy
                · exact le_of_lt (hasc8.1 x hx)
                · exact h y hy
          · cases r with
            | nil =>
              cases rest1 with
              | nil => rfl
              | cons hd2 rest2 =>
                obtain ⟨b, hb⟩ := getLast?_cons_some hd2 rest2
                rw [hb] at i5
                simp at i5
            | cons hd3 r2 =>
              cases rest1 with
              | nil =>
                obtain ⟨b, hb⟩ := getLast?_cons_some hd3 r2
                rw [hb] at i5
                simp at i5
              | cons hd2 rest2 =>
                rw [List.getLast?_cons_cons, List.getLast?_cons_cons]
                exact i5
        · cases rest1 with
          | nil =>
            refine ⟨[(k, v)], ?_, fun x hx => hx, fun x hx _ => hx, ?_, rfl, hasc⟩
            · have hget2 : tl.meas_map_[pre.length + 1]? = none := by
                rw [hmap, (getElem?_append_length _ _).2]; simp
              simp only [MergeUndesired.loop, hget, if_neg c1, if_neg c2, hget2, ← hmap]
            · intro x hx
              simp only [keys, List.map_cons, List.map_nil, List.mem_singleton] at hx
              subst hx
              refine Or.inr (Or.inr ?_)
              intro y hy
              simp only [keys, List.map_cons, List.map_nil, List.mem_singleton] at hy
              exact le_of_eq hy
          | cons hd2 post =>
            obtain ⟨k2, v2⟩ := hd2
            have hget2 : tl.meas_map_[pre.length + 1]? = some (k2, v2) := by
              rw [hmap, (getElem?_append_length _ _).2]; simp
            have hasc9 : ∀ out : CPtr M, Ascending (keys (pre ++ (k2, out) :: post)) := by
              intro out
              have hsub : (keys (pre ++ (k2, out) :: post)).Sublist
                  (keys (pre ++ (k, v) :: (k2, v2) :: post)) := by
                simp only [keys, List.map_append, List.map_cons]
                exact List.Sublist.append_left (List.sublist_cons_self _ _) _
              exact List.Pairwise.sublist hsub hasc
            have hlen3 : ((k2, v2) :: post).length ≤ n := Nat.le_of_succ_le_succ hlen
            simp only [MergeUndesired.loop, hget, if_neg c1, if_neg c2, hget2]
            rw [Merge_adjacent tl _ k k2 v v2 pre post res hmap hasc]
            simp only []
            obtain ⟨r, i1, i2, i3, i4, i5, i6⟩ :=
              ih pre ((k2, _) :: post) { tl with meas_map_ := pre ++ (k2, _) :: post } rfl
                (by simpa using hlen3) (hasc9 _)
            refine ⟨r, i1, ?_, ?_, i4, ?_, i6⟩
            · intro x hx
              have := i2 x hx
              simp only [keys, List.map_cons, List.mem_cons] at this ⊢
              exact Or.inr this
            · intro x hx hc
              apply i3 x _ hc
              simp only [keys, List.map_cons, List.mem_cons] at hx ⊢
              rcases hx with rfl | hx
              · rcases hc with hc | hc
                · exact absurd hc c2
                · exact absurd hc c1
              · exact hx
            · rw [i5, List.getLast?_cons_cons]
              cases post with
              | nil => rfl
              | cons hd4 post2 =>
                rw [List.getLast?_cons_cons, List.getLast?_cons_cons]

end MeasurementTimeline

namespace MeasurementTimeline

variable {M : Type}

theorem previousKey_concat {P : Type} (pre : List (TimePoint × P)) (k : TimePoint) (v : P)
    (lpt : TimePoint) : previousKey (pre ++ [(k, v)]) lpt = k := by
  simp [previousKey]

theorem MergeUndesired_loop_eq (times : TimeSet) (mx : TimePoint)
    (res : BinaryResidualBase M) :
    ∀ (fuel : Nat) (pre rest : List (TimePoint × CPtr M)) (tl : MeasurementTimeline (CPtr M)),
      tl.meas_map_ = pre ++ rest → rest.length ≤ fuel → Ascending (keys (pre ++ rest)) →
      MergeUndesired.loop times mx res fuel pre.length tl
        = tl.MergeEach res
            (MergeUndesired.specCalls times mx (previousKey pre tl.last_processed_time_)
              (keys rest)) := by
  intro fuel
  induction fuel with
  | zero =>
    intro pre rest tl hmap hlen hasc
    have hr : rest = [] := List.length_eq_zero.mp (Nat.le_zero.mp hlen)
    subst hr
    simp [MergeUndesired.loop, keys, MergeUndesired.specCalls, MergeEach]
  | succ n ih =>
    intro pre rest tl hmap hlen hasc
    cases rest with
    | nil =>
      have hget : tl.meas_map_[pre.length]? = none := by
        rw [hmap, (getElem?_append_length _ _).1]; simp
      simp [MergeUndesired.loop, hget, keys, MergeUndesired.specCalls, MergeEach]
    | cons hd rest1 =>
      obtain ⟨k, v⟩ := hd
      have hget : tl.meas_map_[pre.length]? = some (k, v) := by
        rw [hmap, (getElem?_append_length _ _).1]; simp
      have hmap2 : tl.meas_map_ = (pre ++ [(k, v)]) ++ rest1 := by
        rw [hmap]; simp
      have hasc5 : Ascending (keys ((pre ++ [(k, v)]) ++ rest1)) := by
        have : (pre ++ [(k, v)]) ++ rest1 = pre ++ (k, v) :: rest1 := by simp
        rw [this]; exact hasc
      have hlen2 : (pre ++ [(k, v)]).length = pre.length + 1 := by simp
      have ih2 := ih (pre ++ [(k, v)]) rest1 tl hmap2 (Nat.le_of_succ_le_succ hlen) hasc5
      rw [hlen2, previousKey_concat] at ih2
      cases rest1 with
      | nil =>
        have hget2 : tl.meas_map_[pre.length + 1]? = none := by
          rw [hmap, (getElem?_append_length _ _).2]; simp
        have hs : ∀ p, MergeUndesired.specCalls times mx p (keys [(k, v)]) = [] := by
          intro p
          simp [keys, MergeUndesired.specCalls]
        rw [hs]
        simp only [MergeUndesired.loop, hget, hget2, MergeEach]
        by_cases c1 : mx < k
        · rw [if_pos c1]
        · rw [if_neg c1]
          by_cases c2 : k ∈ times
          · rw [if_pos c2, ih2]
            simp [keys, MergeUndesired.specCalls, MergeEach]
          · rw [if_neg c2]
      | cons hd2 post =>
        obtain ⟨k2, v2⟩ := hd2
        have hget2 : tl.meas_map_[pre.length + 1]? = some (k2, v2) := by
          rw [hmap, (getElem?_append_length _ _).2]; simp
        have hk : keys ((k, v) :: (k2, v2) :: post) = k :: k2 :: keys post := rfl
        rw [hk]
        by_cases c1 : mx < k
        · simp only [MergeUndesired.loop, hget, if_pos c1, MergeUndesired.specCalls, MergeEach]
        · by_cases c2 : k ∈ times
          · simp only [MergeUndesired.loop, hget, if_neg c1, if_pos c2,
              MergeUndesired.specCalls]
            exact ih2
          · have hasc9 : ∀ out : CPtr M, Ascending (keys (pre ++ (k2, out) :: post)) := by
              intro out
              have hsub : (keys (pre ++ (k2, out) :: post)).Sublist
                  (keys (pre ++ (k, v) :: (k2, v2) :: post)) := by
                simp only [keys, List.map_append, List.map_cons]
                exact List.Sublist.append_left (List.sublist_cons_self _ _) _
              exact List.Pairwise.sublist hsub hasc
            have hlen3 : ((k2, v2) :: post).length ≤ n := Nat.le_of_succ_le_succ hlen
            simp only [MergeUndesired.loop, hget, if_neg c1, if_neg c2, hget2,
              MergeUndesired.specCalls, MergeEach]
            generalize hp : (ite (pre.length = 0) tl.last_processed_time_ _) = p0
            have hp0 : p0 = previousKey pre tl.last_processed_time_ := by
              rw [← hp]
              rcases List.eq_nil_or_concat pre with h | ⟨init, a, h⟩
              · rw [h]
                simp [previousKey]
              · rw [List.concat_eq_append] at h
                have hg : tl.meas_map_[pre.length - 1]? = some a := by
                  have hl : (init ++ [a]).length - 1 = init.length := by simp
                  rw [hmap, h, hl, List.append_assoc, (getElem?_append_length init _).1]
                  simp
                have hne : ¬ pre.length = 0 := by rw [h]; simp
                rw [if_neg hne, hg, h]
                simp [previousKey]
            subst hp0
            rw [Merge_adjacent tl _ k k2 v v2 pre post res hmap hasc]
            simp only []
            exact ih pre ((k2, _) :: post) { tl with meas_map_ := pre ++ (k2, _) :: post } rfl
              (by simpa using hlen3) (hasc9 _)

end MeasurementTimeline

namespace MeasurementTimeline

variable {M : Type}

theorem specCalls_spec (times : TimeSet) (mx : TimePoint) :
    ∀ (l : List TimePoint) (prev : TimePoint), Ascending l →
      ∀ c ∈ MergeUndesired.specCalls times mx prev l,
        c.2.1 ∈ l ∧ c.2.1 ∉ times ∧ c.2.1 ≤ mx ∧ c.2.2 ∈ l ∧ c.2.1 < c.2.2 ∧
        (∀ x ∈ l, ¬ (c.2.1 < x ∧ x < c.2.2)) ∧
        ((c.1 = prev ∧ ∀ x ∈ l, x < c.2.1 → x ∉ times) ∨
          (c.1 ∈ l ∧ c.1 ∈ times ∧ c.1 < c.2.1 ∧
            ∀ x ∈ l, c.1 < x → x < c.2.1 → x ∉ times)) := by
  intro l
  induction l with
  | nil =>
    intro prev _ c hc
    simp [MergeUndesired.specCalls] at hc
  | cons k tl ih =>
    intro prev hasc c hc
    cases tl with
    | nil => simp [MergeUndesired.specCalls] at hc
    | cons k2 rest =>
      have hasc2 := hasc
      unfold Ascending at hasc2
      rw [List.pairwise_cons] at hasc2
      obtain ⟨hk, htl⟩ := hasc2
      have tail : ∀ p, c ∈ MergeUndesired.specCalls times mx p (k2 :: rest) →
          (p = prev ∧ k ∉ times ∨ p = k ∧ k ∈ times) →
          c.2.1 ∈ k :: k2 :: rest ∧ c.2.1 ∉ times ∧ c.2.1 ≤ mx ∧ c.2.2 ∈ k :: k2 :: rest ∧
          c.2.1 < c.2.2 ∧ (∀ x ∈ k :: k2 :: rest, ¬ (c.2.1 < x ∧ x < c.2.2)) ∧
          ((c.1 = prev ∧ ∀ x ∈ k :: k2 :: rest, x < c.2.1 → x ∉ times) ∨
            (c.1 ∈ k :: k2 :: rest ∧ c.1 ∈ times ∧ c.1 < c.2.1 ∧
              ∀ x ∈ k :: k2 :: rest, c.1 < x → x < c.2.1 → x ∉ times)) := by
        intro p hcp hp
        obtain ⟨i1, i2, i3, i4, i5, i6, i7⟩ := ih p htl c hcp
        have hk1 : k < c.2.1 := hk _ i1
        refine ⟨List.mem_cons_of_mem _ i1, i2, i3, List.mem_cons_of_mem _ i4, i5, ?_, ?_⟩
        · intro x hx hc2
          rcases List.mem_cons.mp hx with rfl | hx
          · exact lt_asymm hk1 hc2.1
          · exact i6 x hx hc2
        · rcases i7 with ⟨j1, j2⟩ | ⟨j1, j2, j3, j4⟩
          · rcases hp with ⟨hp1, hp2⟩ | ⟨hp1, hp2⟩
            · left
              refine ⟨j1.trans hp1, ?_⟩
              intro x hx hlt
              rcases List.mem_cons.mp hx with rfl | hx
              · exact hp2
              · exact j2 x hx hlt
            · right
              refine ⟨?_, ?_, ?_, ?_⟩
              · rw [j1, hp1]; exact List.mem_cons_self _ _
              · rw [j1, hp1]; exact hp2
              · rw [j1, hp1]; exact hk1
              · intro x hx h1 hlt
                rw [j1, hp1] at h1
                rcases List.mem_cons.mp hx with rfl | hx
                · exact absurd h1 (lt_irrefl _)
                · exact j2 x hx hlt
          · right
            refine ⟨List.mem_cons_of_mem _ j1, j2, j3, ?_⟩
            intro x hx h1 hlt
            rcases List.mem_cons.mp hx with rfl | hx
            · exact absurd h1 (lt_asymm (hk _ j1))
            · exact j4 x hx h1 hlt
      by_cases c1 : mx < k
      · simp [MergeUndesired.specCalls, c1] at hc
      · by_cases c2 : k ∈ times
        · simp only [MergeUndesired.specCalls, if_neg c1, if_pos c2] at hc
          exact tail k hc (Or.inr ⟨rfl, c2⟩)
        · simp only [MergeUndesired.specCalls, if_neg c1, if_neg c2, List.mem_cons] at hc
          rcases hc with rfl | hc
          · refine ⟨List.mem_cons_self _ _, c2, not_lt.mp c1,
              List.mem_cons_of_mem _ (List.mem_cons_self _ _),
              hk k2 (List.mem_cons_self _ _), ?_, Or.inl ⟨rfl, ?_⟩⟩
            · intro x hx hc2
              rcases List.mem_cons.mp hx with rfl | hx
              · exact lt_irrefl _ hc2.1
              · rcases List.mem_cons.mp hx with rfl | hx
                · exact lt_irrefl _ hc2.2
                · rw [List.pairwise_cons] at htl
                  exact lt_asymm (htl.1 x hx) hc2.2
            · intro x hx hlt
              rcases List.mem_cons.mp hx with rfl | hx
              · exact absurd hlt (lt_irrefl _)
              · exact absurd hlt (lt_asymm (hk x hx))
          · exact tail prev hc (Or.inl ⟨rfl, c2⟩)

theorem specCalls_ascending (times : TimeSet) (mx : TimePoint) :
    ∀ (l : List TimePoint) (prev : TimePoint), Ascending l →
      Ascending ((MergeUndesired.specCalls times mx prev l).map (fun c => c.2.1)) := by
  intro l
  induction l with
  | nil =>
    intro prev _
    simp [MergeUndesired.specCalls, Ascending]
  | cons k tl ih =>
    intro prev hasc
    cases tl with
    | nil => simp [MergeUndesired.specCalls, Ascending]
    | cons k2 rest =>
      have hasc2 := hasc
      unfold Ascending at hasc2
      rw [List.pairwise_cons] at hasc2
      obtain ⟨hk, htl⟩ := hasc2
      by_cases c1 : mx < k
      · simp [MergeUndesired.specCalls, c1, Ascending]
      · by_cases c2 : k ∈ times
        · simp only [MergeUndesired.specCalls, if_neg c1, if_pos c2]
          exact ih k htl
        · simp only [MergeUndesired.specCalls, if_neg c1, if_neg c2, List.map_cons]
          unfold Ascending
          rw [List.pairwise_cons]
          refine ⟨?_, ih prev htl⟩
          intro t ht
          obtain ⟨c, hc, rfl⟩ := List.mem_map.mp ht
          exact hk _ (specCalls_spec times mx _ prev htl c hc).1

theorem specCalls_cover (times : TimeSet) (mx : TimePoint) :
    ∀ (l : List TimePoint) (prev : TimePoint), Ascending l →
      ∀ k ∈ l, k ∉ times → k ≤ mx → (∃ x ∈ l, k < x) →
        ∃ c ∈ MergeUndesired.specCalls times mx prev l, c.2.1 = k := by
  intro l
  induction l with
  | nil =>
    intro prev _ k hk
    simp at hk
  | cons a tl ih =>
    intro prev hasc k hk hkt hkm hx
    cases tl with
    | nil =>
      obtain ⟨x, hx1, hx2⟩ := hx
      rw [List.mem_singleton] at hk hx1
      rw [hk, hx1] at hx2
      exact absurd hx2 (lt_irrefl _)
    | cons a2 rest =>
      have hasc2 := hasc
      unfold Ascending at hasc2
      rw [List.pairwise_cons] at hasc2
      obtain ⟨ha, htl⟩ := hasc2
      have hle : a ≤ k := by
        rcases List.mem_cons.mp hk with rfl | hk2
        · exact le_refl _
        · exact le_of_lt (ha k hk2)
      have c1 : ¬ mx < a := not_lt.mpr (le_trans hle hkm)
      have tail : ∀ p, k ∈ a2 :: rest →
          ∃ c ∈ MergeUndesired.specCalls times mx p (a2 :: rest), c.2.1 = k := by
        intro p hk2
        apply ih p htl k hk2 hkt hkm
        obtain ⟨x, hx1, hx2⟩ := hx
        refine ⟨x, ?_, hx2⟩
        rcases List.mem_cons.mp hx1 with rfl | hx1
        · exact absurd hx2 (lt_asymm (ha k hk2))
        · exact hx1
      by_cases c2 : a ∈ times
      · simp only [MergeUndesired.specCalls, if_neg c1, if_pos c2]
        rcases List.mem_cons.mp hk with rfl | hk2
        · exact absurd c2 hkt
        · exact tail a hk2
      · simp only [MergeUndesired.specCalls, if_neg c1, if_neg c2]
        rcases List.mem_cons.mp hk with rfl | hk2
        · exact ⟨_, List.mem_cons_self _ _, rfl⟩
        · obtain ⟨c, hc1, hc2⟩ := tail prev hk2
          exact ⟨c, List.mem_cons_of_mem _ hc1, hc2⟩

theorem Merge_effect (s s1 : MeasurementTimeline (CPtr M)) (t0 t1 t2 : TimePoint)
    (res : BinaryResidualBase M) (hm : Ascending (keys s.meas_map_)) (hne : t1 ≠ t2)
    (h : s.Merge t0 t1 t2 res = some s1) :
    ∃ in1 in2, mapFind s.meas_map_ t1 = some in1 ∧ mapFind s.meas_map_ t2 = some in2 ∧
      mapFind s1.meas_map_ t2 = some (res.MergeMeasurements t0 t1 t2 in1 in2 in2) ∧
      mapFind s1.meas_map_ t1 = none ∧
      (∀ x, x ≠ t1 → x ≠ t2 → mapFind s1.meas_map_ x = mapFind s.meas_map_ x) ∧
      s1.last_processed_time_ = s.last_processed_time_ ∧ Ascending (keys s1.meas_map_) := by
  unfold Merge at h
  cases h1 : mapFind s.meas_map_ t1 with
  | none => simp [h1] at h
  | some in1 =>
    cases h2 : mapFind s.meas_map_ t2 with
    | none => simp [h1, h2] at h
    | some in2 =>
      simp only [h1, h2, Option.some.injEq] at h
      subst h
      have hk2 : t2 ∈ keys s.meas_map_ := (mapFind_isSome _ _).mpr ⟨in2, h2⟩
      have hasc : Ascending (keys (mapSet s.meas_map_ t2
          (res.MergeMeasurements t0 t1 t2 in1 in2 in2))) := by
        rw [keys_mapSet]; exact hm
      refine ⟨in1, in2, rfl, rfl, ?_, ?_, ?_, rfl, mapErase_ascending _ _ hasc⟩
      · show mapFind (mapErase _ t1) t2 = _
        rw [mapFind_mapErase_other _ _ _ (Ne.symm hne), mapFind_mapSet_self _ _ _ hk2]
      · exact mapFind_mapErase_self _ _ hasc
      · intro x hx1 hx2
        show mapFind (mapErase _ t1) x = _
        rw [mapFind_mapErase_other _ _ _ hx1, mapFind_mapSet_other _ _ _ _ hx2]

end MeasurementTimeline

namespace MeasurementTimeline

variable {M : Type}

theorem lastKey_greatest {P : Type} (m : List (TimePoint × P)) (g : TimePoint)
    (hm : Ascending (keys m)) (hl : m.getLast?.map Prod.fst = some g) :
    g ∈ keys m ∧ ∀ x ∈ keys m, x ≤ g := by
  cases h : m.getLast? with
  | none => rw [h] at hl; simp at hl
  | some e =>
    obtain ⟨g2, v⟩ := e
    rw [h] at hl
    simp only [Option.map_some', Option.some.injEq] at hl
    subst hl
    exact getLast_greatest m g2 v hm h

theorem MergeUndesired_keys (tl : MeasurementTimeline (CPtr M)) (times : TimeSet)
    (mx : TimePoint) (res : BinaryResidualBase M) (hm : Ascending (keys tl.meas_map_))
    (hl : times.getLast? = some mx) :
    ∃ m1, tl.MergeUndesired times res = some { tl with meas_map_ := m1 } ∧
      (∀ k ∈ keys m1, k ∈ keys tl.meas_map_) ∧
      (∀ k ∈ keys tl.meas_map_, k ∈ times ∨ mx < k → k ∈ keys m1) ∧
      (∀ k ∈ keys m1, k ∈ times ∨ mx < k ∨ ∀ x ∈ keys tl.meas_map_, x ≤ k) ∧
      (∀ g ∈ keys tl.meas_map_, (∀ x ∈ keys tl.meas_map_, x ≤ g) → g ∈ keys m1) ∧
      Ascending (keys m1) := by
  obtain ⟨r, i1, i2, i3, i4, i5, i6⟩ :=
    MergeUndesired_loop_spec times mx res tl.meas_map_.length [] tl.meas_map_ tl rfl
      (le_refl _) hm
  have hkeep : ∀ g ∈ keys tl.meas_map_, (∀ x ∈ keys tl.meas_map_, x ≤ g) → g ∈ keys r := by
    intro g hg hmax
    obtain ⟨v, hv⟩ := (mem_keys _ _).mp hg
    obtain ⟨e, he⟩ : ∃ e, tl.meas_map_.getLast? = some e := by
      cases hc : tl.meas_map_ with
      | nil => rw [hc] at hv; simp at hv
      | cons a l => exact getLast?_cons_some a l
    have h1 : tl.meas_map_.getLast?.map Prod.fst = some e.1 := by rw [he]; rfl
    obtain ⟨j1, j2⟩ := lastKey_greatest _ _ hm h1
    have hge : g = e.1 := le_antisymm (j2 g hg) (hmax e.1 j1)
    rw [← i5] at h1
    rw [hge]
    exact (lastKey_greatest r e.1 i6 h1).1
  refine ⟨r, ?_, i2, i3, ?_, hkeep, i6⟩
  · simp only [MergeUndesired, hl]
    exact i1
  · intro k hk
    rcases i4 k hk with h | h | h
    · exact Or.inl h
    · exact Or.inr (Or.inl h)
    · refine Or.inr (Or.inr ?_)
      obtain ⟨e, he⟩ : ∃ e, tl.meas_map_.getLast? = some e := by
        cases hc : tl.meas_map_ with
        | nil =>
          have := i2 k hk
          rw [hc] at this
          simp [keys] at this
        | cons a l => exact getLast?_cons_some a l
      have h1 : tl.meas_map_.getLast?.map Prod.fst = some e.1 := by rw [he]; rfl
      obtain ⟨j1, j2⟩ := lastKey_greatest _ _ hm h1
      have hin : e.1 ∈ keys r := hkeep e.1 j1 j2
      intro x hx
      exact le_trans (j2 x hx) (h e.1 hin)

end MeasurementTimeline

/-! ## Blocks of vectors -/

theorem block_setBlock_same {K : Type} {n : Nat} (vec : Vec K n) (start d : Nat) (b : Vec K d)
    (h : start + d ≤ n) : block (setBlock vec start d b) start d h = b := by
  funext j
  have hj := j.isLt
  simp only [block, setBlock]
  rw [dif_pos ⟨Nat.le_add_right _ _, by omega⟩]
  congr 1
  apply Fin.ext
  simp

theorem block_setBlock_disjoint {K : Type} {n : Nat} (vec : Vec K n) (s1 d1 s2 d2 : Nat)
    (b : Vec K d1) (h : s2 + d2 ≤ n) (hd : s2 + d2 ≤ s1 ∨ s1 + d1 ≤ s2) :
    block (setBlock vec s1 d1 b) s2 d2 h = block vec s2 d2 h := by
  funext j
  have hj := j.isLt
  simp only [block, setBlock]
  rw [dif_neg]
  simp only [not_and, not_lt]
  intro h1
  rcases hd with hd | hd <;> omega

theorem slice_mul_le {N d : Nat} (i : Fin N) : i.val * d + d ≤ N * d := by
  have h := Nat.mul_le_mul_right d i.isLt
  rw [Nat.succ_mul] at h
  exact h

theorem slice_disjoint {N : Nat} (d : Nat) (i k : Fin N) (h : i ≠ k) :
    k.val * d + d ≤ i.val * d ∨ i.val * d + d ≤ k.val * d := by
  have hne : i.val ≠ k.val := fun e => h (Fin.ext e)
  rcases Nat.lt_or_gt_of_ne hne with h1 | h1
  · right
    have := Nat.mul_le_mul_right d (Nat.succ_le_of_lt h1)
    rw [Nat.succ_mul] at this
    exact this
  · left
    have := Nat.mul_le_mul_right d (Nat.succ_le_of_lt h1)
    rw [Nat.succ_mul] at this
    exact this

theorem slice_setBlock_same {K : Type} {N d : Nat} (vec : Vec K (N * d)) (i : Fin N)
    (b : Vec K d) : slice (setBlock vec (i.val * d) d b) i = b :=
  block_setBlock_same vec (i.val * d) d b (slice_mul_le i)

theorem slice_setBlock_other {K : Type} {N d : Nat} (vec : Vec K (N * d)) (i k : Fin N)
    (b : Vec K d) (h : i ≠ k) : slice (setBlock vec (i.val * d) d b) k = slice vec k :=
  block_setBlock_disjoint vec (i.val * d) d (k.val * d) d b (slice_mul_le k)
    (slice_disjoint d i k h)

theorem slice_ext {K : Type} {N d : Nat} (v w : Vec K (N * d))
    (h : ∀ i : Fin N, slice v i = slice w i) : v = w := by
  funext j
  have hj := j.isLt
  have hpos : 0 < N * d := Nat.lt_of_le_of_lt (Nat.zero_le _) hj
  have hd : 0 < d := Nat.pos_of_ne_zero (fun h0 => by simp [h0] at hpos)
  have hq : j.val / d < N := Nat.div_lt_of_lt_mul (by rw [Nat.mul_comm d N]; exact hj)
  have hr : j.val % d < d := Nat.mod_lt _ hd
  have hsum : j.val / d * d + j.val % d = j.val := Nat.div_add_mod' _ _
  have := congrFun (h ⟨j.val / d, hq⟩) ⟨j.val % d, hr⟩
  simp only [slice, block] at this
  have hidx : (⟨j.val / d * d + j.val % d, by omega⟩ : Fin (N * d)) = j := Fin.ext hsum
  rw [hidx] at this
  exact this

theorem pack_ext {K : Type} {d1 d2 : Nat} (v w : Vec K (d1 + d2))
    (h1 : block v 0 d1 (by omega) = block w 0 d1 (by omega))
    (h2 : block v d1 d2 (le_refl _) = block w d1 d2 (le_refl _)) : v = w := by
  funext j
  have hj := j.isLt
  by_cases c : j.val < d1
  · have := congrFun h1 ⟨j.val, c⟩
    simp only [block] at this
    have hidx : (⟨0 + j.val, by omega⟩ : Fin (d1 + d2)) = j := Fin.ext (by simp)
    rw [hidx] at this
    exact this
  · have := congrFun h2 ⟨j.val - d1, by omega⟩
    simp only [block] at this
    have hidx : (⟨d1 + (j.val - d1), by omega⟩ : Fin (d1 + d2)) = j := Fin.ext (by simp; omega)
    rw [hidx] at this
    exact this

/-! ## The loop of the array `Boxminus` -/

namespace ElementTraits

theorem array_Boxminus_fold_other {K T : Type} (tr : ElementTraits K T) (N : Nat)
    (in_ ref : Fin N → T) (l : List (Fin N)) (acc : Vec K (N * tr.kDim)) (k : Fin N)
    (hk : k ∉ l) :
    slice (l.foldl
      (fun acc i =>
        setBlock acc (i.val * tr.kDim) tr.kDim (tr.Boxminus (in_ i) (ref i) (slice acc i)))
      acc) k = slice acc k := by
  induction l generalizing acc with
  | nil => rfl
  | cons i rest ih =>
    simp only [List.mem_cons, not_or] at hk
    rw [List.foldl_cons, ih _ hk.2]
    exact slice_setBlock_other acc i k _ (fun e => hk.1 e.symm)

theorem array_Boxminus_fold_mem {K T : Type} (tr : ElementTraits K T) (N : Nat)
    (in_ ref : Fin N → T) (l : List (Fin N)) (acc : Vec K (N * tr.kDim)) (k : Fin N)
    (hn : l.Nodup) (hk : k ∈ l) :
    ∃ v0, slice (l.foldl
      (fun acc i =>
        setBlock acc (i.val * tr.kDim) tr.kDim (tr.Boxminus (in_ i) (ref i) (slice acc i)))
      acc) k = tr.Boxminus (in_ k) (ref k) v0 := by
  induction l generalizing acc with
  | nil => simp at hk
  | cons i rest ih =>
    rw [List.nodup_cons] at hn
    rw [List.foldl_cons]
    rcases List.mem_cons.mp hk with rfl | h
    · refine ⟨slice acc k, ?_⟩
      rw [array_Boxminus_fold_other tr N in_ ref rest _ k hn.1]
      exact slice_setBlock_same acc k _
    · exact ih _ hn.2 h

theorem array_Boxminus_slice {K T : Type} [Field K] (tr : ElementTraits K T) (N : Nat)
    (in_ ref : Fin N → T) (vec : Vec K (N * tr.kDim)) (k : Fin N) :
    ∃ v0, slice ((array tr N).Boxminus in_ ref vec) k = tr.Boxminus (in_ k) (ref k) v0 :=
  array_Boxminus_fold_mem tr N in_ ref (List.finRange N) vec k (List.nodup_finRange N)
    (List.mem_finRange k)

end ElementTraits

/-! ## Box-plus and box-minus of the vector-space traits -/

namespace ElementTraits

variable {K : Type} [Field K]

theorem scalar_Boxminus (x r : K) (v0 : Vec K 1) :
    (scalar K).Boxminus x r v0 = fun _ => x - r := by
  funext (j : Fin 1)
  have hj : j.val < 0 + 1 := by have := j.isLt; omega
  show setBlock v0 0 1 (fun _ => x - r) j = x - r
  simp only [setBlock]
  rw [dif_pos ⟨Nat.zero_le _, hj⟩]

theorem slice_zero {N d : Nat} (i : Fin N) : slice (0 : Vec K (N * d)) i = 0 := rfl

theorem slice_neg {N d : Nat} (v : Vec K (N * d)) (i : Fin N) : slice (-v) i = -slice v i := rfl

theorem array_Boxplus_zero {T : Type} (tr : ElementTraits K T) (h : ∀ x, tr.Boxplus x 0 = x)
    (N : Nat) (x : Fin N → T) : (array tr N).Boxplus x 0 = x := by
  funext i
  show tr.Boxplus (x i) (slice (0 : Vec K (N * tr.kDim)) i) = x i
  rw [slice_zero]
  exact h (x i)

theorem array_Boxplus_Boxminus {T : Type} (tr : ElementTraits K T)
    (h : ∀ x r v0, tr.Boxplus r (tr.Boxminus x r v0) = x) (N : Nat) (x r : Fin N → T)
    (v0 : Vec K (N * tr.kDim)) :
    (array tr N).Boxplus r ((array tr N).Boxminus x r v0) = x := by
  funext i
  obtain ⟨w, hw⟩ := array_Boxminus_slice tr N x r v0 i
  show tr.Boxplus (r i) (slice ((array tr N).Boxminus x r v0) i) = x i
  rw [hw]
  exact h (x i) (r i) w

theorem array_Boxminus_Boxplus {T : Type} (tr : ElementTraits K T)
    (h : ∀ s v v0, tr.Boxminus (tr.Boxplus s v) s v0 = v) (N : Nat) (s : Fin N → T)
    (v v0 : Vec K (N * tr.kDim)) :
    (array tr N).Boxminus ((array tr N).Boxplus s v) s v0 = v := by
  apply slice_ext
  intro i
  obtain ⟨w, hw⟩ := array_Boxminus_slice tr N ((array tr N).Boxplus s v) s v0 i
  rw [hw]
  exact h (s i) (slice v i) w

theorem array_Boxminus_Boxplus_neg {T : Type} (tr : ElementTraits K T)
    (h : ∀ s v v0, tr.Boxminus s (tr.Boxplus s v) v0 = -v) (N : Nat) (s : Fin N → T)
    (v v0 : Vec K (N * tr.kDim)) :
    (array tr N).Boxminus s ((array tr N).Boxplus s v) v0 = -v := by
  apply slice_ext
  intro i
  obtain ⟨w, hw⟩ := array_Boxminus_slice tr N s ((array tr N).Boxplus s v) v0 i
  rw [hw, slice_neg]
  exact h (s i) (slice v i) w

theorem scalar_roundtrip (s : K) (v v0 : Vec K 1) :
    (scalar K).Boxminus ((scalar K).Boxplus s v) s v0 = v ∧
      (scalar K).Boxminus s ((scalar K).Boxplus s v) v0 = -v := by
  rw [scalar_Boxminus, scalar_Boxminus]
  constructor
  · funext (j : Fin 1)
    have hj : j = (0 : Fin 1) := Subsingleton.elim _ _
    subst hj
    show s + v 0 - s = v 0
    ring
  · funext (j : Fin 1)
    have hj : j = (0 : Fin 1) := Subsingleton.elim _ _
    subst hj
    show s - (s + v 0) = -v 0
    ring

theorem vec_roundtrip (N : Nat) (s : Vec K N) (v v0 : Vec K N) :
    (vec K N).Boxminus ((vec K N).Boxplus s v) s v0 = v ∧
      (vec K N).Boxminus s ((vec K N).Boxplus s v) v0 = -v := by
  constructor
  · show s + v - s = v
    abel
  · show s - (s + v) = -v
    abel

theorem pack_roundtrip {T1 T2 : Type} (tr1 : ElementTraits K T1) (tr2 : ElementTraits K T2)
    (h1 : ∀ s v v0, tr1.Boxminus s (tr1.Boxplus s v) v0 = -v)
    (h2 : ∀ s v v0, tr2.Boxminus s (tr2.Boxplus s v) v0 = -v) (s : T1 × T2)
    (v v0 : Vec K (tr1.kDim + tr2.kDim)) :
    packBoxMinus tr1 tr2 s (packBoxPlus tr1 tr2 s v) v0 = -v := by
  apply pack_ext
  · unfold packBoxMinus
    rw [block_setBlock_disjoint _ _ _ _ _ _ _ (Or.inl (by omega)), block_setBlock_same]
    simp only [packBoxPlus]
    rw [h1]
    rfl
  · unfold packBoxMinus
    rw [block_setBlock_same]
    simp only [packBoxPlus]
    rw [h2]
    rfl

end ElementTraits

/-! ## Difference quotients -/

namespace ElementTraits

variable {K : Type} [Field K]

theorem vec_Boxminus_apply (N : Nat) (a b v0 : Vec K N) (i : Fin N) :
    (vec K N).Boxminus a b v0 i = a i - b i := rfl

theorem vec_Boxplus_apply (N : Nat) (a v : Vec K N) (i : Fin N) :
    (vec K N).Boxplus a v i = a i + v i := rfl

theorem scalar_Boxminus_apply (a b : K) (v0 : Vec K 1) (i : Fin 1) :
    (scalar K).Boxminus a b v0 i = a - b := by
  rw [scalar_Boxminus]

theorem scalar_Boxplus_eq (a : K) (v : Vec K 1) : (scalar K).Boxplus a v = a + v 0 := rfl

theorem single_div (N : Nat) (i j : Fin N) (h : K) (hh : h ≠ 0) :
    (Pi.single j h : Fin N → K) i / h = (1 : Matrix (Fin N) (Fin N) K) i j := by
  rw [Matrix.one_apply, Pi.single_apply]
  split_ifs with c
  · exact div_self hh
  · exact zero_div h

end ElementTraits

namespace TransformationExample

variable {K : Type} [Field K]

theorem JacFD_apply (timeIn : K) (posIn : Fin 4 → Vec K 3) (h : K) (hh : h ≠ 0) (i : Fin 3)
    (j : Fin 13) :
    JacFD timeIn posIn h i j =
      if j.val = 0 then posIn 2 i + (![1, 2, 3] : Vec K 3) i
      else if j.val = 7 + i.val then timeIn + 1 else 0 := by
  have hi := i.isLt
  have key : JacFD timeIn posIn h i j =
      ((timeIn + (Pi.single j h : Fin 13 → K) ⟨0 + 0, by omega⟩ + 1) *
          (posIn 2 i + (Pi.single j h : Fin 13 → K) ⟨1 + (2 * 3 + i.val), by omega⟩
            + (![1, 2, 3] : Vec K 3) i)
        - (timeIn + 1) * (posIn 2 i + (![1, 2, 3] : Vec K 3) i)) / h := rfl
  rw [key]
  by_cases c0 : j.val = 0
  · have hj : (⟨0 + 0, by omega⟩ : Fin 13) = j := Fin.ext (by simp [c0])
    have h7 : (⟨1 + (2 * 3 + i.val), by omega⟩ : Fin 13) ≠ j := by
      intro e
      have := congrArg Fin.val e
      simp at this
      omega
    rw [hj, Pi.single_eq_same, Pi.single_eq_of_ne h7, if_pos c0]
    field_simp
    ring
  · have hj0 : (⟨0 + 0, by omega⟩ : Fin 13) ≠ j := by
      intro e
      have := congrArg Fin.val e
      simp at this
      omega
    rw [Pi.single_eq_of_ne hj0, if_neg c0]
    by_cases c7 : j.val = 7 + i.val
    · have hj : (⟨1 + (2 * 3 + i.val), by omega⟩ : Fin 13) = j := Fin.ext (by simp; omega)
      rw [hj, Pi.single_eq_same, if_pos c7]
      field_simp
      ring
    · have hj : (⟨1 + (2 * 3 + i.val), by omega⟩ : Fin 13) ≠ j := by
        intro e
        have := congrArg Fin.val e
        simp at this
        omega
      rw [Pi.single_eq_of_ne hj, if_neg c7]
      simp

theorem JacTransform_apply (timeIn : K) (posIn : Fin 4 → Vec K 3) (i : Fin 3) (j : Fin 13) :
    JacTransform timeIn posIn i j =
      if j.val = 0 then (![1, 2, 3] : Vec K 3) i
      else if j.val = 7 + i.val then 1 else 0 := by
  have hi := i.isLt
  have hj := j.isLt
  simp only [JacTransform, setMatBlock, Matrix.of_apply]
  by_cases c0 : j.val = 0
  · rw [dif_neg (by omega), dif_pos (by omega), if_pos c0]
    rfl
  · rw [dif_pos (by omega), if_neg c0]
    by_cases c7 : j.val = 7 + i.val
    · rw [dif_pos (by omega), if_pos c7, Matrix.one_apply, if_pos (Fin.ext (by simp; omega))]
    · by_cases c8 : 6 ≤ j.val - 1 ∧ j.val - 1 < 6 + 3
      · rw [dif_pos ⟨⟨Nat.zero_le _, by omega⟩, c8⟩, if_neg c7, Matrix.one_apply,
          if_neg (fun e => c7 (by have := congrArg Fin.val e; simp at this; omega))]
      · rw [dif_neg (fun e => c8 e.2), if_neg c7]
        rfl

theorem JacFD_eq_JacTransform_of_identity (timeIn : K) (posIn : Fin 4 → Vec K 3) (h : K)
    (hh : h ≠ 0) (ht : timeIn = 0) (hp : posIn 2 = 0) :
    JacFD timeIn posIn h = JacTransform timeIn posIn := by
  ext i j
  rw [JacFD_apply timeIn posIn h hh, JacTransform_apply, ht, hp]
  simp

end TransformationExample

/-! ## Range queries on an empty output set -/

namespace MeasurementTimeline

variable {P : Type}

theorem mem_GetAllInRange (tl : MeasurementTimeline P) (times : TimeSet)
    (start end_ : TimePoint) (hm : Ascending (keys tl.meas_map_)) (x : TimePoint) :
    x ∈ tl.GetAllInRange times start end_ ↔
      x ∈ times ∨ (x ∈ keys tl.meas_map_ ∧ start < x ∧ x ≤ end_) := by
  unfold GetAllInRange
  rw [mem_GetAllInRange_loop _ _ _ _ (ascending_keys_drop _ _ hm)]
  have hx : x ∈ keys (tl.meas_map_.drop (upper_bound tl.meas_map_ start)) ↔
      x ∈ keys tl.meas_map_ ∧ start < x := by
    rw [mem_keys, mem_keys]
    constructor
    · rintro ⟨v, hv⟩
      have := (mem_drop_upper_bound _ start (x, v) hm).mp hv
      exact ⟨⟨v, this.1⟩, this.2⟩
    · rintro ⟨⟨v, hv⟩, h2⟩
      exact ⟨v, (mem_drop_upper_bound _ start (x, v) hm).mpr ⟨hv, h2⟩⟩
  rw [hx]
  tauto

end MeasurementTimeline

/-! ## The inner calls of splitting at a set of times -/

theorem lower_bound_prev {P : Type} (m : List (TimePoint × P)) (t p : TimePoint) (v : P)
    (h0 : lower_bound m t ≠ 0) (hp : m[lower_bound m t - 1]? = some (p, v)) : p < t := by
  induction m with
  | nil => simp [lower_bound] at h0
  | cons hd rest ih =>
    obtain ⟨k, w⟩ := hd
    simp only [lower_bound] at h0 hp
    split_ifs at h0 hp with h1
    · simp only [Nat.add_sub_cancel] at hp
      by_cases hz : lower_bound rest t = 0
      · rw [hz] at hp
        simp only [List.getElem?_cons_zero, Option.some.injEq, Prod.mk.injEq] at hp
        exact hp.1 ▸ h1
      · obtain ⟨n, hn⟩ := Nat.exists_eq_succ_of_ne_zero hz
        apply ih hz
        rw [hn] at hp ⊢
        simpa using hp
    · exact absurd rfl h0

namespace MeasurementTimeline

variable {M : Type}

theorem SplitSet_step_eq (tl : MeasurementTimeline (CPtr M)) (t : TimePoint)
    (res : BinaryResidualBase M) :
    SplitSet.step tl t res =
      match SplitSet.innerCall tl t with
      | none => some tl
      | some c => tl.Split c.1 c.2.1 c.2.2 res := by
  cases hit : tl.meas_map_[lower_bound tl.meas_map_ t]? with
  | none => simp only [SplitSet.step, SplitSet.innerCall, hit]
  | some e =>
    obtain ⟨k, v⟩ := e
    by_cases hk : k = t
    · simp only [SplitSet.step, SplitSet.innerCall, hit, if_pos hk]
    · simp only [SplitSet.step, SplitSet.innerCall, hit, if_neg hk]

theorem SplitSet_innerCall_spec (tl : MeasurementTimeline (CPtr M)) (t : TimePoint)
    (c : TimePoint × TimePoint × TimePoint) (hv : tl.Valid)
    (hl : tl.last_processed_time_ < t) (hc : SplitSet.innerCall tl t = some c) :
    c.2.1 = t ∧ c.1 < c.2.1 ∧ c.2.1 < c.2.2 ∧ c.2.2 ∈ keys tl.meas_map_ ∧
      c.2.1 ∉ keys tl.meas_map_ ∧
      ¬(tl.drop_first_ = true ∧ tl.last_processed_time_ = TimePoint.min) := by
  unfold SplitSet.innerCall at hc
  cases hit : tl.meas_map_[lower_bound tl.meas_map_ t]? with
  | none => simp only [hit] at hc; cases hc
  | some e =>
    obtain ⟨k, v⟩ := e
    simp only [hit] at hc
    by_cases hk : k = t
    · rw [if_pos hk] at hc; cases hc
    · rw [if_neg hk] at hc
      simp only [Option.some.injEq] at hc
      obtain ⟨i1, i2, i3⟩ := lower_bound_some _ _ _ _ hv.1 hit
      have hkk : k ∈ keys tl.meas_map_ := (mapFind_isSome _ _).mpr ⟨v, i2⟩
      have hnk : t ∉ keys tl.meas_map_ := fun h => hk (le_antisymm (i3 t h (le_refl t)) i1)
      have hnd : ¬(tl.drop_first_ = true ∧ tl.last_processed_time_ = TimePoint.min) := by
        intro d
        rw [hv.2.2 d.1 d.2] at hkk
        simp [keys] at hkk
      have hprev : (if lower_bound tl.meas_map_ t = 0 then tl.last_processed_time_
          else
            match tl.meas_map_[lower_bound tl.meas_map_ t - 1]? with
            | some (p, _) => p
            | none => tl.last_processed_time_) < t := by
        split_ifs with h0
        · exact hl
        · split
          · rename_i p w hp
            exact lower_bound_prev _ t p w h0 hp
          · exact hl
      subst hc
      exact ⟨rfl, hprev, lt_of_le_of_ne i1 (fun e => hk e.symm), hkk, hnk, hnd⟩

theorem SplitSet_innerCalls_spec (tl : MeasurementTimeline (CPtr M)) (times : TimeSet)
    (res : BinaryResidualBase M) (hv : tl.Valid)
    (ht : ∀ t ∈ times, tl.last_processed_time_ < t) :
    ∀ e ∈ SplitSet.innerCalls tl times res,
      e.2.1 < e.2.2.1 ∧ e.2.2.1 < e.2.2.2 ∧ e.2.2.2 ∈ keys e.1.meas_map_ ∧
        e.2.2.1 ∉ keys e.1.meas_map_ ∧
        (mapFind (e.1.AddMeasurement none e.2.2.1).meas_map_ e.2.2.1).isSome = true ∧
        (mapFind (e.1.AddMeasurement none e.2.2.1).meas_map_ e.2.2.2).isSome = true ∧
        (e.1.Split e.2.1 e.2.2.1 e.2.2.2 res).isSome = true := by
  induction times generalizing tl with
  | nil => intro e he; simp [SplitSet.innerCalls] at he
  | cons t rest ih =>
    have hlt := ht t (List.mem_cons_self _ _)
    obtain ⟨tl1, s1, s2, s3, _⟩ := SplitSet_step_spec tl t res hv hlt
    have hrest : ∀ x ∈ rest, tl1.last_processed_time_ < x :=
      fun x hx => s3 ▸ ht x (List.mem_cons_of_mem _ hx)
    rw [SplitSet_step_eq] at s1
    intro e he
    simp only [SplitSet.innerCalls] at he
    cases hc : SplitSet.innerCall tl t with
    | none =>
      simp only [hc] at he s1
      cases s1
      exact ih tl hv (fun x hx => ht x (List.mem_cons_of_mem _ hx)) e he
    | some c =>
      simp only [hc] at he s1
      simp only [s1, List.mem_cons] at he
      rcases he with rfl | he
      · obtain ⟨c1, c2, c3, c4, c5, c6⟩ := SplitSet_innerCall_spec tl t c hv hlt hc
        obtain ⟨v2, hv2⟩ := (mapFind_isSome _ _).mp c4
        have hl1 : tl.last_processed_time_ < c.2.1 := c1 ▸ hlt
        have hne : c.2.2 ≠ c.2.1 := ne_of_gt c3
        have hadd : tl.AddMeasurement none c.2.1
            = { tl with meas_map_ := (mapInsert tl.meas_map_ c.2.1 none).1 } := by
          unfold AddMeasurement
          rw [if_neg c6, if_neg (not_le.mpr hl1)]
        refine ⟨c2, c3, c4, c5, ?_, ?_, ?_⟩
        · rw [hadd]
          simp only [mapFind_mapInsert_self _ _ _ c5, Option.isSome_some]
        · rw [hadd]
          simp only [mapFind_mapInsert_other _ _ _ _ hne, hv2, Option.isSome_some]
        · rw [s1]
          rfl
      · exact ih tl1 s2 hrest e he

end MeasurementTimeline

/-! ## The loops of the array traits -/

theorem matBlock_setMatBlock_same {K : Type} {N d : Nat}
    (J : Matrix (Fin (N * d)) (Fin (N * d)) K) (i : Fin N) (B : Matrix (Fin d) (Fin d) K) :
    matBlock (setMatBlock J (i.val * d) (i.val * d) B) i i = B := by
  ext r c
  have hr := r.isLt
  have hc := c.isLt
  simp only [matBlock, setMatBlock, Matrix.of_apply]
  rw [dif_pos ⟨⟨Nat.le_add_right _ _, by omega⟩, ⟨Nat.le_add_right _ _, by omega⟩⟩]
  congr 1 <;> apply Fin.ext <;> simp

theorem matBlock_setMatBlock_other {K : Type} {N d : Nat}
    (J : Matrix (Fin (N * d)) (Fin (N * d)) K) (i i2 k2 : Fin N)
    (B : Matrix (Fin d) (Fin d) K) (h : ¬(i2 = i ∧ k2 = i)) :
    matBlock (setMatBlock J (i.val * d) (i.val * d) B) i2 k2 = matBlock J i2 k2 := by
  ext r c
  have hr := r.isLt
  have hc := c.isLt
  simp only [matBlock, setMatBlock, Matrix.of_apply]
  rw [dif_neg]
  rintro ⟨⟨a1, a2⟩, ⟨b1, b2⟩⟩
  apply h
  constructor
  · by_contra hne
    rcases slice_disjoint d i i2 (fun e => hne e.symm) with h1 | h1 <;> omega
  · by_contra hne
    rcases slice_disjoint d i k2 (fun e => hne e.symm) with h1 | h1 <;> omega

theorem matBlock_fold {K : Type} {N d : Nat} (f : Fin N → Matrix (Fin d) (Fin d) K)
    (l : List (Fin N)) (J0 : Matrix (Fin (N * d)) (Fin (N * d)) K) (i k : Fin N) :
    matBlock (l.foldl (fun J a => setMatBlock J (a.val * d) (a.val * d) (f a)) J0) i k
      = if i = k ∧ i ∈ l then f i else matBlock J0 i k := by
  induction l generalizing J0 with
  | nil => simp
  | cons a rest ih =>
    rw [List.foldl_cons, ih]
    by_cases c1 : i = k ∧ i ∈ rest
    · rw [if_pos c1, if_pos ⟨c1.1, List.mem_cons_of_mem _ c1.2⟩]
    · rw [if_neg c1]
      by_cases c2 : i = a ∧ k = a
      · obtain ⟨rfl, rfl⟩ := c2
        rw [matBlock_setMatBlock_same, if_pos ⟨rfl, List.mem_cons_self _ _⟩]
      · rw [matBlock_setMatBlock_other J0 a i k (f a) c2, if_neg]
        rintro ⟨e1, e2⟩
        rcases List.mem_cons.mp e2 with e3 | e3
        · exact c2 ⟨e3, e1 ▸ e3⟩
        · exact c1 ⟨e1, e3⟩

theorem matBlock_fold_finRange {K : Type} [Zero K] {N d : Nat}
    (f : Fin N → Matrix (Fin d) (Fin d) K) (i k : Fin N) :
    matBlock ((List.finRange N).foldl
      (fun J a => setMatBlock J (a.val * d) (a.val * d) (f a)) 0) i k
      = if i = k then f i else 0 := by
  rw [matBlock_fold]
  by_cases c : i = k
  · rw [if_pos ⟨c, List.mem_finRange i⟩, if_pos c]
  · rw [if_neg (fun e => c e.1), if_neg c]
    rfl

namespace ElementTraits

theorem array_Boxminus_fold_exact {K T : Type} (tr : ElementTraits K T) (N : Nat)
    (in_ ref : Fin N → T) (l : List (Fin N)) (acc : Vec K (N * tr.kDim)) (k : Fin N)
    (hn : l.Nodup) (hk : k ∈ l) :
    slice (l.foldl
      (fun acc i =>
        setBlock acc (i.val * tr.kDim) tr.kDim (tr.Boxminus (in_ i) (ref i) (slice acc i)))
      acc) k = tr.Boxminus (in_ k) (ref k) (slice acc k) := by
  induction l generalizing acc with
  | nil => simp at hk
  | cons i rest ih =>
    rw [List.nodup_cons] at hn
    rw [List.foldl_cons]
    rcases List.mem_cons.mp hk with rfl | h
    · rw [array_Boxminus_fold_other tr N in_ ref rest _ k hn.1]
      exact slice_setBlock_same acc k _
    · have hne : i ≠ k := fun e => hn.1 (e ▸ h)
      rw [ih _ hn.2 h, slice_setBlock_other acc i k _ hne]

theorem array_Boxminus_slice_exact {K T : Type} [Field K] (tr : ElementTraits K T) (N : Nat)
    (in_ ref : Fin N → T) (vec : Vec K (N * tr.kDim)) (k : Fin N) :
    slice ((array tr N).Boxminus in_ ref vec) k = tr.Boxminus (in_ k) (ref k) (slice vec k) :=
  array_Boxminus_fold_exact tr N in_ ref (List.finRange N) vec k (List.nodup_finRange N)
    (List.mem_finRange k)

end ElementTraits

/-! ## The IMU rotational-rate update: Jacobians and weights -/

namespace ImurorUpdate

theorem JacCur_apply (r : ImurorUpdate) (cur bias noi : Vec ℝ 3) (i : Fin 3) (j : Fin 6) :
    r.JacCur cur bias noi i j = if j.val = i.val ∨ j.val = i.val + 3 then -1 else 0 := by
  have hi := i.isLt
  have hj := j.isLt
  simp only [JacCur, setMatBlock, Matrix.of_apply]
  by_cases c3 : 3 ≤ j.val
  · rw [dif_pos ⟨⟨Nat.zero_le _, by omega⟩, ⟨c3, by omega⟩⟩, Matrix.neg_apply, Matrix.one_apply]
    by_cases e : j.val = i.val + 3
    · rw [if_pos (Fin.ext (by simp; omega)), if_pos (Or.inr e)]
    · rw [if_neg (fun h => e (by have := congrArg Fin.val h; simp at this; omega)),
        if_neg (by omega)]
      simp
  · rw [dif_neg (fun h => c3 h.2.1),
      dif_pos ⟨⟨Nat.zero_le _, by omega⟩, ⟨Nat.zero_le _, by omega⟩⟩, Matrix.neg_apply,
      Matrix.one_apply]
    by_cases e : j.val = i.val
    · rw [if_pos (Fin.ext (by simp; omega)), if_pos (Or.inl e)]
    · rw [if_neg (fun h => e (by have := congrArg Fin.val h; simp at this; omega)),
        if_neg (by omega)]
      simp

theorem JacNoi_apply (r : ImurorUpdate) (cur bias noi : Vec ℝ 3) (i j : Fin 3) :
    r.JacNoi cur bias noi i j = if i = j then -1 / Real.sqrt r.dt_ else 0 := by
  have hi := i.isLt
  have hj := j.isLt
  simp only [JacNoi, setMatBlock, Matrix.of_apply]
  rw [dif_pos ⟨⟨Nat.zero_le _, by omega⟩, ⟨Nat.zero_le _, by omega⟩⟩, Matrix.smul_apply,
    Matrix.one_apply]
  by_cases e : i = j
  · rw [if_pos (Fin.ext (by simp [e])), if_pos e]
    simp
  · rw [if_neg (fun h => e (Fin.ext (by have := congrArg Fin.val h; simpa using this))),
      if_neg e]
    simp

theorem Eval_linear (r : ImurorUpdate) (cur bias noi : Vec ℝ 3) (x : Vec ℝ 6) (c : Vec ℝ 3) :
    r.Eval (cur + block x 0 3 (by omega)) (bias + block x 3 3 (by omega)) (noi + c)
        - r.Eval cur bias noi
      = (r.JacCur cur bias noi).mulVec x + (r.JacNoi cur bias noi).mulVec c := by
  funext i
  simp only [Pi.add_apply, Pi.sub_apply, Matrix.mulVec, Matrix.dotProduct, Fin.sum_univ_six,
    Fin.sum_univ_three, JacCur_apply, JacNoi_apply, Eval, block]
  have h3 : ((3 : Fin 6) : ℕ) = 3 := rfl
  have h4 : ((4 : Fin 6) : ℕ) = 4 := rfl
  have h5 : ((5 : Fin 6) : ℕ) = 5 := rfl
  fin_cases i <;> simp [h3, h4, h5] <;> ring

end ImurorUpdate

namespace ImurorUpdate

theorem GetNoiseWeighting_neg (r : ImurorUpdate) (inn : Vec ℝ 3) (i : Int)
    (h : r.huberTh_ < 0) : r.GetNoiseWeighting inn i = 1 := by
  unfold GetNoiseWeighting
  rw [if_neg (not_le.mpr h)]

theorem GetNoiseWeighting_le (r : ImurorUpdate) (inn : Vec ℝ 3) (i : Int)
    (h : Vec3.norm inn ≤ r.huberTh_) : r.GetNoiseWeighting inn i = 1 := by
  unfold GetNoiseWeighting
  rw [if_neg (not_lt.mpr h)]
  simp

theorem GetNoiseWeighting_gt (r : ImurorUpdate) (inn : Vec ℝ 3) (i : Int)
    (h0 : 0 ≤ r.huberTh_) (h : r.huberTh_ < Vec3.norm inn) :
    r.GetNoiseWeighting inn i
      = Real.sqrt (r.huberTh_ * (Vec3.norm inn - 0.5 * r.huberTh_)
          / (Vec3.norm inn * Vec3.norm inn)) := by
  unfold GetNoiseWeighting
  rw [if_pos h0, if_pos h]

/-- The radicand of the weight is at most one. -/
theorem radicand_le_one (th n : ℝ) (h0 : 0 ≤ th) (h : th < n) :
    th * (n - 0.5 * th) / (n * n) ≤ 1 := by
  have hn : 0 < n := lt_of_le_of_lt h0 h
  rw [div_le_one (mul_pos hn hn)]
  nlinarith [sq_nonneg (n - th), sq_nonneg th]

/-- The radicand of the weight is positive for a positive threshold. -/
theorem radicand_pos (th n : ℝ) (h0 : 0 < th) (h : th < n) :
    0 < th * (n - 0.5 * th) / (n * n) := by
  have hn : 0 < n := lt_trans h0 h
  apply div_pos _ (mul_pos hn hn)
  apply mul_pos h0
  linarith

/-- The radicand of the weight is below one half. -/
theorem radicand_lt_half (th n : ℝ) (h0 : 0 ≤ th) (h : th < n) :
    th * (n - 0.5 * th) / (n * n) < 1 / 2 := by
  have hn : 0 < n := lt_of_le_of_lt h0 h
  rw [div_lt_iff₀ (mul_pos hn hn)]
  nlinarith [mul_pos (sub_pos.mpr h) (sub_pos.mpr h)]

/-- The radicand of the weight does not increase with the norm. -/
theorem radicand_anti (th n n2 : ℝ) (h0 : 0 ≤ th) (h : th < n) (hle : n ≤ n2) :
    th * (n2 - 0.5 * th) / (n2 * n2) ≤ th * (n - 0.5 * th) / (n * n) := by
  have hn : 0 < n := lt_of_le_of_lt h0 h
  have hn2 : 0 < n2 := lt_of_lt_of_le hn hle
  rw [div_le_div_iff₀ (mul_pos hn2 hn2) (mul_pos hn hn)]
  have h1 : 0 ≤ n * n2 - th * (n + n2) / 2 := by nlinarith
  have h2 := mul_nonneg (sub_nonneg.mpr hle) h1
  have h3 := mul_nonneg h0 h2
  nlinarith

theorem GetNoiseWeighting_nonneg (r : ImurorUpdate) (inn : Vec ℝ 3) (i : Int) :
    0 ≤ r.GetNoiseWeighting inn i := by
  unfold GetNoiseWeighting
  split_ifs
  · exact Real.sqrt_nonneg _
  · exact zero_le_one
  · exact zero_le_one

theorem GetNoiseWeighting_le_one (r : ImurorUpdate) (inn : Vec ℝ 3) (i : Int) :
    r.GetNoiseWeighting inn i ≤ 1 := by
  unfold GetNoiseWeighting
  split_ifs with h0 h
  · exact Real.sqrt_le_one.mpr (radicand_le_one _ _ h0 h)
  · exact le_refl _
  · exact le_refl _

theorem GetNoiseWeighting_pos (r : ImurorUpdate) (inn : Vec ℝ 3) (i : Int)
    (hth : r.huberTh_ ≠ 0) : 0 < r.GetNoiseWeighting inn i := by
  unfold GetNoiseWeighting
  split_ifs with h0 h
  · exact Real.sqrt_pos.mpr (radicand_pos _ _ (lt_of_le_of_ne h0 (Ne.symm hth)) h)
  · exact zero_lt_one
  · exact zero_lt_one

theorem GetNoiseWeighting_zero (r : ImurorUpdate) (inn : Vec ℝ 3) (i : Int)
    (hth : r.huberTh_ = 0) (h : 0 < Vec3.norm inn) : r.GetNoiseWeighting inn i = 0 := by
  rw [GetNoiseWeighting_gt r inn i (le_of_eq hth.symm) (hth ▸ h), hth]
  simp

theorem norm_e1 (a : ℝ) (ha : 0 ≤ a) : Vec3.norm ![a, 0, 0] = a := by
  simp [Vec3.norm, Real.sqrt_mul_self ha]

end ImurorUpdate

namespace ImurorUpdate

theorem block_neg {n : Nat} (x : Vec ℝ n) (s d : Nat) (h : s + d ≤ n) :
    block (-x) s d h = -block x s d h := by
  funext i
  simp [block]

/-- The difference of `Eval` along a step of the current state and of the noise. -/
theorem Eval_diff (r : ImurorUpdate) (cur bias noi : Vec ℝ 3) (x : Vec ℝ 6) (c : Vec ℝ 3)
    (i : Fin 3) :
    r.Eval (cur + block x 0 3 (by omega)) (bias + block x 3 3 (by omega)) (noi + c) i
        - r.Eval cur bias noi i
      = ((r.JacCur cur bias noi).mulVec x + (r.JacNoi cur bias noi).mulVec c) i := by
  rw [← Eval_linear]
  rfl

/-- The central difference quotient of `Eval` in the current state. -/
theorem Eval_central_cur (r : ImurorUpdate) (cur bias noi : Vec ℝ 3) (h : ℝ) (hh : h ≠ 0)
    (i : Fin 3) (j : Fin 6) :
    (r.Eval (cur + block (Pi.single j h) 0 3 (by omega))
          (bias + block (Pi.single j h) 3 3 (by omega)) noi i
        - r.Eval (cur - block (Pi.single j h) 0 3 (by omega))
          (bias - block (Pi.single j h) 3 3 (by omega)) noi i) / (2 * h)
      = r.JacCur cur bias noi i j := by
  have e1 := Eval_diff r cur bias noi (Pi.single j h) 0 i
  have e2 := Eval_diff r cur bias noi (-Pi.single j h) 0 i
  rw [block_neg, block_neg, ← sub_eq_add_neg, ← sub_eq_add_neg] at e2
  rw [add_zero] at e1 e2
  simp only [Matrix.mulVec_zero, add_zero, Matrix.mulVec_neg, Matrix.mulVec_single,
    Pi.neg_apply] at e1 e2
  have e3 : r.Eval (cur + block (Pi.single j h) 0 3 (by omega))
          (bias + block (Pi.single j h) 3 3 (by omega)) noi i
        - r.Eval (cur - block (Pi.single j h) 0 3 (by omega))
          (bias - block (Pi.single j h) 3 3 (by omega)) noi i
      = 2 * h * r.JacCur cur bias noi i j := by linarith
  rw [e3]
  field_simp

/-- The forward difference quotient of `Eval` in the current state. -/
theorem Eval_forward_cur (r : ImurorUpdate) (cur bias noi : Vec ℝ 3) (h : ℝ) (hh : h ≠ 0)
    (i : Fin 3) (j : Fin 6) :
    (r.Eval (cur + block (Pi.single j h) 0 3 (by omega))
          (bias + block (Pi.single j h) 3 3 (by omega)) noi i
        - r.Eval cur bias noi i) / h
      = r.JacCur cur bias noi i j := by
  have e1 := Eval_diff r cur bias noi (Pi.single j h) 0 i
  rw [add_zero] at e1
  simp only [Matrix.mulVec_zero, add_zero, Matrix.mulVec_single] at e1
  rw [e1]
  field_simp

/-- The difference of `Eval` along a step of the noise alone. -/
theorem Eval_diff_noi (r : ImurorUpdate) (cur bias noi c : Vec ℝ 3) (i : Fin 3) :
    r.Eval cur bias (noi + c) i - r.Eval cur bias noi i
      = ((r.JacNoi cur bias noi).mulVec c) i := by
  have e := Eval_diff r cur bias noi 0 c i
  have b0 : block (0 : Vec ℝ 6) 0 3 (by omega) = 0 := rfl
  have b3 : block (0 : Vec ℝ 6) 3 3 (by omega) = 0 := rfl
  rw [b0, b3, add_zero, add_zero] at e
  simpa using e

/-- The central difference quotient of `Eval` in the noise. -/
theorem Eval_central_noi (r : ImurorUpdate) (cur bias noi : Vec ℝ 3) (h : ℝ) (hh : h ≠ 0)
    (i j : Fin 3) :
    (r.Eval cur bias (noi + Pi.single j h) i - r.Eval cur bias (noi - Pi.single j h) i)
        / (2 * h)
      = r.JacNoi cur bias noi i j := by
  have e1 := Eval_diff_noi r cur bias noi (Pi.single j h) i
  have e2 := Eval_diff_noi r cur bias noi (-Pi.single j h) i
  rw [← sub_eq_add_neg] at e2
  simp only [Matrix.mulVec_neg, Matrix.mulVec_single, Pi.neg_apply] at e1 e2
  have e3 : r.Eval cur bias (noi + Pi.single j h) i - r.Eval cur bias (noi - Pi.single j h) i
      = 2 * h * r.JacNoi cur bias noi i j := by linarith
  rw [e3]
  field_simp

/-- The forward difference quotient of `Eval` in the noise. -/
theorem Eval_forward_noi (r : ImurorUpdate) (cur bias noi : Vec ℝ 3) (h : ℝ) (hh : h ≠ 0)
    (i j : Fin 3) :
    (r.Eval cur bias (noi + Pi.single j h) i - r.Eval cur bias noi i) / h
      = r.JacNoi cur bias noi i j := by
  have e1 := Eval_diff_noi r cur bias noi (Pi.single j h) i
  simp only [Matrix.mulVec_single] at e1
  rw [e1]
  field_simp

theorem JacNoi_eq (r : ImurorUpdate) (cur bias noi : Vec ℝ 3) :
    r.JacNoi cur bias noi = (-(1 / Real.sqrt r.dt_)) • (1 : Matrix (Fin 3) (Fin 3) ℝ) := by
  ext i j
  rw [JacNoi_apply, Matrix.smul_apply, Matrix.one_apply]
  by_cases e : i = j
  · rw [if_pos e, if_pos e]
    simp [neg_div]
  · rw [if_neg e, if_neg e]
    simp

end ImurorUpdate

/-! ## Double arithmetic: the count of binary digits -/

theorem bitLength_zero (fuel : Nat) : bitLength fuel 0 = 0 := by
  cases fuel <;> simp [bitLength]

/-- With `fuel` at least `n`, `bitLength fuel n` is the number of binary digits of `n`. -/
theorem bitLength_spec :
    ∀ (fuel n : Nat), n ≤ fuel →
      n < 2 ^ bitLength fuel n ∧ (0 < n → 2 ^ (bitLength fuel n - 1) ≤ n) := by
  intro fuel
  induction fuel with
  | zero =>
    intro n hn
    have h0 : n = 0 := Nat.le_zero.mp hn
    subst h0
    simp [bitLength]
  | succ f ih =>
    intro n hn
    by_cases h0 : n = 0
    · subst h0
      simp [bitLength]
    · have hpos : 0 < n := Nat.pos_of_ne_zero h0
      have hdiv : n / 2 ≤ f := by omega
      obtain ⟨i1, i2⟩ := ih (n / 2) hdiv
      simp only [bitLength, if_neg h0, Nat.add_sub_cancel]
      refine ⟨?_, fun _ => ?_⟩
      · rw [Nat.pow_succ]
        omega
      · by_cases h1 : n / 2 = 0
        · rw [h1, bitLength_zero]
          simpa using hpos
        · have hp := i2 (Nat.pos_of_ne_zero h1)
          have hb : 1 ≤ bitLength f (n / 2) := by
            by_contra hc
            have hz : bitLength f (n / 2) = 0 := by omega
            rw [hz] at i1
            simp at i1
            exact h1 i1
          have hpow : 2 ^ bitLength f (n / 2) = 2 ^ (bitLength f (n / 2) - 1) * 2 := by
            rw [← Nat.pow_succ]
            congr 1
            omega
          rw [hpow]
          omega

/-! ## Properties of the timeline -/

namespace MeasurementTimeline

variable {P : Type}

/-- C1: in every state reached from a freshly constructed timeline (any `drop_first`,
`max_wait_time`, `min_wait_time`) by a sequence of `AddMeasurement`,
`RemoveProcessedFirst` (each applied while a measurement is stored) and `RemoveOutdated`
calls, every stored key is strictly greater than `last_processed_time_`. -/
theorem keys_after_last_processed (drop_first : Bool) (max_wait_time min_wait_time : Duration)
    (cs : List (Call P)) (tl : MeasurementTimeline P)
    (h : (construct drop_first max_wait_time min_wait_time).calls cs = some tl) :
    ∀ k ∈ keys tl.meas_map_, tl.last_processed_time_ < k :=
  (valid_calls cs _ tl (valid_construct drop_first max_wait_time min_wait_time) h).2.1

theorem keys_after_last_processed_witness :
    (construct true (Duration.ofInt 1) (Duration.ofInt 0) : MeasurementTimeline Nat).calls
        [.addMeasurement 5 (TimePoint.ofInt 3), .addMeasurement 6 (TimePoint.ofInt 7),
         .addMeasurement 8 (TimePoint.ofInt 9), .addMeasurement 6 (TimePoint.ofInt 5),
         .removeProcessedFirst, .addMeasurement 4 (TimePoint.ofInt 4),
         .addMeasurement 1 (TimePoint.ofInt 12), .removeOutdated (TimePoint.ofInt 8)]
      = some ⟨true, Duration.ofInt 1, Duration.ofInt 0, TimePoint.ofInt 7,
          [(TimePoint.ofInt 9, 8), (TimePoint.ofInt 12, 1)]⟩ ∧
    ∀ k ∈ keys [(TimePoint.ofInt 9, (8 : Nat)), (TimePoint.ofInt 12, 1)], TimePoint.ofInt 7 < k :=
  ⟨by decide,
   keys_after_last_processed true (Duration.ofInt 1) (Duration.ofInt 0)
     [.addMeasurement 5 (TimePoint.ofInt 3), .addMeasurement 6 (TimePoint.ofInt 7),
      .addMeasurement 8 (TimePoint.ofInt 9), .addMeasurement 6 (TimePoint.ofInt 5),
      .removeProcessedFirst, .addMeasurement 4 (TimePoint.ofInt 4),
      .addMeasurement 1 (TimePoint.ofInt 12), .removeOutdated (TimePoint.ofInt 8)]
     ⟨true, Duration.ofInt 1, Duration.ofInt 0, TimePoint.ofInt 7,
       [(TimePoint.ofInt 9, 8), (TimePoint.ofInt 12, 1)]⟩ (by decide)⟩

/-- C2: from every state reached from a freshly constructed timeline, a single call of
`AddMeasurement(meas, t)`, `RemoveProcessedFirst` (on a non-empty timeline) or
`RemoveOutdated(t)` leaves `last_processed_time_` greater than or equal to its value
before the call. -/
theorem last_processed_time_monotone (drop_first : Bool)
    (max_wait_time min_wait_time : Duration) (cs : List (Call P))
    (tl tl1 : MeasurementTimeline P) (c : Call P)
    (h : (construct drop_first max_wait_time min_wait_time).calls cs = some tl)
    (hc : tl.call c = some tl1) :
    tl.last_processed_time_ ≤ tl1.last_processed_time_ :=
  (valid_call tl tl1 c
    (valid_calls cs _ tl (valid_construct drop_first max_wait_time min_wait_time) h) hc).2

theorem last_processed_time_monotone_witness :
    (construct true (Duration.ofInt 1) (Duration.ofInt 0) : MeasurementTimeline Nat).calls
        [.addMeasurement 5 (TimePoint.ofInt 3), .addMeasurement 6 (TimePoint.ofInt 7),
         .addMeasurement 8 (TimePoint.ofInt 9)]
      = some ⟨true, Duration.ofInt 1, Duration.ofInt 0, TimePoint.ofInt 3,
          [(TimePoint.ofInt 7, 6), (TimePoint.ofInt 9, 8)]⟩ ∧
    (⟨true, Duration.ofInt 1, Duration.ofInt 0, TimePoint.ofInt 3,
        [(TimePoint.ofInt 7, 6), (TimePoint.ofInt 9, 8)]⟩ : MeasurementTimeline Nat).call
        (.removeOutdated (TimePoint.ofInt 8))
      = some ⟨true, Duration.ofInt 1, Duration.ofInt 0, TimePoint.ofInt 7,
          [(TimePoint.ofInt 9, 8)]⟩ ∧
    TimePoint.ofInt 3 ≤ TimePoint.ofInt 7 :=
  ⟨by decide, by decide,
   last_processed_time_monotone true (Duration.ofInt 1) (Duration.ofInt 0)
     [.addMeasurement 5 (TimePoint.ofInt 3), .addMeasurement 6 (TimePoint.ofInt 7),
      .addMeasurement 8 (TimePoint.ofInt 9)]
     ⟨true, Duration.ofInt 1, Duration.ofInt 0, TimePoint.ofInt 3,
       [(TimePoint.ofInt 7, 6), (TimePoint.ofInt 9, 8)]⟩
     ⟨true, Duration.ofInt 1, Duration.ofInt 0, TimePoint.ofInt 7, [(TimePoint.ofInt 9, 8)]⟩
     (.removeOutdated (TimePoint.ofInt 8)) (by decide) (by decide)⟩

/-- C3: on a timeline with `drop_first_` set and `last_processed_time_` equal to
`TimePoint::min()`, `AddMeasurement(meas, t)` leaves the stored map unchanged (`meas` is
not stored) and sets `last_processed_time_` to `t`. -/
theorem AddMeasurement_drop_first (tl : MeasurementTimeline P) (meas : P) (t : TimePoint)
    (hd : tl.drop_first_ = true) (hl : tl.last_processed_time_ = TimePoint.min) :
    (tl.AddMeasurement meas t).meas_map_ = tl.meas_map_ ∧
      (tl.AddMeasurement meas t).last_processed_time_ = t := by
  unfold AddMeasurement
  rw [if_pos ⟨hd, hl⟩]
  exact ⟨rfl, rfl⟩

theorem AddMeasurement_drop_first_witness :
    ((construct true (Duration.ofInt 1) (Duration.ofInt 0) : MeasurementTimeline Nat).AddMeasurement
        5 (TimePoint.ofInt 3)).meas_map_ = [] ∧
    ((construct true (Duration.ofInt 1) (Duration.ofInt 0) : MeasurementTimeline Nat).AddMeasurement
        5 (TimePoint.ofInt 3)).last_processed_time_ = TimePoint.ofInt 3 :=
  AddMeasurement_drop_first (construct true (Duration.ofInt 1) (Duration.ofInt 0)) 5
    (TimePoint.ofInt 3) rfl rfl

/-- C4: on a timeline that is not in the drop-first state (`drop_first_` unset, or
`last_processed_time_` different from `TimePoint::min()`), `AddMeasurement(meas, t)` with
`t <= last_processed_time_` changes nothing: the stored map and `last_processed_time_` are
as before.  In particular, once a drop-first timeline has dropped a first measurement at
time `t`, adding a measurement at the same `t` again changes nothing. -/
theorem AddMeasurement_rejects_processed (tl : MeasurementTimeline P) (meas : P)
    (t : TimePoint) :
    (¬(tl.drop_first_ = true ∧ tl.last_processed_time_ = TimePoint.min) →
      t ≤ tl.last_processed_time_ →
      (tl.AddMeasurement meas t).meas_map_ = tl.meas_map_ ∧
        (tl.AddMeasurement meas t).last_processed_time_ = tl.last_processed_time_) ∧
    (tl.drop_first_ = true → tl.last_processed_time_ = TimePoint.min → ∀ meas2 : P,
      ((tl.AddMeasurement meas t).AddMeasurement meas2 t).meas_map_
          = (tl.AddMeasurement meas t).meas_map_ ∧
        ((tl.AddMeasurement meas t).AddMeasurement meas2 t).last_processed_time_
          = (tl.AddMeasurement meas t).last_processed_time_) := by
  constructor
  · intro hn ht
    unfold AddMeasurement
    rw [if_neg hn, if_pos ht]
    exact ⟨rfl, rfl⟩
  · intro hd hl meas2
    have h1 : tl.AddMeasurement meas t = { tl with last_processed_time_ := t } := by
      unfold AddMeasurement
      rw [if_pos ⟨hd, hl⟩]
    rw [h1]
    unfold AddMeasurement
    split_ifs with c1 c2
    · exact ⟨rfl, rfl⟩
    · exact ⟨rfl, rfl⟩
    · exact absurd (le_refl t) c2

theorem AddMeasurement_rejects_processed_witness :
    (((⟨false, Duration.ofInt 1, Duration.ofInt 0, TimePoint.ofInt 4, [(TimePoint.ofInt 6, 2)]⟩ :
        MeasurementTimeline Nat).AddMeasurement 7 (TimePoint.ofInt 4)).meas_map_
        = [(TimePoint.ofInt 6, 2)] ∧
      ((⟨false, Duration.ofInt 1, Duration.ofInt 0, TimePoint.ofInt 4, [(TimePoint.ofInt 6, 2)]⟩ :
        MeasurementTimeline Nat).AddMeasurement 7 (TimePoint.ofInt 4)).last_processed_time_
        = TimePoint.ofInt 4) ∧
    ((((construct true (Duration.ofInt 1) (Duration.ofInt 0) :
        MeasurementTimeline Nat).AddMeasurement 5 (TimePoint.ofInt 3)).AddMeasurement
          9 (TimePoint.ofInt 3)).meas_map_
        = ((construct true (Duration.ofInt 1) (Duration.ofInt 0) :
            MeasurementTimeline Nat).AddMeasurement 5 (TimePoint.ofInt 3)).meas_map_ ∧
      (((construct true (Duration.ofInt 1) (Duration.ofInt 0) :
        MeasurementTimeline Nat).AddMeasurement 5 (TimePoint.ofInt 3)).AddMeasurement
          9 (TimePoint.ofInt 3)).last_processed_time_
        = ((construct true (Duration.ofInt 1) (Duration.ofInt 0) :
            MeasurementTimeline Nat).AddMeasurement 5 (TimePoint.ofInt 3)).last_processed_time_) :=
  ⟨(AddMeasurement_rejects_processed
      ⟨false, Duration.ofInt 1, Duration.ofInt 0, TimePoint.ofInt 4, [(TimePoint.ofInt 6, 2)]⟩
      7 (TimePoint.ofInt 4)).1 (by decide) (by decide),
   (AddMeasurement_rejects_processed (construct true (Duration.ofInt 1) (Duration.ofInt 0))
      5 (TimePoint.ofInt 3)).2 rfl rfl 9⟩

/-- C5: on a timeline in a state satisfying `Valid`, the invariant of all states reached
from a constructed timeline, that stores a measurement `m` at time `t`,
`AddMeasurement(m2, t)` rejects the duplicate: the keys are unchanged, the measurement
stored at `t` is still `m`, and `last_processed_time_` is unchanged. -/
theorem AddMeasurement_rejects_duplicate (tl : MeasurementTimeline P) (m m2 : P)
    (t : TimePoint) (hv : tl.Valid) (hs : mapFind tl.meas_map_ t = some m) :
    keys (tl.AddMeasurement m2 t).meas_map_ = keys tl.meas_map_ ∧
      mapFind (tl.AddMeasurement m2 t).meas_map_ t = some m ∧
      (tl.AddMeasurement m2 t).last_processed_time_ = tl.last_processed_time_ := by
  obtain ⟨h1, h2, h3⟩ := hv
  have hmem : (t, m) ∈ tl.meas_map_ := mapFind_mem _ _ _ hs
  have hk : t ∈ keys tl.meas_map_ := (mem_keys _ _).mpr ⟨m, hmem⟩
  have hne : tl.meas_map_ ≠ [] := List.ne_nil_of_mem hmem
  have hnd : ¬(tl.drop_first_ = true ∧ tl.last_processed_time_ = TimePoint.min) :=
    fun c => hne (h3 c.1 c.2)
  have heq : tl.AddMeasurement m2 t = tl := by
    unfold AddMeasurement
    rw [if_neg hnd, if_neg (not_le.mpr (h2 t hk)), mapInsert_of_mem _ _ _ h1 hk]
  rw [heq]
  exact ⟨rfl, hs, rfl⟩

theorem AddMeasurement_rejects_duplicate_witness :
    keys ((⟨true, Duration.ofInt 1, Duration.ofInt 0, TimePoint.ofInt 4,
        [(TimePoint.ofInt 6, 2), (TimePoint.ofInt 8, 3)]⟩ :
        MeasurementTimeline Nat).AddMeasurement 7 (TimePoint.ofInt 8)).meas_map_
      = keys [(TimePoint.ofInt 6, (2 : Nat)), (TimePoint.ofInt 8, 3)] ∧
    mapFind ((⟨true, Duration.ofInt 1, Duration.ofInt 0, TimePoint.ofInt 4,
        [(TimePoint.ofInt 6, 2), (TimePoint.ofInt 8, 3)]⟩ :
        MeasurementTimeline Nat).AddMeasurement 7 (TimePoint.ofInt 8)).meas_map_
        (TimePoint.ofInt 8) = some 3 ∧
    ((⟨true, Duration.ofInt 1, Duration.ofInt 0, TimePoint.ofInt 4,
        [(TimePoint.ofInt 6, 2), (TimePoint.ofInt 8, 3)]⟩ :
        MeasurementTimeline Nat).AddMeasurement 7 (TimePoint.ofInt 8)).last_processed_time_
      = TimePoint.ofInt 4 :=
  AddMeasurement_rejects_duplicate
    ⟨true, Duration.ofInt 1, Duration.ofInt 0, TimePoint.ofInt 4,
      [(TimePoint.ofInt 6, 2), (TimePoint.ofInt 8, 3)]⟩ 3 7 (TimePoint.ofInt 8)
    ⟨by decide, by decide, by decide⟩ (by decide)

/-- C6: on a timeline that is not in the drop-first state, for a time `t` later than
`last_processed_time_` that is not yet a stored key: after `AddMeasurement(meas, t)`,
`GetMeasurement(t)` returns true and yields `meas`, `GetMeasurement` at every other time
returns what it returned before, and `last_processed_time_` is unchanged; on any timeline
`GetMeasurement` at a time that is not stored returns false. -/
theorem GetMeasurement_AddMeasurement (tl : MeasurementTimeline P) (meas : P) (t : TimePoint)
    (hnd : ¬(tl.drop_first_ = true ∧ tl.last_processed_time_ = TimePoint.min))
    (ht : tl.last_processed_time_ < t) (hk : t ∉ keys tl.meas_map_) :
    (∀ out : P, (tl.AddMeasurement meas t).GetMeasurement t out = (true, meas)) ∧
      (∀ (t2 : TimePoint) (out : P), t2 ≠ t →
        (tl.AddMeasurement meas t).GetMeasurement t2 out = tl.GetMeasurement t2 out) ∧
      (tl.AddMeasurement meas t).last_processed_time_ = tl.last_processed_time_ ∧
      (∀ (tl0 : MeasurementTimeline P) (t0 : TimePoint) (out : P),
        t0 ∉ keys tl0.meas_map_ → tl0.GetMeasurement t0 out = (false, out)) := by
  have heq : tl.AddMeasurement meas t
      = { tl with meas_map_ := (mapInsert tl.meas_map_ t meas).1 } := by
    unfold AddMeasurement
    rw [if_neg hnd, if_neg (not_le.mpr ht)]
  rw [heq]
  refine ⟨?_, ?_, rfl, ?_⟩
  · intro out
    simp only [GetMeasurement, mapFind_mapInsert_self _ _ _ hk]
  · intro t2 out h2
    simp only [GetMeasurement, mapFind_mapInsert_other _ _ _ _ h2]
  · intro tl0 t0 out h0
    simp only [GetMeasurement, (mapFind_eq_none _ _).mpr h0]

theorem GetMeasurement_AddMeasurement_witness :
    (∀ out : Nat, ((⟨true, Duration.ofInt 1, Duration.ofInt 0, TimePoint.ofInt 4,
        [(TimePoint.ofInt 6, 2), (TimePoint.ofInt 9, 3)]⟩ :
        MeasurementTimeline Nat).AddMeasurement 7 (TimePoint.ofInt 8)).GetMeasurement
          (TimePoint.ofInt 8) out = (true, 7)) ∧
    (∀ (t2 : TimePoint) (out : Nat), t2 ≠ TimePoint.ofInt 8 →
      ((⟨true, Duration.ofInt 1, Duration.ofInt 0, TimePoint.ofInt 4,
        [(TimePoint.ofInt 6, 2), (TimePoint.ofInt 9, 3)]⟩ :
        MeasurementTimeline Nat).AddMeasurement 7 (TimePoint.ofInt 8)).GetMeasurement t2 out
      = (⟨true, Duration.ofInt 1, Duration.ofInt 0, TimePoint.ofInt 4,
        [(TimePoint.ofInt 6, 2), (TimePoint.ofInt 9, 3)]⟩ :
        MeasurementTimeline Nat).GetMeasurement t2 out) ∧
    ((⟨true, Duration.ofInt 1, Duration.ofInt 0, TimePoint.ofInt 4,
        [(TimePoint.ofInt 6, 2), (TimePoint.ofInt 9, 3)]⟩ :
        MeasurementTimeline Nat).AddMeasurement 7 (TimePoint.ofInt 8)).last_processed_time_
      = TimePoint.ofInt 4 ∧
    (∀ (tl0 : MeasurementTimeline Nat) (t0 : TimePoint) (out : Nat),
      t0 ∉ keys tl0.meas_map_ → tl0.GetMeasurement t0 out = (false, out)) :=
  GetMeasurement_AddMeasurement
    ⟨true, Duration.ofInt 1, Duration.ofInt 0, TimePoint.ofInt 4,
      [(TimePoint.ofInt 6, 2), (TimePoint.ofInt 9, 3)]⟩ 7 (TimePoint.ofInt 8)
    (by decide) (by decide) (by decide)

/-- C7: on a timeline whose map is ordered (the container invariant of `std::map`),
`GetAllInRange(times, start, end)` leaves in `times` exactly the elements it had
together with the stored keys `t` with `start < t <= end`; the result is again an ordered
set, and nothing is added when `start >= end`.  The method is `const`: the timeline is
not modified. -/
theorem GetAllInRange_spec (tl : MeasurementTimeline P) (times : TimeSet)
    (start end_ : TimePoint) (hm : Ascending (keys tl.meas_map_)) :
    (∀ x, x ∈ tl.GetAllInRange times start end_ ↔
        x ∈ times ∨ (x ∈ keys tl.meas_map_ ∧ start < x ∧ x ≤ end_)) ∧
      (Ascending times → Ascending (tl.GetAllInRange times start end_)) ∧
      (end_ ≤ start → tl.GetAllInRange times start end_ = times) := by
  refine ⟨?_, ?_, ?_⟩
  · intro x
    unfold GetAllInRange
    rw [mem_GetAllInRange_loop _ _ _ _ (ascending_keys_drop _ _ hm)]
    have hx : x ∈ keys (tl.meas_map_.drop (upper_bound tl.meas_map_ start)) ↔
        x ∈ keys tl.meas_map_ ∧ start < x := by
      rw [mem_keys, mem_keys]
      constructor
      · rintro ⟨v, hv⟩
        have := (mem_drop_upper_bound _ start (x, v) hm).mp hv
        exact ⟨⟨v, this.1⟩, this.2⟩
      · rintro ⟨⟨v, hv⟩, h2⟩
        exact ⟨v, (mem_drop_upper_bound _ start (x, v) hm).mpr ⟨hv, h2⟩⟩
    rw [hx]
    tauto
  · intro ht
    exact GetAllInRange_loop_ascending _ _ _ ht
  · intro hse
    unfold GetAllInRange
    apply GetAllInRange_loop_none
    intro e he
    exact lt_of_le_of_lt hse ((mem_drop_upper_bound _ start e hm).mp he).2

theorem GetAllInRange_spec_witness :
    (∀ x, x ∈ (⟨false, Duration.ofInt 1, Duration.ofInt 0, TimePoint.ofInt 1,
          [(TimePoint.ofInt 2, 0), (TimePoint.ofInt 4, 1), (TimePoint.ofInt 6, 2),
           (TimePoint.ofInt 8, 3)]⟩ : MeasurementTimeline Nat).GetAllInRange
          [TimePoint.ofInt 5] (TimePoint.ofInt 2) (TimePoint.ofInt 6) ↔
        x ∈ [TimePoint.ofInt 5] ∨
          (x ∈ keys [(TimePoint.ofInt 2, (0 : Nat)), (TimePoint.ofInt 4, 1),
              (TimePoint.ofInt 6, 2), (TimePoint.ofInt 8, 3)] ∧
            TimePoint.ofInt 2 < x ∧ x ≤ TimePoint.ofInt 6)) ∧
    (⟨false, Duration.ofInt 1, Duration.ofInt 0, TimePoint.ofInt 1,
          [(TimePoint.ofInt 2, 0), (TimePoint.ofInt 4, 1), (TimePoint.ofInt 6, 2),
           (TimePoint.ofInt 8, 3)]⟩ : MeasurementTimeline Nat).GetAllInRange
          [TimePoint.ofInt 5] (TimePoint.ofInt 2) (TimePoint.ofInt 6)
      = [TimePoint.ofInt 4, TimePoint.ofInt 5, TimePoint.ofInt 6] :=
  ⟨(GetAllInRange_spec
      ⟨false, Duration.ofInt 1, Duration.ofInt 0, TimePoint.ofInt 1,
        [(TimePoint.ofInt 2, 0), (TimePoint.ofInt 4, 1), (TimePoint.ofInt 6, 2),
         (TimePoint.ofInt 8, 3)]⟩
      [TimePoint.ofInt 5] (TimePoint.ofInt 2) (TimePoint.ofInt 6) (by decide)).1,
   by decide⟩

/-- C8: on a timeline whose map is ordered (the container invariant of `std::map`),
`GetLastInRange(times, start, end)` inserts into `times` the greatest stored key
that is `<= end` when that key exists and is `> start`, and leaves `times` as it is
otherwise (no stored key is `<= end`, or the greatest such key is `<= start`); it never
inserts more than one time point. -/
theorem GetLastInRange_spec (tl : MeasurementTimeline P) (times : TimeSet)
    (start end_ : TimePoint) (hm : Ascending (keys tl.meas_map_)) :
    (∀ g, g ∈ keys tl.meas_map_ → g ≤ end_ → (∀ k ∈ keys tl.meas_map_, k ≤ end_ → k ≤ g) →
        (start < g → tl.GetLastInRange times start end_ = setInsert times g) ∧
        (g ≤ start → tl.GetLastInRange times start end_ = times)) ∧
      ((∀ k ∈ keys tl.meas_map_, end_ < k) → tl.GetLastInRange times start end_ = times) ∧
      (tl.GetLastInRange times start end_ = times ∨
        ∃ g, tl.GetLastInRange times start end_ = setInsert times g) := by
  rcases GetLastInRange_cases tl times start end_ hm with ⟨h1, h2⟩ | ⟨g0, h1, h2, h3, h4⟩
  · refine ⟨?_, fun _ => h2, Or.inl h2⟩
    intro g hg1 hg2 _
    exact absurd (h1 g hg1) (not_lt.mpr hg2)
  · refine ⟨?_, ?_, ?_⟩
    · intro g hg1 hg2 hg3
      have hgg : g = g0 := le_antisymm (h3 g hg1 hg2) (hg3 g0 h1 h2)
      subst hgg
      constructor
      · intro hs; rw [h4, if_pos hs]
      · intro hs; rw [h4, if_neg (not_lt.mpr hs)]
    · intro hall
      exact absurd (hall g0 h1) (not_lt.mpr h2)
    · rw [h4]
      split_ifs
      · exact Or.inr ⟨g0, rfl⟩
      · exact Or.inl rfl

theorem GetLastInRange_spec_witness :
    (⟨false, Duration.ofInt 1, Duration.ofInt 0, TimePoint.ofInt 1,
        [(TimePoint.ofInt 2, 0), (TimePoint.ofInt 4, 1), (TimePoint.ofInt 6, 2),
         (TimePoint.ofInt 8, 3)]⟩ : MeasurementTimeline Nat).GetLastInRange
        [TimePoint.ofInt 5] (TimePoint.ofInt 2) (TimePoint.ofInt 7)
      = [TimePoint.ofInt 5, TimePoint.ofInt 6] ∧
    (⟨false, Duration.ofInt 1, Duration.ofInt 0, TimePoint.ofInt 1,
        [(TimePoint.ofInt 2, 0), (TimePoint.ofInt 4, 1), (TimePoint.ofInt 6, 2),
         (TimePoint.ofInt 8, 3)]⟩ : MeasurementTimeline Nat).GetLastInRange
        [TimePoint.ofInt 5] (TimePoint.ofInt 2) (TimePoint.ofInt 7)
      = setInsert [TimePoint.ofInt 5] (TimePoint.ofInt 6) :=
  ⟨by decide,
   ((GetLastInRange_spec
      ⟨false, Duration.ofInt 1, Duration.ofInt 0, TimePoint.ofInt 1,
        [(TimePoint.ofInt 2, 0), (TimePoint.ofInt 4, 1), (TimePoint.ofInt 6, 2),
         (TimePoint.ofInt 8, 3)]⟩
      [TimePoint.ofInt 5] (TimePoint.ofInt 2) (TimePoint.ofInt 7) (by decide)).1
      (TimePoint.ofInt 6) (by decide) (by decide) (by decide)).1 (by decide)⟩

/-- C9: on a timeline whose map is ordered, let `L` be the value of `GetLastTime()`: the
greatest stored key when a measurement is stored, `last_processed_time_` when none is.
When `current_time - max_wait_time_` and `L + min_wait_time_` stay inside the 64-bit tick
range (no overflow), `GetMaximalUpdateTime(current_time)` returns the greater of the two,
computed on exact integers. -/
theorem GetMaximalUpdateTime_spec (tl : MeasurementTimeline P) (current_time : TimePoint)
    (hm : Ascending (keys tl.meas_map_))
    (h1 : -9223372036854775808 ≤ current_time.ticks - tl.max_wait_time_.ticks ∧
      current_time.ticks - tl.max_wait_time_.ticks ≤ 9223372036854775807)
    (h2 : -9223372036854775808 ≤ tl.GetLastTime.ticks + tl.min_wait_time_.ticks ∧
      tl.GetLastTime.ticks + tl.min_wait_time_.ticks ≤ 9223372036854775807) :
    (tl.meas_map_ = [] → tl.GetLastTime = tl.last_processed_time_) ∧
      (tl.meas_map_ ≠ [] →
        tl.GetLastTime ∈ keys tl.meas_map_ ∧ ∀ k ∈ keys tl.meas_map_, k ≤ tl.GetLastTime) ∧
      (tl.GetMaximalUpdateTime current_time).ticks
        = max (current_time.ticks - tl.max_wait_time_.ticks)
            (tl.GetLastTime.ticks + tl.min_wait_time_.ticks) := by
  cases hl : tl.meas_map_.getLast? with
  | none =>
    have hL : tl.GetLastTime = tl.last_processed_time_ := by simp only [GetLastTime, hl]
    rw [hL] at h2 ⊢
    refine ⟨fun _ => rfl, fun hne => absurd (List.getLast?_eq_none_iff.mp hl) hne, ?_⟩
    simp only [GetMaximalUpdateTime, hl]
    rw [stdMax_ticks, TimePoint.sub_ticks, TimePoint.add_ticks,
      wrap64_of_range h1.1 h1.2, wrap64_of_range h2.1 h2.2]
  | some e =>
    obtain ⟨g, v⟩ := e
    have hL : tl.GetLastTime = g := by simp only [GetLastTime, hl]
    rw [hL] at h2 ⊢
    refine ⟨?_, fun _ => getLast_greatest _ g v hm hl, ?_⟩
    · intro he
      rw [he] at hl
      simp at hl
    · simp only [GetMaximalUpdateTime, hl]
      rw [stdMax_ticks, TimePoint.sub_ticks, TimePoint.add_ticks,
        wrap64_of_range h1.1 h1.2, wrap64_of_range h2.1 h2.2]

theorem GetMaximalUpdateTime_spec_witness :
    ((⟨false, Duration.ofInt 10, Duration.ofInt 3, TimePoint.ofInt 1,
        [(TimePoint.ofInt 2, 0), (TimePoint.ofInt 40, 1)]⟩ :
        MeasurementTimeline Nat).GetLastTime = TimePoint.ofInt 40) ∧
    ((⟨false, Duration.ofInt 10, Duration.ofInt 3, TimePoint.ofInt 1,
        [(TimePoint.ofInt 2, 0), (TimePoint.ofInt 40, 1)]⟩ :
        MeasurementTimeline Nat).GetMaximalUpdateTime (TimePoint.ofInt 50)).ticks = 43 ∧
    ((⟨false, Duration.ofInt 10, Duration.ofInt 3, TimePoint.ofInt 1,
        [(TimePoint.ofInt 2, 0), (TimePoint.ofInt 40, 1)]⟩ :
        MeasurementTimeline Nat).GetMaximalUpdateTime (TimePoint.ofInt 50)).ticks
      = max ((TimePoint.ofInt 50).ticks - (Duration.ofInt 10).ticks)
          ((⟨false, Duration.ofInt 10, Duration.ofInt 3, TimePoint.ofInt 1,
            [(TimePoint.ofInt 2, 0), (TimePoint.ofInt 40, 1)]⟩ :
            MeasurementTimeline Nat).GetLastTime.ticks + (Duration.ofInt 3).ticks) :=
  ⟨by decide, by decide,
   (GetMaximalUpdateTime_spec
      ⟨false, Duration.ofInt 10, Duration.ofInt 3, TimePoint.ofInt 1,
        [(TimePoint.ofInt 2, 0), (TimePoint.ofInt 40, 1)]⟩
      (TimePoint.ofInt 50) (by decide) (by decide) (by decide)).2.2⟩

/-- C10: on a timeline with an ordered map that stores at least one measurement,
`RemoveProcessedFirst()` sets `last_processed_time_` to the smallest stored key and erases
exactly the entry of that key: every other entry, key and measurement, stays, and nothing
else in the timeline changes.  The keys that remain are strictly greater than the new
`last_processed_time_`, so the measurements are consumed in strictly increasing order of
their time. -/
theorem RemoveProcessedFirst_spec (tl : MeasurementTimeline P)
    (hm : Ascending (keys tl.meas_map_)) (hne : tl.meas_map_ ≠ []) :
    ∃ tl1, tl.RemoveProcessedFirst = some tl1 ∧
      tl1.last_processed_time_ ∈ keys tl.meas_map_ ∧
      (∀ k ∈ keys tl.meas_map_, tl1.last_processed_time_ ≤ k) ∧
      (∀ e, e ∈ tl1.meas_map_ ↔ e ∈ tl.meas_map_ ∧ e.1 ≠ tl1.last_processed_time_) ∧
      (∀ k ∈ keys tl1.meas_map_, tl1.last_processed_time_ < k) ∧
      Ascending (keys tl1.meas_map_) ∧
      tl1.drop_first_ = tl.drop_first_ ∧ tl1.max_wait_time_ = tl.max_wait_time_ ∧
      tl1.min_wait_time_ = tl.min_wait_time_ := by
  cases hmap : tl.meas_map_ with
  | nil => exact absurd hmap hne
  | cons hd rest =>
    obtain ⟨k, w⟩ := hd
    rw [hmap] at hm
    unfold Ascending at hm
    simp only [keys, List.map_cons, List.pairwise_cons] at hm
    refine ⟨{ tl with last_processed_time_ := k, meas_map_ := rest }, ?_, ?_, ?_, ?_, ?_, ?_,
      rfl, rfl, rfl⟩
    · simp only [RemoveProcessedFirst, hmap]
    · simp [keys]
    · intro x hx
      simp only [keys, List.map_cons, List.mem_cons] at hx
      rcases hx with rfl | hx
      · exact le_refl _
      · exact le_of_lt (hm.1 x hx)
    · intro e
      simp only [List.mem_cons]
      constructor
      · intro he
        exact ⟨Or.inr he, ne_of_gt (hm.1 e.1 (List.mem_map_of_mem Prod.fst he))⟩
      · rintro ⟨rfl | he, h2⟩
        · exact absurd rfl h2
        · exact he
    · exact hm.1
    · exact hm.2

theorem RemoveProcessedFirst_spec_witness :
    (⟨false, Duration.ofInt 10, Duration.ofInt 3, TimePoint.ofInt 1,
        [(TimePoint.ofInt 2, 0), (TimePoint.ofInt 40, 1)]⟩ :
        MeasurementTimeline Nat).RemoveProcessedFirst
      = some ⟨false, Duration.ofInt 10, Duration.ofInt 3, TimePoint.ofInt 2,
          [(TimePoint.ofInt 40, 1)]⟩ ∧
    ∃ tl1, (⟨false, Duration.ofInt 10, Duration.ofInt 3, TimePoint.ofInt 1,
        [(TimePoint.ofInt 2, 0), (TimePoint.ofInt 40, 1)]⟩ :
        MeasurementTimeline Nat).RemoveProcessedFirst = some tl1 ∧
      tl1.last_processed_time_ ∈ keys [(TimePoint.ofInt 2, (0 : Nat)), (TimePoint.ofInt 40, 1)] ∧
      ∀ k ∈ keys tl1.meas_map_, tl1.last_processed_time_ < k :=
  ⟨by decide,
   match RemoveProcessedFirst_spec
      (⟨false, Duration.ofInt 10, Duration.ofInt 3, TimePoint.ofInt 1,
        [(TimePoint.ofInt 2, 0), (TimePoint.ofInt 40, 1)]⟩ : MeasurementTimeline Nat)
      (by decide) (by decide) with
   | ⟨tl1, h1, h2, _, _, h5, _⟩ => ⟨tl1, h1, h2, h5⟩⟩

/-- C11: on a timeline whose map is ordered, after `RemoveOutdated(time)` the stored entries
are exactly the entries stored before whose key is `> time`, with their measurements, so
no key `<= time` remains; `last_processed_time_` is the greatest key stored before that was
`<= time` if there was one, and is unchanged otherwise (it is not set to `time` itself);
nothing else in the timeline changes. -/
theorem RemoveOutdated_spec (tl : MeasurementTimeline P) (time : TimePoint)
    (hm : Ascending (keys tl.meas_map_)) :
    (∀ e, e ∈ (tl.RemoveOutdated time).meas_map_ ↔ e ∈ tl.meas_map_ ∧ time < e.1) ∧
      Ascending (keys (tl.RemoveOutdated time).meas_map_) ∧
      (∀ k ∈ keys (tl.RemoveOutdated time).meas_map_, time < k) ∧
      (∀ g ∈ keys tl.meas_map_, g ≤ time → (∀ k ∈ keys tl.meas_map_, k ≤ time → k ≤ g) →
        (tl.RemoveOutdated time).last_processed_time_ = g) ∧
      ((∀ k ∈ keys tl.meas_map_, time < k) →
        (tl.RemoveOutdated time).last_processed_time_ = tl.last_processed_time_) ∧
      (tl.RemoveOutdated time).drop_first_ = tl.drop_first_ ∧
      (tl.RemoveOutdated time).max_wait_time_ = tl.max_wait_time_ ∧
      (tl.RemoveOutdated time).min_wait_time_ = tl.min_wait_time_ := by
  obtain ⟨i1, i2, i3, i4, i5, i6, i7⟩ :=
    RemoveOutdated_loop_spec time tl.meas_map_ tl.meas_map_.length tl rfl (le_refl _) hm
  refine ⟨i1, i2, ?_, i4, i3, i5, i6, i7⟩
  intro k hk
  obtain ⟨v, hv⟩ := (mem_keys _ _).mp hk
  exact ((i1 (k, v)).mp hv).2

theorem RemoveOutdated_spec_witness :
    (⟨false, Duration.ofInt 1, Duration.ofInt 0, TimePoint.ofInt 1,
        [(TimePoint.ofInt 2, 0), (TimePoint.ofInt 4, 1), (TimePoint.ofInt 6, 2),
         (TimePoint.ofInt 8, 3)]⟩ : MeasurementTimeline Nat).RemoveOutdated (TimePoint.ofInt 5)
      = ⟨false, Duration.ofInt 1, Duration.ofInt 0, TimePoint.ofInt 4,
          [(TimePoint.ofInt 6, 2), (TimePoint.ofInt 8, 3)]⟩ ∧
    ((⟨false, Duration.ofInt 1, Duration.ofInt 0, TimePoint.ofInt 1,
        [(TimePoint.ofInt 2, 0), (TimePoint.ofInt 4, 1), (TimePoint.ofInt 6, 2),
         (TimePoint.ofInt 8, 3)]⟩ : MeasurementTimeline Nat).RemoveOutdated
        (TimePoint.ofInt 5)).last_processed_time_ = TimePoint.ofInt 4 :=
  ⟨by decide,
   (RemoveOutdated_spec
      (⟨false, Duration.ofInt 1, Duration.ofInt 0, TimePoint.ofInt 1,
        [(TimePoint.ofInt 2, 0), (TimePoint.ofInt 4, 1), (TimePoint.ofInt 6, 2),
         (TimePoint.ofInt 8, 3)]⟩ : MeasurementTimeline Nat)
      (TimePoint.ofInt 5) (by decide)).2.2.2.1 (TimePoint.ofInt 4) (by decide) (by decide)
      (by decide)⟩

/-- C26: on a timeline whose map is ordered, with empty output sets, `GetLastInRange(start,
end)` gives the empty set exactly when `GetAllInRange(start, end)` gives the empty set, and
otherwise gives the set of one element, the greatest element of the set that
`GetAllInRange(start, end)` gives. -/
theorem GetLastInRange_eq_max_GetAllInRange (tl : MeasurementTimeline P)
    (start end_ : TimePoint) (hm : Ascending (keys tl.meas_map_)) :
    (tl.GetLastInRange [] start end_ = [] ↔ tl.GetAllInRange [] start end_ = []) ∧
      (tl.GetAllInRange [] start end_ ≠ [] →
        ∃ g, tl.GetLastInRange [] start end_ = [g] ∧ g ∈ tl.GetAllInRange [] start end_ ∧
          ∀ x ∈ tl.GetAllInRange [] start end_, x ≤ g) := by
  have hmem : ∀ x, x ∈ tl.GetAllInRange [] start end_ ↔
      x ∈ keys tl.meas_map_ ∧ start < x ∧ x ≤ end_ := by
    intro x
    rw [mem_GetAllInRange tl [] start end_ hm x]
    simp
  rcases GetLastInRange_cases tl [] start end_ hm with ⟨h1, h2⟩ | ⟨g, h1, h2, h3, h4⟩
  · have hA : tl.GetAllInRange [] start end_ = [] := by
      apply List.eq_nil_iff_forall_not_mem.mpr
      intro x hx
      obtain ⟨k1, _, k3⟩ := (hmem x).mp hx
      exact absurd (h1 x k1) (not_lt.mpr k3)
    exact ⟨⟨fun _ => hA, fun _ => h2⟩, fun hne => absurd hA hne⟩
  · by_cases hs : start < g
    · have hL : tl.GetLastInRange [] start end_ = [g] := by
        rw [h4, if_pos hs]
        rfl
      have hg : g ∈ tl.GetAllInRange [] start end_ := (hmem g).mpr ⟨h1, hs, h2⟩
      refine ⟨⟨?_, ?_⟩, fun _ => ⟨g, hL, hg, ?_⟩⟩
      · intro hc
        rw [hL] at hc
        cases hc
      · intro hc
        rw [hc] at hg
        cases hg
      · intro x hx
        obtain ⟨k1, _, k3⟩ := (hmem x).mp hx
        exact h3 x k1 k3
    · have hL : tl.GetLastInRange [] start end_ = [] := by
        rw [h4, if_neg hs]
      have hA : tl.GetAllInRange [] start end_ = [] := by
        apply List.eq_nil_iff_forall_not_mem.mpr
        intro x hx
        obtain ⟨k1, k2, k3⟩ := (hmem x).mp hx
        exact hs (lt_of_lt_of_le k2 (h3 x k1 k3))
      exact ⟨⟨fun _ => hA, fun _ => hL⟩, fun hne => absurd hA hne⟩

theorem GetLastInRange_eq_max_GetAllInRange_witness :
    (⟨false, Duration.ofInt 1, Duration.ofInt 0, TimePoint.ofInt 1,
        [(TimePoint.ofInt 2, 0), (TimePoint.ofInt 4, 1), (TimePoint.ofInt 6, 2),
         (TimePoint.ofInt 8, 3)]⟩ : MeasurementTimeline Nat).GetAllInRange []
        (TimePoint.ofInt 2) (TimePoint.ofInt 7) = [TimePoint.ofInt 4, TimePoint.ofInt 6] ∧
    (⟨false, Duration.ofInt 1, Duration.ofInt 0, TimePoint.ofInt 1,
        [(TimePoint.ofInt 2, 0), (TimePoint.ofInt 4, 1), (TimePoint.ofInt 6, 2),
         (TimePoint.ofInt 8, 3)]⟩ : MeasurementTimeline Nat).GetLastInRange []
        (TimePoint.ofInt 2) (TimePoint.ofInt 7) = [TimePoint.ofInt 6] ∧
    ((⟨false, Duration.ofInt 1, Duration.ofInt 0, TimePoint.ofInt 1,
        [(TimePoint.ofInt 2, 0), (TimePoint.ofInt 4, 1), (TimePoint.ofInt 6, 2),
         (TimePoint.ofInt 8, 3)]⟩ : MeasurementTimeline Nat).GetLastInRange []
        (TimePoint.ofInt 2) (TimePoint.ofInt 7) = [] ↔
      (⟨false, Duration.ofInt 1, Duration.ofInt 0, TimePoint.ofInt 1,
        [(TimePoint.ofInt 2, 0), (TimePoint.ofInt 4, 1), (TimePoint.ofInt 6, 2),
         (TimePoint.ofInt 8, 3)]⟩ : MeasurementTimeline Nat).GetAllInRange []
        (TimePoint.ofInt 2) (TimePoint.ofInt 7) = []) :=
  ⟨by decide, by decide,
   (GetLastInRange_eq_max_GetAllInRange
      (⟨false, Duration.ofInt 1, Duration.ofInt 0, TimePoint.ofInt 1,
        [(TimePoint.ofInt 2, 0), (TimePoint.ofInt 4, 1), (TimePoint.ofInt 6, 2),
         (TimePoint.ofInt 8, 3)]⟩ : MeasurementTimeline Nat)
      (TimePoint.ofInt 2) (TimePoint.ofInt 7) (by decide)).1⟩

end MeasurementTimeline

/-! ## Properties of splitting and merging -/

namespace MeasurementTimeline

variable {M : Type}

/-- C12: on a timeline in a state satisfying `Valid` that stores a measurement at `t2`,
stores none at `t1` and has `last_processed_time_ < t1`, for times `t0 <= t1 <= t2` and a
residual whose `MergeMeasurements` undoes its `SplitMeasurements`, `Split(t0, t1, t2, res)`
followed by `Merge(t0, t1, t2, res)` both succeed and give back the timeline exactly: the
same keys, the same measurement at `t2` and at every other key, and the same
`last_processed_time_`.  The default policies (copy on split, the later measurement on
merge) are such a residual. -/
theorem Split_Merge_roundtrip (tl : MeasurementTimeline (CPtr M)) (t0 t1 t2 : TimePoint)
    (res : BinaryResidualBase M) (v2 : CPtr M) (hv : tl.Valid)
    (h2 : mapFind tl.meas_map_ t2 = some v2) (h1 : t1 ∉ keys tl.meas_map_)
    (hl : tl.last_processed_time_ < t1) (_h01 : t0 ≤ t1) (_h12 : t1 ≤ t2)
    (hres : res.MergeUndoesSplit) :
    (∃ tl1, tl.Split t0 t1 t2 res = some tl1 ∧ tl1.Merge t0 t1 t2 res = some tl) ∧
      (defaultResidual M).MergeUndoesSplit := by
  refine ⟨?_, fun _ _ _ _ _ => rfl⟩
  obtain ⟨hasc, _, hdrop⟩ := hv
  have hk2 : t2 ∈ keys tl.meas_map_ := (mapFind_isSome _ _).mpr ⟨v2, h2⟩
  have hnd : ¬(tl.drop_first_ = true ∧ tl.last_processed_time_ = TimePoint.min) := by
    intro c
    rw [hdrop c.1 c.2] at hk2
    simp [keys] at hk2
  have hne : t2 ≠ t1 := fun h => h1 (h ▸ hk2)
  refine ⟨_, Split_eq tl t0 t1 t2 res v2 hnd hl h1 h2, ?_⟩
  have hins1 : t1 ∈ keys (mapInsert tl.meas_map_ t1 none).1 :=
    (mapInsert_keys_iff _ _ _ _).mpr (Or.inl rfl)
  have hins2 : t2 ∈ keys (mapSet (mapInsert tl.meas_map_ t1 none).1 t1
      (res.SplitMeasurements t0 t1 t2 v2 none v2).1) := by
    rw [keys_mapSet]
    exact (mapInsert_keys_iff _ _ _ _).mpr (Or.inr hk2)
  have hf1 : mapFind (mapSet (mapSet (mapInsert tl.meas_map_ t1 none).1 t1
      (res.SplitMeasurements t0 t1 t2 v2 none v2).1) t2
      (res.SplitMeasurements t0 t1 t2 v2 none v2).2) t1
      = some (res.SplitMeasurements t0 t1 t2 v2 none v2).1 := by
    rw [mapFind_mapSet_other _ _ _ _ hne.symm, mapFind_mapSet_self _ _ _ hins1]
  have hf2 : mapFind (mapSet (mapSet (mapInsert tl.meas_map_ t1 none).1 t1
      (res.SplitMeasurements t0 t1 t2 v2 none v2).1) t2
      (res.SplitMeasurements t0 t1 t2 v2 none v2).2) t2
      = some (res.SplitMeasurements t0 t1 t2 v2 none v2).2 :=
    mapFind_mapSet_self _ _ _ hins2
  unfold Merge
  simp only [hf1, hf2, hres t0 t1 t2 v2 none]
  have hmap : mapErase (mapSet (mapSet (mapSet (mapInsert tl.meas_map_ t1 none).1 t1
      (res.SplitMeasurements t0 t1 t2 v2 none v2).1) t2
      (res.SplitMeasurements t0 t1 t2 v2 none v2).2) t2 v2) t1 = tl.meas_map_ := by
    have hA : Ascending (keys (mapSet (mapSet (mapSet (mapInsert tl.meas_map_ t1 none).1 t1
        (res.SplitMeasurements t0 t1 t2 v2 none v2).1) t2
        (res.SplitMeasurements t0 t1 t2 v2 none v2).2) t2 v2)) := by
      rw [keys_mapSet]
      exact Split_ascending _ _ _ _ _ hasc
    apply map_ext _ _ (mapErase_ascending _ _ hA) hasc
    intro t
    by_cases e1 : t = t1
    · subst e1
      rw [mapFind_mapErase_self _ _ hA, (mapFind_eq_none _ _).mpr h1]
    · rw [mapFind_mapErase_other _ _ _ e1]
      by_cases e2 : t = t2
      · subst e2
        rw [mapFind_mapSet_self _ _ _ (by rw [keys_mapSet]; exact hins2), h2]
      · rw [mapFind_mapSet_other _ _ _ _ e2, mapFind_mapSet_other _ _ _ _ e2,
          mapFind_mapSet_other _ _ _ _ e1, mapFind_mapInsert_other _ _ _ _ e1]
  rw [hmap]

theorem Split_Merge_roundtrip_witness :
    (∃ tl1, (⟨true, Duration.ofInt 1, Duration.ofInt 0, TimePoint.ofInt 1,
        [(TimePoint.ofInt 3, some 7), (TimePoint.ofInt 8, some 9)]⟩ :
        MeasurementTimeline (CPtr Nat)).Split (TimePoint.ofInt 3) (TimePoint.ofInt 5)
        (TimePoint.ofInt 8) (defaultResidual Nat) = some tl1 ∧
      tl1.Merge (TimePoint.ofInt 3) (TimePoint.ofInt 5) (TimePoint.ofInt 8)
        (defaultResidual Nat)
        = some ⟨true, Duration.ofInt 1, Duration.ofInt 0, TimePoint.ofInt 1,
            [(TimePoint.ofInt 3, some 7), (TimePoint.ofInt 8, some 9)]⟩) ∧
    (⟨true, Duration.ofInt 1, Duration.ofInt 0, TimePoint.ofInt 1,
        [(TimePoint.ofInt 3, some 7), (TimePoint.ofInt 8, some 9)]⟩ :
        MeasurementTimeline (CPtr Nat)).Split (TimePoint.ofInt 3) (TimePoint.ofInt 5)
        (TimePoint.ofInt 8) (defaultResidual Nat)
      = some ⟨true, Duration.ofInt 1, Duration.ofInt 0, TimePoint.ofInt 1,
          [(TimePoint.ofInt 3, some 7), (TimePoint.ofInt 5, some 9),
           (TimePoint.ofInt 8, some 9)]⟩ :=
  ⟨(Split_Merge_roundtrip
      (⟨true, Duration.ofInt 1, Duration.ofInt 0, TimePoint.ofInt 1,
        [(TimePoint.ofInt 3, some 7), (TimePoint.ofInt 8, some 9)]⟩ :
        MeasurementTimeline (CPtr Nat))
      (TimePoint.ofInt 3) (TimePoint.ofInt 5) (TimePoint.ofInt 8) (defaultResidual Nat)
      (some 9) ⟨by decide, by decide, by decide⟩ (by decide) (by decide) (by decide)
      (by decide) (by decide) (fun _ _ _ _ _ => rfl)).1,
   by decide⟩

/-- C14 (evaluation at the failing inputs): on the timeline with `last_processed_time_ = 1`
that stores one measurement at 5, `Split(9, 7, 5, res)` (with `t0 > t1` and `t1 > t2`),
`Split(9, 3, 5, res)` (with `t0 > t1`) and `Split(2, 7, 5, res)` (with `t1 > t2`) all
insert an entry at `t1` and copy the measurement of `t2` into it: the order of the times
is logged and not tested. -/
theorem Split_not_chronological :
    (⟨false, Duration.ofInt 1, Duration.ofInt 0, TimePoint.ofInt 1,
        [(TimePoint.ofInt 5, some 7)]⟩ : MeasurementTimeline (CPtr Nat)).Split
        (TimePoint.ofInt 9) (TimePoint.ofInt 7) (TimePoint.ofInt 5) (defaultResidual Nat)
      = some ⟨false, Duration.ofInt 1, Duration.ofInt 0, TimePoint.ofInt 1,
          [(TimePoint.ofInt 5, some 7), (TimePoint.ofInt 7, some 7)]⟩ ∧
    (⟨false, Duration.ofInt 1, Duration.ofInt 0, TimePoint.ofInt 1,
        [(TimePoint.ofInt 5, some 7)]⟩ : MeasurementTimeline (CPtr Nat)).Split
        (TimePoint.ofInt 9) (TimePoint.ofInt 3) (TimePoint.ofInt 5) (defaultResidual Nat)
      = some ⟨false, Duration.ofInt 1, Duration.ofInt 0, TimePoint.ofInt 1,
          [(TimePoint.ofInt 3, some 7), (TimePoint.ofInt 5, some 7)]⟩ ∧
    (⟨false, Duration.ofInt 1, Duration.ofInt 0, TimePoint.ofInt 1,
        [(TimePoint.ofInt 5, some 7)]⟩ : MeasurementTimeline (CPtr Nat)).Split
        (TimePoint.ofInt 2) (TimePoint.ofInt 7) (TimePoint.ofInt 5) (defaultResidual Nat)
      = some ⟨false, Duration.ofInt 1, Duration.ofInt 0, TimePoint.ofInt 1,
          [(TimePoint.ofInt 5, some 7), (TimePoint.ofInt 7, some 7)]⟩ := by
  decide

/-- C15 (counterexample): in the state reached from a constructed timeline by adding
measurements at 3 and 6, `MergeUndesired(times, res)` with `times = {5, 8}` merges 3 into 6
and then stops at 6 with a range error, because 6 has no right neighbour: the key 6 remains
although it is not in `times` and not greater than `max(times) = 8`. -/
theorem MergeUndesired_keeps_last_key :
    (construct false (Duration.ofInt 1) (Duration.ofInt 0) : MeasurementTimeline (CPtr Nat)).calls
        [.addMeasurement (some 1) (TimePoint.ofInt 3),
         .addMeasurement (some 2) (TimePoint.ofInt 6)]
      = some ⟨false, Duration.ofInt 1, Duration.ofInt 0, TimePoint.min,
          [(TimePoint.ofInt 3, some 1), (TimePoint.ofInt 6, some 2)]⟩ ∧
    (⟨false, Duration.ofInt 1, Duration.ofInt 0, TimePoint.min,
        [(TimePoint.ofInt 3, some 1), (TimePoint.ofInt 6, some 2)]⟩ :
        MeasurementTimeline (CPtr Nat)).MergeUndesired [TimePoint.ofInt 5, TimePoint.ofInt 8]
        (defaultResidual Nat)
      = some ⟨false, Duration.ofInt 1, Duration.ofInt 0, TimePoint.min,
          [(TimePoint.ofInt 6, some 2)]⟩ ∧
    TimePoint.ofInt 6 ∉ [TimePoint.ofInt 5, TimePoint.ofInt 8] ∧
    ¬(TimePoint.ofInt 8 < TimePoint.ofInt 6) := by
  decide

/-- C15 (amended): on a timeline whose map is ordered and for a non-empty ordered set
`times` with greatest element `mx`, `MergeUndesired(times, res)` completes, and afterwards
every stored key is an element of `times`, or strictly greater than `mx`, or the greatest
key stored before the call: every key stored before that is not in `times`, not greater
than `mx` and not the greatest stored key has been erased, and the greatest stored key,
which has no right neighbour, is left in place.  The result is that of the calls
`Merge(previous, k, k2, res)` of `MergeUndesired.specCalls`, made in order: there is one for
every stored key `k` that is not in `times`, not greater than `mx` and not the greatest
stored key, the calls are in ascending order of `k`, and so there is only one for each
`k`; in each, `k` is such a key, `k2` is its right neighbour among the stored keys,
and `previous` is the nearest stored key on the left of `k` that is in `times`, or
`last_processed_time_` when there is none.  Each call `Merge(t0, t1, t2, res)` that has a
result replaces the value stored at `t2` by
`MergeMeasurements(t0, t1, t2, value at t1, value at t2, value at t2)`, erases `t1`, and
leaves every other entry, `last_processed_time_` and the order of the map as they are. -/
theorem MergeUndesired_spec (tl : MeasurementTimeline (CPtr M)) (times : TimeSet)
    (mx : TimePoint) (res : BinaryResidualBase M) (hm : Ascending (keys tl.meas_map_))
    (ht : Ascending times) (hl : times.getLast? = some mx) :
    (mx ∈ times ∧ ∀ x ∈ times, x ≤ mx) ∧
      ∃ tl1, tl.MergeUndesired times res = some tl1 ∧
        (∀ k ∈ keys tl1.meas_map_,
          k ∈ times ∨ mx < k ∨ ∀ x ∈ keys tl.meas_map_, x ≤ k) ∧
        (∀ k ∈ keys tl.meas_map_, k ∉ times → k ≤ mx → (∃ x ∈ keys tl.meas_map_, k < x) →
          k ∉ keys tl1.meas_map_) ∧
        (∀ g ∈ keys tl.meas_map_, (∀ x ∈ keys tl.meas_map_, x ≤ g) →
          g ∈ keys tl1.meas_map_) ∧
        tl.MergeEach res
            (MergeUndesired.specCalls times mx tl.last_processed_time_ (keys tl.meas_map_))
          = some tl1 ∧
        (∀ k ∈ keys tl.meas_map_, k ∉ times → k ≤ mx → (∃ x ∈ keys tl.meas_map_, k < x) →
          ∃ c ∈ MergeUndesired.specCalls times mx tl.last_processed_time_
              (keys tl.meas_map_), c.2.1 = k) ∧
        Ascending ((MergeUndesired.specCalls times mx tl.last_processed_time_
          (keys tl.meas_map_)).map (fun c => c.2.1)) ∧
        (∀ c ∈ MergeUndesired.specCalls times mx tl.last_processed_time_ (keys tl.meas_map_),
          c.2.1 ∈ keys tl.meas_map_ ∧ c.2.1 ∉ times ∧ c.2.1 ≤ mx ∧
          c.2.2 ∈ keys tl.meas_map_ ∧ c.2.1 < c.2.2 ∧
          (∀ x ∈ keys tl.meas_map_, ¬ (c.2.1 < x ∧ x < c.2.2)) ∧
          ((c.1 = tl.last_processed_time_ ∧
              ∀ x ∈ keys tl.meas_map_, x < c.2.1 → x ∉ times) ∨
            (c.1 ∈ keys tl.meas_map_ ∧ c.1 ∈ times ∧ c.1 < c.2.1 ∧
              ∀ x ∈ keys tl.meas_map_, c.1 < x → x < c.2.1 → x ∉ times))) ∧
        (∀ (s s1 : MeasurementTimeline (CPtr M)) (t0 t1 t2 : TimePoint),
          Ascending (keys s.meas_map_) → t1 ≠ t2 → s.Merge t0 t1 t2 res = some s1 →
          ∃ in1 in2, mapFind s.meas_map_ t1 = some in1 ∧ mapFind s.meas_map_ t2 = some in2 ∧
            mapFind s1.meas_map_ t2 = some (res.MergeMeasurements t0 t1 t2 in1 in2 in2) ∧
            mapFind s1.meas_map_ t1 = none ∧
            (∀ x, x ≠ t1 → x ≠ t2 → mapFind s1.meas_map_ x = mapFind s.meas_map_ x) ∧
            s1.last_processed_time_ = s.last_processed_time_ ∧
            Ascending (keys s1.meas_map_)) := by
  refine ⟨timeSet_getLast_greatest times mx ht hl, ?_⟩
  obtain ⟨m1, i1, _, _, i4, i5, _⟩ := MergeUndesired_keys tl times mx res hm hl
  have heq := MergeUndesired_loop_eq times mx res tl.meas_map_.length [] tl.meas_map_ tl rfl
    (le_refl _) hm
  have hrun : tl.MergeEach res
      (MergeUndesired.specCalls times mx tl.last_processed_time_ (keys tl.meas_map_))
        = some { tl with meas_map_ := m1 } := by
    rw [← i1]
    simp only [MergeUndesired, hl]
    exact heq.symm
  refine ⟨_, i1, i4, ?_, i5, hrun,
    specCalls_cover times mx _ tl.last_processed_time_ hm,
    specCalls_ascending times mx _ tl.last_processed_time_ hm,
    specCalls_spec times mx _ tl.last_processed_time_ hm,
    fun s s1 t0 t1 t2 hs hne h => Merge_effect s s1 t0 t1 t2 res hs hne h⟩
  rintro k _ h1 h2 ⟨x, hx, hkx⟩ hk
  rcases i4 k hk with h | h | h
  · exact h1 h
  · exact absurd h (not_lt.mpr h2)
  · exact absurd hkx (not_lt.mpr (h x hx))

theorem MergeUndesired_spec_witness :
    (∃ tl1, (⟨false, Duration.ofInt 1, Duration.ofInt 0, TimePoint.ofInt 1,
        [(TimePoint.ofInt 3, some 7), (TimePoint.ofInt 5, some 8), (TimePoint.ofInt 6, some 9),
         (TimePoint.ofInt 8, some 10), (TimePoint.ofInt 9, some 11)]⟩ :
        MeasurementTimeline (CPtr Nat)).MergeUndesired
          [TimePoint.ofInt 5, TimePoint.ofInt 7]
          (⟨fun _ _ _ in_ _ _ => (in_, in_),
          fun _ _ _ in1 in2 _ => in1.bind (fun a => in2.map (fun b => a + b))⟩ :
          BinaryResidualBase Nat) = some tl1 ∧
        (∀ k ∈ keys tl1.meas_map_,
          k ∈ [TimePoint.ofInt 5, TimePoint.ofInt 7] ∨ TimePoint.ofInt 7 < k ∨
            ∀ x ∈ keys [(TimePoint.ofInt 3, some 7), (TimePoint.ofInt 5, some 8),
              (TimePoint.ofInt 6, some 9), (TimePoint.ofInt 8, some 10),
              (TimePoint.ofInt 9, some 11)], x ≤ k) ∧
        (⟨false, Duration.ofInt 1, Duration.ofInt 0, TimePoint.ofInt 1,
        [(TimePoint.ofInt 3, some 7), (TimePoint.ofInt 5, some 8), (TimePoint.ofInt 6, some 9),
         (TimePoint.ofInt 8, some 10), (TimePoint.ofInt 9, some 11)]⟩ :
        MeasurementTimeline (CPtr Nat)).MergeEach
          (⟨fun _ _ _ in_ _ _ => (in_, in_),
          fun _ _ _ in1 in2 _ => in1.bind (fun a => in2.map (fun b => a + b))⟩ :
          BinaryResidualBase Nat)
          (MergeUndesired.specCalls [TimePoint.ofInt 5, TimePoint.ofInt 7] (TimePoint.ofInt 7)
            (TimePoint.ofInt 1)
            [TimePoint.ofInt 3, TimePoint.ofInt 5, TimePoint.ofInt 6, TimePoint.ofInt 8,
             TimePoint.ofInt 9]) = some tl1) ∧
    MergeUndesired.specCalls [TimePoint.ofInt 5, TimePoint.ofInt 7] (TimePoint.ofInt 7)
        (TimePoint.ofInt 1)
        [TimePoint.ofInt 3, TimePoint.ofInt 5, TimePoint.ofInt 6, TimePoint.ofInt 8,
         TimePoint.ofInt 9]
      = [(TimePoint.ofInt 1, TimePoint.ofInt 3, TimePoint.ofInt 5),
         (TimePoint.ofInt 5, TimePoint.ofInt 6, TimePoint.ofInt 8)] ∧
    (⟨false, Duration.ofInt 1, Duration.ofInt 0, TimePoint.ofInt 1,
        [(TimePoint.ofInt 3, some 7), (TimePoint.ofInt 5, some 8), (TimePoint.ofInt 6, some 9),
         (TimePoint.ofInt 8, some 10), (TimePoint.ofInt 9, some 11)]⟩ :
        MeasurementTimeline (CPtr Nat)).MergeUndesired
        [TimePoint.ofInt 5, TimePoint.ofInt 7]
        (⟨fun _ _ _ in_ _ _ => (in_, in_),
          fun _ _ _ in1 in2 _ => in1.bind (fun a => in2.map (fun b => a + b))⟩ :
          BinaryResidualBase Nat)
      = some ⟨false, Duration.ofInt 1, Duration.ofInt 0, TimePoint.ofInt 1,
          [(TimePoint.ofInt 5, some 15), (TimePoint.ofInt 8, some 19),
           (TimePoint.ofInt 9, some 11)]⟩ :=
  match MergeUndesired_spec
      (⟨false, Duration.ofInt 1, Duration.ofInt 0, TimePoint.ofInt 1,
        [(TimePoint.ofInt 3, some 7), (TimePoint.ofInt 5, some 8), (TimePoint.ofInt 6, some 9),
         (TimePoint.ofInt 8, some 10), (TimePoint.ofInt 9, some 11)]⟩ :
        MeasurementTimeline (CPtr Nat))
      [TimePoint.ofInt 5, TimePoint.ofInt 7] (TimePoint.ofInt 7)
      (⟨fun _ _ _ in_ _ _ => (in_, in_),
          fun _ _ _ in1 in2 _ => in1.bind (fun a => in2.map (fun b => a + b))⟩ :
          BinaryResidualBase Nat)
      (by decide) (by decide) (by decide) with
  | ⟨_, tl1, h1, h2, _, _, h5, _⟩ => ⟨⟨tl1, h1, h2, h5⟩, by decide, by decide⟩

/-- C25: on a timeline whose map is ordered, `MergeUndesired(times, res)` completes and
leaves `last_processed_time_` (and everything but the map) unchanged, adds no key, removes
no key that is in `times` or greater than the greatest element of `times`, and does not
remove the greatest stored key; with an empty `times` the whole timeline is unchanged. -/
theorem MergeUndesired_frame (tl : MeasurementTimeline (CPtr M)) (times : TimeSet)
    (res : BinaryResidualBase M) (hm : Ascending (keys tl.meas_map_)) :
    tl.MergeUndesired [] res = some tl ∧
      (Ascending times → ∀ mx, times.getLast? = some mx → mx ∈ times ∧ ∀ x ∈ times, x ≤ mx) ∧
      ∃ tl1, tl.MergeUndesired times res = some tl1 ∧
        tl1.last_processed_time_ = tl.last_processed_time_ ∧
        tl1.drop_first_ = tl.drop_first_ ∧ tl1.max_wait_time_ = tl.max_wait_time_ ∧
        tl1.min_wait_time_ = tl.min_wait_time_ ∧
        (∀ k ∈ keys tl1.meas_map_, k ∈ keys tl.meas_map_) ∧
        (∀ mx, times.getLast? = some mx → ∀ k ∈ keys tl.meas_map_,
          k ∈ times ∨ mx < k → k ∈ keys tl1.meas_map_) ∧
        (∀ g ∈ keys tl.meas_map_, (∀ x ∈ keys tl.meas_map_, x ≤ g) →
          g ∈ keys tl1.meas_map_) := by
  refine ⟨rfl, fun ht mx hl => timeSet_getLast_greatest times mx ht hl, ?_⟩
  cases hl : times.getLast? with
  | none =>
    refine ⟨tl, by simp only [MergeUndesired, hl], rfl, rfl, rfl, rfl, fun k hk => hk, ?_,
      fun g hg _ => hg⟩
    intro mx hmx
    cases hmx
  | some mx =>
    obtain ⟨m1, i1, i2, i3, _, i5, _⟩ := MergeUndesired_keys tl times mx res hm hl
    refine ⟨_, i1, rfl, rfl, rfl, rfl, i2, ?_, i5⟩
    intro mx2 hmx2
    cases hmx2
    exact i3

theorem MergeUndesired_frame_witness :
    (⟨false, Duration.ofInt 1, Duration.ofInt 0, TimePoint.ofInt 1,
        [(TimePoint.ofInt 3, some 7), (TimePoint.ofInt 5, some 8), (TimePoint.ofInt 6, some 9),
         (TimePoint.ofInt 8, some 10)]⟩ : MeasurementTimeline (CPtr Nat)).MergeUndesired
        [TimePoint.ofInt 5, TimePoint.ofInt 9] (defaultResidual Nat)
      = some ⟨false, Duration.ofInt 1, Duration.ofInt 0, TimePoint.ofInt 1,
          [(TimePoint.ofInt 5, some 8), (TimePoint.ofInt 8, some 10)]⟩ ∧
    ∃ tl1, (⟨false, Duration.ofInt 1, Duration.ofInt 0, TimePoint.ofInt 1,
        [(TimePoint.ofInt 3, some 7), (TimePoint.ofInt 5, some 8), (TimePoint.ofInt 6, some 9),
         (TimePoint.ofInt 8, some 10)]⟩ : MeasurementTimeline (CPtr Nat)).MergeUndesired
        [TimePoint.ofInt 5, TimePoint.ofInt 9] (defaultResidual Nat) = some tl1 ∧
      tl1.last_processed_time_ = TimePoint.ofInt 1 ∧
      (∀ k ∈ keys tl1.meas_map_,
        k ∈ keys [(TimePoint.ofInt 3, some 7), (TimePoint.ofInt 5, some 8),
          (TimePoint.ofInt 6, some 9), (TimePoint.ofInt 8, some 10)]) :=
  ⟨by decide,
   match (MergeUndesired_frame
      (⟨false, Duration.ofInt 1, Duration.ofInt 0, TimePoint.ofInt 1,
        [(TimePoint.ofInt 3, some 7), (TimePoint.ofInt 5, some 8), (TimePoint.ofInt 6, some 9),
         (TimePoint.ofInt 8, some 10)]⟩ : MeasurementTimeline (CPtr Nat))
      [TimePoint.ofInt 5, TimePoint.ofInt 9] (defaultResidual Nat) (by decide)).2.2 with
   | ⟨tl1, h1, h2, _, _, _, h6, _⟩ => ⟨tl1, h1, h2, h6⟩⟩

/-- C27: on a timeline in a state satisfying `Valid` (the map ordered, all stored keys
later than `last_processed_time_`, an empty map in the drop-first state) and for a set
`times` whose elements are all later than `last_processed_time_`, `Split(times, res)` has a
result, and every inner call `Split(t0, t1, t2, res)` it makes receives strictly
chronological times `t0 < t1 < t2` with `t2` a stored key and `t1` not yet stored, finds
both keys in its lookups `meas_map_.at(t1)` and `meas_map_.at(t2)`, and has a result.  The
loop body is the inner call given by `SplitSet.innerCall`, or a `continue`. -/
theorem SplitSet_never_fails (tl : MeasurementTimeline (CPtr M)) (times : TimeSet)
    (res : BinaryResidualBase M) (hv : tl.Valid)
    (ht : ∀ t ∈ times, tl.last_processed_time_ < t) :
    (∃ tl1, tl.SplitSet times res = some tl1) ∧
      (∀ (tl0 : MeasurementTimeline (CPtr M)) (t : TimePoint),
        SplitSet.step tl0 t res =
          match SplitSet.innerCall tl0 t with
          | none => some tl0
          | some c => tl0.Split c.1 c.2.1 c.2.2 res) ∧
      ∀ e ∈ SplitSet.innerCalls tl times res,
        e.2.1 < e.2.2.1 ∧ e.2.2.1 < e.2.2.2 ∧ e.2.2.2 ∈ keys e.1.meas_map_ ∧
          e.2.2.1 ∉ keys e.1.meas_map_ ∧
          (mapFind (e.1.AddMeasurement none e.2.2.1).meas_map_ e.2.2.1).isSome = true ∧
          (mapFind (e.1.AddMeasurement none e.2.2.1).meas_map_ e.2.2.2).isSome = true ∧
          (e.1.Split e.2.1 e.2.2.1 e.2.2.2 res).isSome = true := by
  obtain ⟨tl1, r1, _⟩ := SplitSet_spec tl times res hv ht
  exact ⟨⟨tl1, r1⟩, fun tl0 t => SplitSet_step_eq tl0 t res,
    SplitSet_innerCalls_spec tl times res hv ht⟩

theorem SplitSet_never_fails_witness :
    SplitSet.innerCalls
        (⟨true, Duration.ofInt 1, Duration.ofInt 0, TimePoint.ofInt 1,
          [(TimePoint.ofInt 5, some 7), (TimePoint.ofInt 8, some 9)]⟩ :
          MeasurementTimeline (CPtr Nat))
        [TimePoint.ofInt 3, TimePoint.ofInt 5, TimePoint.ofInt 6, TimePoint.ofInt 9]
        (defaultResidual Nat)
      = [(⟨true, Duration.ofInt 1, Duration.ofInt 0, TimePoint.ofInt 1,
            [(TimePoint.ofInt 5, some 7), (TimePoint.ofInt 8, some 9)]⟩,
          TimePoint.ofInt 1, TimePoint.ofInt 3, TimePoint.ofInt 5),
         (⟨true, Duration.ofInt 1, Duration.ofInt 0, TimePoint.ofInt 1,
            [(TimePoint.ofInt 3, some 7), (TimePoint.ofInt 5, some 7),
             (TimePoint.ofInt 8, some 9)]⟩,
          TimePoint.ofInt 5, TimePoint.ofInt 6, TimePoint.ofInt 8)] ∧
    ∃ tl1, (⟨true, Duration.ofInt 1, Duration.ofInt 0, TimePoint.ofInt 1,
        [(TimePoint.ofInt 5, some 7), (TimePoint.ofInt 8, some 9)]⟩ :
        MeasurementTimeline (CPtr Nat)).SplitSet
        [TimePoint.ofInt 3, TimePoint.ofInt 5, TimePoint.ofInt 6, TimePoint.ofInt 9]
        (defaultResidual Nat) = some tl1 :=
  ⟨by decide,
   (SplitSet_never_fails
      (⟨true, Duration.ofInt 1, Duration.ofInt 0, TimePoint.ofInt 1,
        [(TimePoint.ofInt 5, some 7), (TimePoint.ofInt 8, some 9)]⟩ :
        MeasurementTimeline (CPtr Nat))
      [TimePoint.ofInt 3, TimePoint.ofInt 5, TimePoint.ofInt 6, TimePoint.ofInt 9]
      (defaultResidual Nat) ⟨by decide, by decide, by decide⟩ (by decide)).1⟩

end MeasurementTimeline

/-! ## Element traits: properties -/

namespace ElementTraits

/-- C16: `Boxplus(x, 0) = x`, in exact arithmetic, for the zero-dimensional default
traits, the traits of `double`, the traits of `Vec<N>`, and the traits of `std::array<T, N>`
over any traits of `T` that have the property, in particular over those three. -/
theorem Boxplus_zero (K : Type) [Field K] :
    (∀ (T : Type) (x : T), (zeroDim K T).Boxplus x 0 = x) ∧
      (∀ x : K, (scalar K).Boxplus x 0 = x) ∧
      (∀ (N : Nat) (x : Vec K N), (vec K N).Boxplus x 0 = x) ∧
      (∀ (T : Type) (tr : ElementTraits K T), (∀ x, tr.Boxplus x 0 = x) →
        ∀ (N : Nat) (x : Fin N → T), (array tr N).Boxplus x 0 = x) ∧
      (∀ (T : Type) (N : Nat) (x : Fin N → T), (array (zeroDim K T) N).Boxplus x 0 = x) ∧
      (∀ (N : Nat) (x : Fin N → K), (array (scalar K) N).Boxplus x 0 = x) ∧
      (∀ (M N : Nat) (x : Fin N → Vec K M), (array (vec K M) N).Boxplus x 0 = x) := by
  have h0 : ∀ (T : Type) (x : T), (zeroDim K T).Boxplus x 0 = x := fun _ _ => rfl
  have h1 : ∀ x : K, (scalar K).Boxplus x 0 = x := fun x => by
    show x + (0 : Vec K 1) 0 = x
    simp
  have h2 : ∀ (N : Nat) (x : Vec K N), (vec K N).Boxplus x 0 = x := fun N x => by
    show x + 0 = x
    simp
  exact ⟨h0, h1, h2, fun T tr h N x => array_Boxplus_zero tr h N x,
    fun T N x => array_Boxplus_zero (zeroDim K T) (h0 T) N x,
    fun N x => array_Boxplus_zero (scalar K) h1 N x,
    fun M N x => array_Boxplus_zero (vec K M) (h2 M) N x⟩

/-- C17: `Boxplus(r, Boxminus(x, r)) = x`, in exact arithmetic, for the traits of `double`,
the traits of `Vec<N>`, and the traits of `std::array<T, N>` over any traits of `T` that
have the property, in particular over those two. -/
theorem Boxplus_Boxminus (K : Type) [Field K] :
    (∀ (x r : K) (v0 : Vec K 1), (scalar K).Boxplus r ((scalar K).Boxminus x r v0) = x) ∧
      (∀ (N : Nat) (x r v0 : Vec K N), (vec K N).Boxplus r ((vec K N).Boxminus x r v0) = x) ∧
      (∀ (T : Type) (tr : ElementTraits K T),
        (∀ x r v0, tr.Boxplus r (tr.Boxminus x r v0) = x) →
        ∀ (N : Nat) (x r : Fin N → T) (v0 : Vec K (N * tr.kDim)),
          (array tr N).Boxplus r ((array tr N).Boxminus x r v0) = x) ∧
      (∀ (N : Nat) (x r : Fin N → K) (v0 : Vec K (N * 1)),
        (array (scalar K) N).Boxplus r ((array (scalar K) N).Boxminus x r v0) = x) ∧
      (∀ (M N : Nat) (x r : Fin N → Vec K M) (v0 : Vec K (N * M)),
        (array (vec K M) N).Boxplus r ((array (vec K M) N).Boxminus x r v0) = x) := by
  have h1 : ∀ (x r : K) (v0 : Vec K 1),
      (scalar K).Boxplus r ((scalar K).Boxminus x r v0) = x := fun x r v0 => by
    rw [scalar_Boxminus]
    show r + (x - r) = x
    ring
  have h2 : ∀ (N : Nat) (x r v0 : Vec K N),
      (vec K N).Boxplus r ((vec K N).Boxminus x r v0) = x := fun N x r v0 => by
    show r + (x - r) = x
    abel
  exact ⟨h1, h2, fun T tr h N x r v0 => array_Boxplus_Boxminus tr h N x r v0,
    fun N x r v0 => array_Boxplus_Boxminus (scalar K) h1 N x r v0,
    fun M N x r v0 => array_Boxplus_Boxminus (vec K M) (h2 M) N x r v0⟩

/-- C18, refuted as stated: in the arithmetic of `double`, for `s1 = 0.1`, which is the
double `7205759403792794 * 2 ^ (-56)`, and `v = (0.2)`, which is
`7205759403792794 * 2 ^ (-55)`, the value `s2 = Boxplus(s1, v)` is `0.30000000000000004`
(`5404319552844596 * 2 ^ (-54)`) and the tangent `Boxminus(s2, s1)` is
`(0.20000000000000004)` (`7205759403792795 * 2 ^ (-55)`), which is not `v`. -/
theorem Boxminus_Boxplus_double_inexact :
    double.Boxplus (Double.finite 7205759403792794 (-56))
        (fun _ => Double.finite 7205759403792794 (-55))
      = Double.finite 5404319552844596 (-54) ∧
    double.Boxminus
        (double.Boxplus (Double.finite 7205759403792794 (-56))
          (fun _ => Double.finite 7205759403792794 (-55)))
        (Double.finite 7205759403792794 (-56)) (fun _ => 0)
      = (fun _ => Double.finite 7205759403792795 (-55)) ∧
    double.Boxminus
        (double.Boxplus (Double.finite 7205759403792794 (-56))
          (fun _ => Double.finite 7205759403792794 (-55)))
        (Double.finite 7205759403792794 (-56)) (fun _ => 0)
      ≠ (fun _ => Double.finite 7205759403792794 (-55)) := by
  have h1 : double.Boxplus (Double.finite 7205759403792794 (-56))
      (fun _ => Double.finite 7205759403792794 (-55))
        = Double.finite 5404319552844596 (-54) := by decide
  have h2 : Double.finite 5404319552844596 (-54) - Double.finite 7205759403792794 (-56)
      = Double.finite 7205759403792795 (-55) := by decide
  have h3 : double.Boxminus (Double.finite 5404319552844596 (-54))
      (Double.finite 7205759403792794 (-56)) (fun _ => 0)
        = (fun _ => Double.finite 7205759403792795 (-55)) := by
    funext (j : Fin 1)
    show setBlock (fun _ => (0 : Double)) 0 1 (fun _ => _) j = _
    simp only [setBlock]
    rw [dif_pos ⟨Nat.zero_le _, by have := j.isLt; omega⟩]
    exact h2
  rw [h1]
  refine ⟨rfl, h3, ?_⟩
  rw [h3]
  intro hc
  have := congrFun hc ⟨0, by decide⟩
  revert this
  decide

/-- C18 (amended): with arithmetic taken as exact, a `double` being an element of a field,
for the traits of `double`, of `Vec<N>` and of `std::array<Vec<M>, N>`, every value `s1` and
every tangent vector `v`, with `s2 = Boxplus(s1, v)` the tangent `Boxminus(s2, s1)` is `v`
and `Boxminus(s1, s2)` is `-v`.  For the state of the test, a `double` and a
`std::array<Vec3, 4>` of dimension 13, `s1.BoxMinus(s2)` is `-v` as well, in particular for
`s1` the identity and `v = (0, 1, ..., 12)`. -/
theorem Boxminus_Boxplus (K : Type) [Field K] :
    (∀ (s1 : K) (v v0 : Vec K 1),
        (scalar K).Boxminus ((scalar K).Boxplus s1 v) s1 v0 = v ∧
        (scalar K).Boxminus s1 ((scalar K).Boxplus s1 v) v0 = -v) ∧
      (∀ (N : Nat) (s1 v v0 : Vec K N),
        (vec K N).Boxminus ((vec K N).Boxplus s1 v) s1 v0 = v ∧
        (vec K N).Boxminus s1 ((vec K N).Boxplus s1 v) v0 = -v) ∧
      (∀ (M N : Nat) (s1 : Fin N → Vec K M) (v v0 : Vec K (N * M)),
        (array (vec K M) N).Boxminus ((array (vec K M) N).Boxplus s1 v) s1 v0 = v ∧
        (array (vec K M) N).Boxminus s1 ((array (vec K M) N).Boxplus s1 v) v0 = -v) ∧
      (∀ (s1 : K × (Fin 4 → Vec K 3)) (v v0 : Vec K 13),
        packBoxMinus (scalar K) (array (vec K 3) 4) s1
          (packBoxPlus (scalar K) (array (vec K 3) 4) s1 v) v0 = -v) ∧
      (∀ v0 : Vec K 13,
        packBoxMinus (scalar K) (array (vec K 3) 4) (0, fun _ => 0)
          (packBoxPlus (scalar K) (array (vec K 3) 4) (0, fun _ => 0)
            (fun j : Fin 13 => (j.val : K))) v0 = fun j : Fin 13 => -(j.val : K)) := by
  have ha : ∀ (M N : Nat) (s1 : Fin N → Vec K M) (v v0 : Vec K (N * M)),
      (array (vec K M) N).Boxminus s1 ((array (vec K M) N).Boxplus s1 v) v0 = -v :=
    fun M N s1 v v0 =>
      array_Boxminus_Boxplus_neg (vec K M) (fun s v v0 => (vec_roundtrip M s v v0).2) N s1 v v0
  have hp : ∀ (s1 : K × (Fin 4 → Vec K 3)) (v v0 : Vec K 13),
      packBoxMinus (scalar K) (array (vec K 3) 4) s1
        (packBoxPlus (scalar K) (array (vec K 3) 4) s1 v) v0 = -v :=
    fun s1 v v0 =>
      pack_roundtrip (scalar K) (array (vec K 3) 4)
        (fun s v v0 => (scalar_roundtrip s v v0).2) (ha 3 4) s1 v v0
  refine ⟨scalar_roundtrip, vec_roundtrip, ?_, hp, ?_⟩
  · intro M N s1 v v0
    exact ⟨array_Boxminus_Boxplus (vec K M) (fun s v v0 => (vec_roundtrip M s v v0).1) N s1 v v0,
      ha M N s1 v v0⟩
  · intro v0
    rw [hp]
    rfl

theorem Boxminus_Boxplus_witness :
    (scalar ℚ).Boxminus ((scalar ℚ).Boxplus (1 / 10) (fun _ => 1 / 5)) (1 / 10) (fun _ => 0)
        = (fun _ => (1 / 5 : ℚ)) ∧
      (scalar ℚ).Boxminus (1 / 10) ((scalar ℚ).Boxplus (1 / 10) (fun _ => 1 / 5)) (fun _ => 0)
        = -(fun _ => (1 / 5 : ℚ)) :=
  (Boxminus_Boxplus ℚ).1 (1 / 10) (fun _ => 1 / 5) (fun _ => 0)

/-- C19: for the traits of `double` and of `Vec<N>`, every argument and every non-zero step
`h`, in exact arithmetic, each analytic Jacobian is the difference quotient of the operation
it differentiates: of `Boxplus(in, vec)` in `in` (`BoxplusJacInp`) and in `vec`
(`BoxplusJacVec`), and of `Boxminus(in, ref)` in `in` (`BoxminusJacInp`) and in `ref`
(`BoxminusJacRef`). -/
theorem Jacobians_eq_difference_quotients (K : Type) [Field K] (h : K) (hh : h ≠ 0) :
    (∀ (in_ : K) (v : Vec K 1),
        fdBoxplusInp (scalar K) in_ v h = (scalar K).BoxplusJacInp in_ v ∧
        fdBoxplusVec (scalar K) in_ v h = (scalar K).BoxplusJacVec in_ v) ∧
      (∀ (in_ ref : K),
        fdBoxminusInp (scalar K) in_ ref h = (scalar K).BoxminusJacInp in_ ref ∧
        fdBoxminusRef (scalar K) in_ ref h = (scalar K).BoxminusJacRef in_ ref) ∧
      (∀ (N : Nat) (in_ v : Vec K N),
        fdBoxplusInp (vec K N) in_ v h = (vec K N).BoxplusJacInp in_ v ∧
        fdBoxplusVec (vec K N) in_ v h = (vec K N).BoxplusJacVec in_ v) ∧
      (∀ (N : Nat) (in_ ref : Vec K N),
        fdBoxminusInp (vec K N) in_ ref h = (vec K N).BoxminusJacInp in_ ref ∧
        fdBoxminusRef (vec K N) in_ ref h = (vec K N).BoxminusJacRef in_ ref) := by
  refine ⟨?_, ?_, ?_, ?_⟩
  · intro in_ v
    constructor
    · apply Matrix.ext
      intro (i : Fin 1) (j : Fin 1)
      simp only [fdBoxplusInp, Matrix.of_apply, scalar_Boxminus_apply, scalar_Boxplus_eq]
      show _ = (1 : Matrix (Fin 1) (Fin 1) K) i j
      rw [← single_div 1 i j h hh, Subsingleton.elim i 0]
      congr 1
      ring
    · apply Matrix.ext
      intro (i : Fin 1) (j : Fin 1)
      simp only [fdBoxplusVec, Matrix.of_apply, scalar_Boxminus_apply, scalar_Boxplus_eq]
      show _ = (1 : Matrix (Fin 1) (Fin 1) K) i j
      rw [← single_div 1 i j h hh, Subsingleton.elim i 0, Pi.add_apply]
      congr 1
      ring
  · intro in_ ref
    constructor
    · apply Matrix.ext
      intro (i : Fin 1) (j : Fin 1)
      simp only [fdBoxminusInp, Matrix.of_apply, scalar_Boxminus_apply, scalar_Boxplus_eq]
      show _ = (1 : Matrix (Fin 1) (Fin 1) K) i j
      rw [← single_div 1 i j h hh, Subsingleton.elim i 0]
      congr 1
      ring
    · apply Matrix.ext
      intro (i : Fin 1) (j : Fin 1)
      simp only [fdBoxminusRef, Matrix.of_apply, scalar_Boxminus_apply, scalar_Boxplus_eq]
      show _ = (-1 : Matrix (Fin 1) (Fin 1) K) i j
      rw [Matrix.neg_apply, ← single_div 1 i j h hh, Subsingleton.elim i 0, ← neg_div]
      congr 1
      ring
  · intro N in_ v
    constructor
    · apply Matrix.ext
      intro (i : Fin N) (j : Fin N)
      show (in_ i + (Pi.single j h : Fin N → K) i + v i - (in_ i + v i)) / h
        = (1 : Matrix (Fin N) (Fin N) K) i j
      rw [← single_div N i j h hh]
      congr 1
      ring
    · apply Matrix.ext
      intro (i : Fin N) (j : Fin N)
      show (in_ i + (v i + (Pi.single j h : Fin N → K) i) - (in_ i + v i)) / h
        = (1 : Matrix (Fin N) (Fin N) K) i j
      rw [← single_div N i j h hh]
      congr 1
      ring
  · intro N in_ ref
    constructor
    · apply Matrix.ext
      intro (i : Fin N) (j : Fin N)
      show (in_ i + (Pi.single j h : Fin N → K) i - ref i - (in_ i - ref i)) / h
        = (1 : Matrix (Fin N) (Fin N) K) i j
      rw [← single_div N i j h hh]
      congr 1
      ring
    · apply Matrix.ext
      intro (i : Fin N) (j : Fin N)
      show (in_ i - (ref i + (Pi.single j h : Fin N → K) i) - (in_ i - ref i)) / h
        = (-1 : Matrix (Fin N) (Fin N) K) i j
      rw [Matrix.neg_apply, ← single_div N i j h hh, ← neg_div]
      congr 1
      ring

theorem Jacobians_eq_difference_quotients_witness :
    (1 / 2 : ℚ) ≠ 0 ∧
    fdBoxplusInp (vec ℚ 3) ![1, 2, 3] ![4, 5, 6] (1 / 2)
      = (vec ℚ 3).BoxplusJacInp ![1, 2, 3] ![4, 5, 6] ∧
    fdBoxminusRef (scalar ℚ) 3 5 (1 / 2) = (scalar ℚ).BoxminusJacRef 3 5 :=
  ⟨by norm_num,
   ((Jacobians_eq_difference_quotients ℚ (1 / 2) (by norm_num)).2.2.1 3
      ![1, 2, 3] ![4, 5, 6]).1,
   ((Jacobians_eq_difference_quotients ℚ (1 / 2) (by norm_num)).2.1 3 5).2⟩

/-- C24: for the traits of `std::array<T, N>` over traits of `T` of dimension `d`: the
dimension is `N * d`; the slice of element `i` is the entries `i * d, ..., i * d + d - 1`
of the tangent vector; `Boxplus` gives at element `i` the `Boxplus` of `T` on that slice,
and `Boxminus` writes to that slice the `Boxminus` of `T` for element `i`; each of the four
Jacobians has as its block `(i, i)` the corresponding Jacobian of `T` for element `i` and
zero blocks `(i, k)` for `i ≠ k`. -/
theorem array_spec (K : Type) [Field K] (T : Type) (tr : ElementTraits K T) (N : Nat) :
    (array tr N).kDim = N * tr.kDim ∧
      (∀ (v : Vec K (N * tr.kDim)) (i : Fin N) (j : Fin tr.kDim),
        slice v i j = v ⟨i.val * tr.kDim + j.val, by
          have h := Nat.mul_le_mul_right tr.kDim i.isLt
          rw [Nat.succ_mul] at h
          have := j.isLt
          omega⟩) ∧
      (∀ (in_ : Fin N → T) (v : Vec K (N * tr.kDim)) (i : Fin N),
        (array tr N).Boxplus in_ v i = tr.Boxplus (in_ i) (slice v i)) ∧
      (∀ (in_ ref : Fin N → T) (v : Vec K (N * tr.kDim)) (i : Fin N),
        slice ((array tr N).Boxminus in_ ref v) i
          = tr.Boxminus (in_ i) (ref i) (slice v i)) ∧
      (∀ (in_ : Fin N → T) (v : Vec K (N * tr.kDim)) (i k : Fin N),
        matBlock ((array tr N).BoxplusJacInp in_ v) i k
          = if i = k then tr.BoxplusJacInp (in_ i) (slice v i) else 0) ∧
      (∀ (in_ : Fin N → T) (v : Vec K (N * tr.kDim)) (i k : Fin N),
        matBlock ((array tr N).BoxplusJacVec in_ v) i k
          = if i = k then tr.BoxplusJacVec (in_ i) (slice v i) else 0) ∧
      (∀ (in_ ref : Fin N → T) (i k : Fin N),
        matBlock ((array tr N).BoxminusJacInp in_ ref) i k
          = if i = k then tr.BoxminusJacInp (in_ i) (ref i) else 0) ∧
      (∀ (in_ ref : Fin N → T) (i k : Fin N),
        matBlock ((array tr N).BoxminusJacRef in_ ref) i k
          = if i = k then tr.BoxminusJacRef (in_ i) (ref i) else 0) :=
  ⟨rfl, fun _ _ _ => rfl, fun _ _ _ => rfl,
    fun in_ ref v i => array_Boxminus_slice_exact tr N in_ ref v i,
    fun in_ v i k => matBlock_fold_finRange (fun a => tr.BoxplusJacInp (in_ a) (slice v a)) i k,
    fun in_ v i k => matBlock_fold_finRange (fun a => tr.BoxplusJacVec (in_ a) (slice v a)) i k,
    fun in_ ref i k => matBlock_fold_finRange (fun a => tr.BoxminusJacInp (in_ a) (ref a)) i k,
    fun in_ ref i k => matBlock_fold_finRange (fun a => tr.BoxminusJacRef (in_ a) (ref a)) i k⟩

end ElementTraits

/-! ## The transformation of the test -/

namespace TransformationExample

/-- C20 (evaluation at the failing inputs): `JacTransform` writes the same constant matrix
for every input, while the finite-difference Jacobian of `Transform` depends on the input.
At `time = 1`, `sta = 0` the entry of `pos[0]` with respect to `sta[2][0]` (column 7) is
written as 1 and the difference quotient is 2 for every non-zero step; at `time = 0`,
`sta[2] = (1, 0, 0)` the entry of `pos[0]` with respect to `time` (column 0) is written as
1 and the difference quotient is 2.  At the identity input `time = 0`, `sta = 0` of the
test the two matrices are equal for every non-zero step. -/
theorem JacTransform_ne_JacFD :
    (JacTransform (1 : ℚ) (fun _ => 0) 0 7 = 1 ∧
      ∀ h : ℚ, h ≠ 0 → JacFD (1 : ℚ) (fun _ => 0) h 0 7 = 2) ∧
    (JacTransform (0 : ℚ) (fun _ => ![1, 0, 0]) 0 0 = 1 ∧
      ∀ h : ℚ, h ≠ 0 → JacFD (0 : ℚ) (fun _ => ![1, 0, 0]) h 0 0 = 2) ∧
    (∀ h : ℚ, h ≠ 0 → JacFD (0 : ℚ) (fun _ => 0) h = JacTransform (0 : ℚ) (fun _ => 0)) := by
  refine ⟨⟨?_, ?_⟩, ⟨?_, ?_⟩, ?_⟩
  · rw [JacTransform_apply, if_neg (by decide), if_pos (by decide)]
  · intro h hh
    rw [JacFD_apply _ _ h hh, if_neg (by decide), if_pos (by decide)]
    norm_num
  · rw [JacTransform_apply, if_pos (by decide)]
    simp
  · intro h hh
    rw [JacFD_apply _ _ h hh, if_pos (by decide)]
    norm_num
  · intro h hh
    exact JacFD_eq_JacTransform_of_identity 0 (fun _ => 0) h hh rfl rfl

end TransformationExample

/-! ## The IMU rotational-rate update: properties -/

namespace ImurorUpdate

/-- C21: for a time step `dt > 0`, `Eval` computes
`meas.MwM - (MwM_cur + MwM_bias_cur + MwM_noi / sqrt(dt))`; `JacCur` is the 3 × 6 matrix
`[-I, -I]` and `JacNoi` is `-(1/sqrt(dt)) I`, at every `(cur, bias, noi)` and for every bound
measurement; `Eval(cur+a, bias+b, noi+c) - Eval(cur, bias, noi) = JacCur (a;b) + JacNoi c`, and
the central and the forward difference quotients of `Eval` equal the entries of the analytic
Jacobians for every non-zero step. -/
theorem Eval_Jacobians_spec (r : ImurorUpdate) (hdt : 0 < r.dt_) (cur bias noi : Vec ℝ 3) :
    0 < Real.sqrt r.dt_ ∧
    (∀ i, r.Eval cur bias noi i
        = r.meas_MwM_ i - (cur i + bias i + noi i / Real.sqrt r.dt_)) ∧
    (∀ (i : Fin 3) (j : Fin 6), r.JacCur cur bias noi i j
        = if j.val = i.val ∨ j.val = i.val + 3 then -1 else 0) ∧
    r.JacNoi cur bias noi = (-(1 / Real.sqrt r.dt_)) • (1 : Matrix (Fin 3) (Fin 3) ℝ) ∧
    (∀ (x : Vec ℝ 6) (c : Vec ℝ 3),
      r.Eval (cur + block x 0 3 (by omega)) (bias + block x 3 3 (by omega)) (noi + c)
          - r.Eval cur bias noi
        = (r.JacCur cur bias noi).mulVec x + (r.JacNoi cur bias noi).mulVec c) ∧
    (∀ h : ℝ, h ≠ 0 → ∀ (i : Fin 3) (j : Fin 6),
      (r.Eval (cur + block (Pi.single j h) 0 3 (by omega))
            (bias + block (Pi.single j h) 3 3 (by omega)) noi i
          - r.Eval (cur - block (Pi.single j h) 0 3 (by omega))
            (bias - block (Pi.single j h) 3 3 (by omega)) noi i) / (2 * h)
        = r.JacCur cur bias noi i j ∧
      (r.Eval (cur + block (Pi.single j h) 0 3 (by omega))
            (bias + block (Pi.single j h) 3 3 (by omega)) noi i
          - r.Eval cur bias noi i) / h
        = r.JacCur cur bias noi i j) ∧
    (∀ h : ℝ, h ≠ 0 → ∀ i j : Fin 3,
      (r.Eval cur bias (noi + Pi.single j h) i - r.Eval cur bias (noi - Pi.single j h) i)
          / (2 * h)
        = r.JacNoi cur bias noi i j ∧
      (r.Eval cur bias (noi + Pi.single j h) i - r.Eval cur bias noi i) / h
        = r.JacNoi cur bias noi i j) :=
  ⟨Real.sqrt_pos.mpr hdt, fun _ => rfl, JacCur_apply r cur bias noi, JacNoi_eq r cur bias noi,
    Eval_linear r cur bias noi,
    fun h hh i j => ⟨Eval_central_cur r cur bias noi h hh i j,
      Eval_forward_cur r cur bias noi h hh i j⟩,
    fun h hh i j => ⟨Eval_central_noi r cur bias noi h hh i j,
      Eval_forward_noi r cur bias noi h hh i j⟩⟩

theorem Eval_Jacobians_spec_witness :
    0 < (construct 4 ![1, 2, 3]).dt_ ∧
    ∀ (x : Vec ℝ 6) (c : Vec ℝ 3),
      (construct 4 ![1, 2, 3]).Eval (![1, 0, 0] + block x 0 3 (by omega))
          (![0, 1, 0] + block x 3 3 (by omega)) (![0, 0, 1] + c)
          - (construct 4 ![1, 2, 3]).Eval ![1, 0, 0] ![0, 1, 0] ![0, 0, 1]
        = ((construct 4 ![1, 2, 3]).JacCur ![1, 0, 0] ![0, 1, 0] ![0, 0, 1]).mulVec x
          + ((construct 4 ![1, 2, 3]).JacNoi ![1, 0, 0] ![0, 1, 0] ![0, 0, 1]).mulVec c :=
  ⟨by show (0 : ℝ) < 4; norm_num,
    (Eval_Jacobians_spec (construct 4 ![1, 2, 3]) (by show (0 : ℝ) < 4; norm_num)
      ![1, 0, 0] ![0, 1, 0] ![0, 0, 1]).2.2.2.2.1⟩

/-- C22: `GetNoiseWeighting(inn, i)` is 1 when the threshold is negative, as is the threshold
`-1` that the constructor sets; it is 1 when the threshold `th` is non-negative and the norm of
the first element of the innovation is at most `th`; it is
`sqrt(th * (norm - th/2) / norm^2)` when `th` is non-negative and the norm exceeds `th`; it does
not depend on the row index `i`; `SetHuberTh` stores any threshold. -/
theorem GetNoiseWeighting_spec (r : ImurorUpdate) (inn : Vec ℝ 3) (i : Int) :
    (r.huberTh_ < 0 → r.GetNoiseWeighting inn i = 1) ∧
    (0 ≤ r.huberTh_ → Vec3.norm inn ≤ r.huberTh_ → r.GetNoiseWeighting inn i = 1) ∧
    (0 ≤ r.huberTh_ → r.huberTh_ < Vec3.norm inn →
      r.GetNoiseWeighting inn i
        = Real.sqrt (r.huberTh_ * (Vec3.norm inn - r.huberTh_ / 2) / Vec3.norm inn ^ 2)) ∧
    (∀ k : Int, r.GetNoiseWeighting inn k = r.GetNoiseWeighting inn i) ∧
    (∀ (dt : ℝ) (meas : Vec ℝ 3), (construct dt meas).huberTh_ = -1 ∧
      (construct dt meas).GetNoiseWeighting inn i = 1) ∧
    (∀ th : ℝ, (r.SetHuberTh th).huberTh_ = th ∧ (r.SetHuberTh th).dt_ = r.dt_ ∧
      (r.SetHuberTh th).meas_MwM_ = r.meas_MwM_) := by
  refine ⟨GetNoiseWeighting_neg r inn i, fun _ h => GetNoiseWeighting_le r inn i h, ?_,
    fun _ => rfl, fun dt meas => ⟨rfl, ?_⟩, fun _ => ⟨rfl, rfl, rfl⟩⟩
  · intro h0 h
    rw [GetNoiseWeighting_gt r inn i h0 h]
    congr 1
    norm_num
    ring
  · apply GetNoiseWeighting_neg
    show (-1 : ℝ) < 0
    norm_num

/-- C23, refuted as stated: `SetHuberTh` accepts the threshold 0, and with it the weight of
the innovation `(1, 0, 0)` is 0, which is not in the interval `(0, 1]`. -/
theorem GetNoiseWeighting_zero_at_zero_threshold :
    ((construct 1 0).SetHuberTh 0).GetNoiseWeighting ![1, 0, 0] 0 = 0 ∧
    ¬ (0 < ((construct 1 0).SetHuberTh 0).GetNoiseWeighting ![1, 0, 0] 0 ∧
        ((construct 1 0).SetHuberTh 0).GetNoiseWeighting ![1, 0, 0] 0 ≤ 1) := by
  have h : ((construct 1 0).SetHuberTh 0).GetNoiseWeighting ![1, 0, 0] 0 = 0 := by
    apply GetNoiseWeighting_zero _ _ _ rfl
    rw [norm_e1 1 zero_le_one]
    exact zero_lt_one
  refine ⟨h, fun hc => ?_⟩
  rw [h] at hc
  exact lt_irrefl _ hc.1

/-- C23, amended: for every threshold and every innovation the weight lies in `[0, 1]`; it
is positive whenever the threshold is not 0; with the threshold 0 it is 0 for every innovation
whose first element has a positive norm and 1 when that norm is 0. -/
theorem GetNoiseWeighting_range (r : ImurorUpdate) (inn : Vec ℝ 3) (i : Int) :
    (0 ≤ r.GetNoiseWeighting inn i ∧ r.GetNoiseWeighting inn i ≤ 1) ∧
    (r.huberTh_ ≠ 0 → 0 < r.GetNoiseWeighting inn i) ∧
    (r.huberTh_ = 0 → 0 < Vec3.norm inn → r.GetNoiseWeighting inn i = 0) ∧
    (r.huberTh_ = 0 → Vec3.norm inn = 0 → r.GetNoiseWeighting inn i = 1) :=
  ⟨⟨GetNoiseWeighting_nonneg r inn i, GetNoiseWeighting_le_one r inn i⟩,
    GetNoiseWeighting_pos r inn i, GetNoiseWeighting_zero r inn i,
    fun h0 hn => GetNoiseWeighting_le r inn i (by rw [h0, hn])⟩

theorem GetNoiseWeighting_range_witness :
    0 < ((construct 1 0).SetHuberTh 1).GetNoiseWeighting ![2, 0, 0] 0 :=
  (GetNoiseWeighting_range ((construct 1 0).SetHuberTh 1) ![2, 0, 0] 0).2.1
    (by show (1 : ℝ) ≠ 0; norm_num)

/-- C28: for a threshold `th > 0`, the weight of an innovation whose first element has a norm
above `th` has a square below `1/2`, so the weight is below `sqrt(1/2)`; the weight is exactly
1 when the norm is at most `th`; the weight is non-increasing in the norm. -/
theorem GetNoiseWeighting_drop (r : ImurorUpdate) (inn : Vec ℝ 3) (i : Int)
    (hth : 0 < r.huberTh_) :
    (r.huberTh_ < Vec3.norm inn →
      r.GetNoiseWeighting inn i ^ 2 < 1 / 2 ∧
      r.GetNoiseWeighting inn i < Real.sqrt (1 / 2)) ∧
    (Vec3.norm inn ≤ r.huberTh_ → r.GetNoiseWeighting inn i = 1) ∧
    (∀ (inn2 : Vec ℝ 3) (k : Int), Vec3.norm inn ≤ Vec3.norm inn2 →
      r.GetNoiseWeighting inn2 k ≤ r.GetNoiseWeighting inn i) := by
  refine ⟨fun h => ?_, GetNoiseWeighting_le r inn i, fun inn2 k hle => ?_⟩
  · rw [GetNoiseWeighting_gt r inn i hth.le h]
    have hp := radicand_pos _ _ hth h
    have hl := radicand_lt_half _ _ hth.le h
    exact ⟨by rw [Real.sq_sqrt hp.le]; exact hl, Real.sqrt_lt_sqrt hp.le hl⟩
  · by_cases h : r.huberTh_ < Vec3.norm inn
    · rw [GetNoiseWeighting_gt r inn i hth.le h,
        GetNoiseWeighting_gt r inn2 k hth.le (lt_of_lt_of_le h hle)]
      exact Real.sqrt_le_sqrt (radicand_anti _ _ _ hth.le h hle)
    · rw [GetNoiseWeighting_le r inn i (not_lt.mp h)]
      exact GetNoiseWeighting_le_one r inn2 k

theorem GetNoiseWeighting_drop_witness :
    0 < ((construct 1 0).SetHuberTh 1).huberTh_ ∧
    ((construct 1 0).SetHuberTh 1).GetNoiseWeighting ![2, 0, 0] 0 ^ 2 < 1 / 2 ∧
    ((construct 1 0).SetHuberTh 1).GetNoiseWeighting ![1, 0, 0] 0 = 1 :=
  ⟨by show (0 : ℝ) < 1; norm_num,
    ((GetNoiseWeighting_drop ((construct 1 0).SetHuberTh 1) ![2, 0, 0] 0
      (by show (0 : ℝ) < 1; norm_num)).1
      (by rw [norm_e1 2 (by norm_num)]; show (1 : ℝ) < 2; norm_num)).1,
    (GetNoiseWeighting_drop ((construct 1 0).SetHuberTh 1) ![1, 0, 0] 0
      (by show (0 : ℝ) < 1; norm_num)).2.1
      (by rw [norm_e1 1 zero_le_one]; exact le_refl _)⟩

end ImurorUpdate

end GIF
